import Mathlib

/-!
Verification development for the paragraph line-breaking and hyphenation
engine of the crosspoint-reader firmware.

The embedding follows `ParsedText.cpp` (paragraph engine, both line
breakers, line extraction) and `Hyphenator.cpp` (hyphenation facade).
Words are UTF-8 byte strings, modelled as lists of byte values; machine
integers are modelled as `Nat`/`Int` with explicit `% 65536` where the
code stores into 16-bit registers.  Helpers whose source files are not
part of the repository snapshot (UTF-8 decoding, the per-language Liang
hyphenators) are modelled from the specification and marked as such.
-/

namespace CP

/-- A word: a UTF-8 byte string (`std::string` in the source). -/
abbrev Word := List Nat

/-- Font style tag (`EpdFontFamily::Style`), a closed four-element set. -/
inductive Style
  | regular
  | bold
  | italic
  | boldItalic
deriving DecidableEq, Repr, Inhabited

/-- Paragraph alignment (`TextBlock` style). -/
inductive Align
  | justified
  | leftAlign
  | rightAlign
  | centerAlign
deriving DecidableEq, Repr, Inhabited

/-- The renderer's deterministic text measurer (`GfxRenderer::getTextWidth`
with the font id fixed): maps a byte string and style to a pixel width. -/
abbrev Measurer := Word → Style → Nat

/-- First byte of the UTF-8 encoding of U+00AD (soft hyphen). -/
def shy1 : Nat := 194

/-- Second byte of the UTF-8 encoding of U+00AD (soft hyphen). -/
def shy2 : Nat := 173

/-- The literal hyphen byte. -/
def hyphenChar : Nat := 45

/-- `containsSoftHyphen` from ParsedText.cpp: does the byte string contain
the two-byte soft-hyphen pattern C2 AD? -/
def containsSoftHyphen : Word → Bool
  | a :: b :: rest => (a == 194 && b == 173) || containsSoftHyphen (b :: rest)
  | _ => false

/-- `stripSoftHyphensInPlace` from ParsedText.cpp: remove every occurrence
of the two-byte soft-hyphen pattern, scanning left to right. -/
def stripSoftHyphens : Word → Word
  | [] => []
  | [a] => [a]
  | a :: b :: rest =>
    if a = 194 ∧ b = 173 then stripSoftHyphens rest
    else a :: stripSoftHyphens (b :: rest)

/-- `measureWordWidth` from ParsedText.cpp: rendered width of a word,
ignoring soft-hyphen glyphs and optionally appending a visible hyphen.
The C++ function returns `uint16_t`, hence the `% 65536`. -/
def measureWordWidth (m : Measurer) (word : Word) (st : Style) (appendHyphen : Bool) : Nat :=
  let hasSoftHyphen := containsSoftHyphen word
  if !hasSoftHyphen && !appendHyphen then
    m word st % 65536
  else
    let sanitized := if hasSoftHyphen then stripSoftHyphens word else word
    let sanitized2 := if appendHyphen then sanitized ++ [hyphenChar] else sanitized
    m sanitized2 st % 65536

/-- `Hyphenator::BreakInfo`: a candidate break point, as a byte offset plus
whether a visible hyphen glyph must be inserted on a break there. -/
structure BreakInfo where
  byteOffset : Nat
  requiresInsertedHyphen : Bool
deriving DecidableEq, Repr

/-- The hyphenation facade as seen by the paragraph engine: candidate break
points for a word, with or without fallback breaks. -/
abbrev BreakFn := Word → Bool → List BreakInfo

/-- The candidate-selection loop of `ParsedText::hyphenateWordAtIndex`
(lines 287-303): iterate over the break infos and retain the widest prefix
that still fits.  The accumulator is (chosenOffset, chosenWidth,
chosenNeedsHyphen); chosenWidth starts at -1. -/
def pickBreak (m : Measurer) (word : Word) (st : Style) (availableWidth : Int) :
    List BreakInfo → Nat × Int × Bool → Nat × Int × Bool
  | [], acc => acc
  | info :: rest, acc =>
    let offset := info.byteOffset
    if offset = 0 || word.length ≤ offset then
      pickBreak m word st availableWidth rest acc
    else
      let needsHyphen := info.requiresInsertedHyphen
      let prefixWidth : Int := (measureWordWidth m (word.take offset) st needsHyphen : Int)
      if availableWidth < prefixWidth || prefixWidth ≤ acc.2.1 then
        pickBreak m word st availableWidth rest acc
      else
        pickBreak m word st availableWidth rest (offset, prefixWidth, needsHyphen)

/-- Result of `ParsedText::hyphenateWordAtIndex`: the boolean return value
plus the (possibly mutated) word list, style list and cached width vector. -/
structure HyphResult where
  ok : Bool
  words : List Word
  wordStyles : List Style
  wordWidths : List Nat
deriving DecidableEq, Repr

/-- The decision part of `ParsedText::hyphenateWordAtIndex`: the chosen
(offset, width, needsHyphen) candidate, or `none` on the non-mutating
early-return paths (non-positive available width, no break candidates, or
no candidate prefix fitting the available width).  It depends only on the
target word, its style, the available width and the fallback flag. -/
def hyphDecision (bo : BreakFn) (m : Measurer) (word : Word) (st : Style)
    (availableWidth : Int) (allowFallbackBreaks : Bool) : Option (Nat × Int × Bool) :=
  if availableWidth ≤ 0 then none
  else if (bo word allowFallbackBreaks).isEmpty then none
  else if (pickBreak m word st availableWidth (bo word allowFallbackBreaks)
      (0, -1, true)).2.1 < 0 then none
  else some (pickBreak m word st availableWidth (bo word allowFallbackBreaks) (0, -1, true))

/-- The mutation part of `ParsedText::hyphenateWordAtIndex` (lines 310-327):
truncate the word to the chosen prefix (appending a hyphen when required),
insert the remainder directly after with the same style, and update the
cached widths for both pieces. -/
def applySplit (m : Measurer) (wordIndex : Nat) (chosen : Nat × Int × Bool)
    (words : List Word) (wordStyles : List Style) (wordWidths : List Nat) : HyphResult :=
  let word := words.getD wordIndex []
  let st := wordStyles.getD wordIndex .regular
  let remainder := word.drop chosen.1
  let headPiece := word.take chosen.1 ++ (if chosen.2.2 then [hyphenChar] else [])
  ⟨true, (words.set wordIndex headPiece).insertIdx (wordIndex + 1) remainder,
    wordStyles.insertIdx (wordIndex + 1) st,
    (wordWidths.set wordIndex chosen.2.1.toNat).insertIdx (wordIndex + 1)
      (measureWordWidth m remainder st false)⟩

/-- `ParsedText::hyphenateWordAtIndex`: split `words[wordIndex]` into a
prefix (appending a hyphen only when the chosen candidate requires one) and
a remainder, when a legal breakpoint fits `availableWidth`.  Every early
return leaves the three lists untouched, exactly as the C++ performs no
mutation before the chosen candidate is committed. -/
def hyphenateWordAtIndex (bo : BreakFn) (m : Measurer)
    (wordIndex : Nat) (availableWidth : Int)
    (words : List Word) (wordStyles : List Style) (wordWidths : List Nat)
    (allowFallbackBreaks : Bool) : HyphResult :=
  if availableWidth ≤ 0 || words.length ≤ wordIndex then
    ⟨false, words, wordStyles, wordWidths⟩
  else
    match hyphDecision bo m (words.getD wordIndex []) (wordStyles.getD wordIndex .regular)
        availableWidth allowFallbackBreaks with
    | none => ⟨false, words, wordStyles, wordWidths⟩
    | some chosen => applySplit m wordIndex chosen words wordStyles wordWidths

/-- `CodepointInfo`: a decoded codepoint value paired with its byte offset
in the source word. -/
structure CodepointInfo where
  value : Nat
  byteOffset : Nat
deriving DecidableEq, Repr

/-- Modelled from the spec: UTF-8 codepoint decoding with byte offsets (the
`Utf8` helper library is absent from src/).  Well-formed sequences decode
as usual; a truncated multi-byte tail is taken as a single raw codepoint
(malformed input is out of the engine's contract, spec section 7). -/
def utf8Decode : Word → Nat → List CodepointInfo
  | [], _ => []
  | b :: rest, off =>
    if b < 128 then ⟨b, off⟩ :: utf8Decode rest (off + 1)
    else if b < 224 then
      match rest with
      | b2 :: rest2 => ⟨(b % 32) * 64 + b2 % 64, off⟩ :: utf8Decode rest2 (off + 2)
      | [] => [⟨b, off⟩]
    else if b < 240 then
      match rest with
      | b2 :: b3 :: rest3 => ⟨((b % 16) * 64 + b2 % 64) * 64 + b3 % 64, off⟩ :: utf8Decode rest3 (off + 3)
      | [_] => [⟨b, off⟩]
      | [] => [⟨b, off⟩]
    else
      match rest with
      | b2 :: b3 :: b4 :: rest4 =>
        ⟨(((b % 8) * 64 + b2 % 64) * 64 + b3 % 64) * 64 + b4 % 64, off⟩ :: utf8Decode rest4 (off + 4)
      | [_, _] => [⟨b, off⟩]
      | [_] => [⟨b, off⟩]
      | [] => [⟨b, off⟩]

/-- Modelled from the spec: `collectCodepoints` (HyphenationCommon, absent
from src/) decodes a word into its codepoint sequence. -/
def collectCodepoints (w : Word) : List CodepointInfo := utf8Decode w 0

/-- Modelled from the spec: the soft hyphen is the invisible marker U+00AD. -/
def isSoftHyphen (cp : Nat) : Bool := cp == 173

/-- Modelled from the spec: an explicit in-word hyphen marker is a literal
hyphen or a soft hyphen (HyphenationCommon, absent from src/). -/
def isExplicitHyphen (cp : Nat) : Bool := cp == 45 || cp == 173

/-- Modelled from the spec: alphabetic codepoints of the supported scripts
(basic Latin letters, Latin-1/extended letters, Cyrillic). -/
def isAlphabetic (cp : Nat) : Bool :=
  (65 ≤ cp && cp ≤ 90) || (97 ≤ cp && cp ≤ 122) || (192 ≤ cp && cp ≤ 591) ||
    (1024 ≤ cp && cp ≤ 1279)

/-- Modelled from the spec: punctuation and footnote-marker codepoints that
are trimmed from the ends of a word before break discovery (ASCII
punctuation, general punctuation, superscript digits). -/
def isPunctuationOrFootnote (cp : Nat) : Bool :=
  (33 ≤ cp && cp ≤ 47) || (58 ≤ cp && cp ≤ 64) || (91 ≤ cp && cp ≤ 96) ||
    (123 ≤ cp && cp ≤ 126) || (8208 ≤ cp && cp ≤ 8231) ||
    cp == 178 || cp == 179 || cp == 185 || (8304 ≤ cp && cp ≤ 8313)

/-- Modelled from the spec: trim leading and trailing punctuation and
footnote markers from the codepoint sequence (HyphenationCommon, absent
from src/). -/
def trimSurroundingPunctuationAndFootnote (cps : List CodepointInfo) : List CodepointInfo :=
  (((cps.dropWhile fun c => isPunctuationOrFootnote c.value).reverse.dropWhile
    fun c => isPunctuationOrFootnote c.value).reverse)

/-- The sliding-window scan of `buildExplicitBreakInfos` (Hyphenator.cpp
lines 39-46): for every codepoint with index 1 ≤ i ≤ n-2 that is an
explicit hyphen marker surrounded by alphabetic codepoints, emit a break at
the byte offset of the following codepoint, requiring an inserted hyphen
exactly for soft-hyphen markers. -/
def explicitBreakScan : List CodepointInfo → List BreakInfo
  | a :: b :: c :: rest =>
    (if isExplicitHyphen b.value && isAlphabetic a.value && isAlphabetic c.value then
      [⟨c.byteOffset, isSoftHyphen b.value⟩] else []) ++ explicitBreakScan (b :: c :: rest)
  | _ => []

/-- `buildExplicitBreakInfos` from Hyphenator.cpp. -/
def buildExplicitBreakInfos (cps : List CodepointInfo) : List BreakInfo :=
  explicitBreakScan cps

/-- Modelled from the spec: a per-language Liang-pattern hyphenator (the
`LanguageHyphenator` implementation is absent from src/).  Pattern-voting
produces raw candidate gaps; candidates violating the language's minimum
prefix or suffix letter count are discarded (spec section 4.5). -/
structure LanguageHyphenator where
  patternGaps : List Nat → List Nat
  minPrefix : Nat
  minSuffix : Nat

/-- Modelled from the spec: `LanguageHyphenator::breakIndexes` filters the
pattern-derived gaps by the minimum prefix/suffix counts. -/
def LanguageHyphenator.breakIndexes (lh : LanguageHyphenator)
    (cps : List CodepointInfo) : List Nat :=
  (lh.patternGaps (cps.map CodepointInfo.value)).filter
    fun i => lh.minPrefix ≤ i && i + lh.minSuffix ≤ cps.length

/-- Modelled from the spec: the engine-wide default minimum prefix length
(`LiangWordConfig::kDefaultMinPrefix`, absent from src/; model constant). -/
def kDefaultMinPrefix : Nat := 2

/-- Modelled from the spec: the engine-wide default minimum suffix length
(`LiangWordConfig::kDefaultMinSuffix`, absent from src/; model constant). -/
def kDefaultMinSuffix : Nat := 2

/-- The facade's active language: `Hyphenator::cachedHyphenator_`, threaded
explicitly instead of process-wide mutable state. -/
abbrev ActiveLanguage := Option LanguageHyphenator

/-- The language hyphenator consulted by the facade, if any. -/
def activeBreakIndexes (lang : ActiveLanguage) (cps : List CodepointInfo) : List Nat :=
  match lang with
  | some h => h.breakIndexes cps
  | none => []

/-- The active (or default) minimum prefix, Hyphenator.cpp line 77. -/
def activeMinPrefix (lang : ActiveLanguage) : Nat :=
  match lang with
  | some h => h.minPrefix
  | none => kDefaultMinPrefix

/-- The active (or default) minimum suffix, Hyphenator.cpp line 78. -/
def activeMinSuffix (lang : ActiveLanguage) : Nat :=
  match lang with
  | some h => h.minSuffix
  | none => kDefaultMinSuffix

/-- The fallback synthesis loop of Hyphenator.cpp lines 79-81: all indices
idx with minPrefix ≤ idx and idx + minSuffix ≤ n, in increasing order. -/
def fallbackIndexes (minP minS n : Nat) : List Nat :=
  List.range' minP (n + 1 - minS - minP)

/-- `byteOffsetForIndex` from Hyphenator.cpp: map a codepoint index back to
a byte offset, clamping to the final codepoint (or 0 when empty). -/
def byteOffsetForIndex (cps : List CodepointInfo) (index : Nat) : Nat :=
  if h : index < cps.length then (cps.get ⟨index, h⟩).byteOffset
  else match cps.getLast? with
    | some c => c.byteOffset
    | none => 0

/-- `Hyphenator::breakOffsets`: explicit markers take precedence; otherwise
language breaks; otherwise (with `includeFallback`) naive fallback breaks.
The final `indexes.empty` early return of the C++ coincides with mapping
over an empty list. -/
def Hyphenator.breakOffsets (lang : ActiveLanguage) (word : Word)
    (includeFallback : Bool) : List BreakInfo :=
  if word.isEmpty then []
  else
    let cps := trimSurroundingPunctuationAndFootnote (collectCodepoints word)
    let explicitBreakInfos := buildExplicitBreakInfos cps
    if !explicitBreakInfos.isEmpty then explicitBreakInfos
    else
      let indexes := activeBreakIndexes lang cps
      let indexes2 :=
        if includeFallback && indexes.isEmpty then
          fallbackIndexes (activeMinPrefix lang) (activeMinSuffix lang) cps.length
        else indexes
      indexes2.map fun idx => BreakInfo.mk (byteOffsetForIndex cps idx) true

/-- C10: whenever `hyphenateWordAtIndex` returns false, the word list, the
style list and the cached width vector are all left exactly unchanged. -/
theorem hyphenateWordAtIndex_fail_unchanged (bo : BreakFn) (m : Measurer)
    (wordIndex : Nat) (availableWidth : Int)
    (words : List Word) (wordStyles : List Style) (wordWidths : List Nat)
    (allowFallbackBreaks : Bool)
    (h : (hyphenateWordAtIndex bo m wordIndex availableWidth words wordStyles wordWidths
      allowFallbackBreaks).ok = false) :
    (hyphenateWordAtIndex bo m wordIndex availableWidth words wordStyles wordWidths
      allowFallbackBreaks).words = words ∧
    (hyphenateWordAtIndex bo m wordIndex availableWidth words wordStyles wordWidths
      allowFallbackBreaks).wordStyles = wordStyles ∧
    (hyphenateWordAtIndex bo m wordIndex availableWidth words wordStyles wordWidths
      allowFallbackBreaks).wordWidths = wordWidths := by
  unfold hyphenateWordAtIndex at h ⊢
  split
  · exact ⟨rfl, rfl, rfl⟩
  next hcond =>
    split
    · exact ⟨rfl, rfl, rfl⟩
    next chosen heq =>
      rw [if_neg hcond, heq] at h
      simp [applySplit] at h

/-- Witness for C10: a concrete failing call (no break candidates) leaves
the buffer unchanged. -/
theorem hyphenateWordAtIndex_fail_unchanged_witness :
    (hyphenateWordAtIndex (fun _ _ => []) (fun w _ => w.length) 0 10
      [[97, 98, 99]] [.regular] [3] true).words = [[97, 98, 99]] ∧
    (hyphenateWordAtIndex (fun _ _ => []) (fun w _ => w.length) 0 10
      [[97, 98, 99]] [.regular] [3] true).wordStyles = [Style.regular] ∧
    (hyphenateWordAtIndex (fun _ _ => []) (fun w _ => w.length) 0 10
      [[97, 98, 99]] [.regular] [3] true).wordWidths = [3] :=
  hyphenateWordAtIndex_fail_unchanged (fun _ _ => []) (fun w _ => w.length) 0 10
    [[97, 98, 99]] [.regular] [3] true (by decide)

/-- `MAX_COST` from ParsedText.cpp: `std::numeric_limits<int>::max()`. -/
def MAX_COST : Int := 2147483647

/-- The DP cost of a non-final line (ParsedText.cpp lines 148-156): the
squared remaining space plus the successor cost, computed exactly over the
integers (the C++ widens to `long long`), saturated to `MAX_COST`. -/
def lineCost (pageWidth currlen dpNext : Int) : Int :=
  let remainingSpace := pageWidth - currlen
  let cost_ll := remainingSpace * remainingSpace + dpNext
  if MAX_COST < cost_ll then MAX_COST else cost_ll

/-- The inner candidate loop of `ParsedText::computeLineBreaks` (lines
136-163) for a line starting at some index i: walk the candidate last words
j = i, i+1, ... (`widthsFromJ` are the widths from j on, `dpNexts` the dp
values for j+1 on, so `dpNexts = []` exactly when j is the overall last
word), accumulate the running line width, stop on overflow, and keep the
strictly best (cost, relative last index) seen. -/
def dpCostOf (pageWidth currlen2 : Int) : List Int → Int
  | [] => 0
  | d :: _ => lineCost pageWidth currlen2 d

def dpInner (pageWidth spaceWidth : Int) :
    List Nat → List Int → Int → Nat → Int × Nat → Int × Nat
  | [], _, _, _, best => best
  | w :: wrest, dpNexts, currlen, jRel, best =>
    let currlen2 := currlen + w + spaceWidth
    if pageWidth < currlen2 then best
    else
      let cost := dpCostOf pageWidth currlen2 dpNexts
      let best2 := if cost < best.1 then (cost, jRel) else best
      dpInner pageWidth spaceWidth wrest dpNexts.tail currlen2 (jRel + 1) best2

/-- The DP table of `ParsedText::computeLineBreaks` (lines 123-176), built
backward from the final word: entry k of the result is (dp, ans) for the
suffix starting at word k, with ans stored relative to k.  The base case
dp=0, ans=last is the C++ initialization for the final word; when no
candidate fits, the C++ forces a single-word line and inherits dp[i+1]. -/
def dpTable (pageWidth spaceWidth : Int) : List Nat → List (Int × Nat)
  | [] => []
  | [_] => [(0, 0)]
  | w :: rest =>
    let tbl := dpTable pageWidth spaceWidth rest
    let best := dpInner pageWidth spaceWidth (w :: rest) (tbl.map Prod.fst)
      (-spaceWidth) 0 (MAX_COST, 0)
    let entry :=
      if best.1 = MAX_COST then ((tbl.map Prod.fst).headD 0, 0)
      else best
    entry :: tbl

/-- The reconstruction loop of `ParsedText::computeLineBreaks` (lines
179-193): starting at word 0, repeatedly jump past the recorded best line
end.  The jump is at least one word (the C++ safety guard); the fuel is the
table length, never exhausted since every step advances. -/
def reconstructBreaks : Nat → Nat → List (Int × Nat) → List Nat
  | 0, _, _ => []
  | _ + 1, _, [] => []
  | fuel + 1, absIdx, entry :: rest =>
    let step := max (entry.2 + 1) 1
    (absIdx + step) :: reconstructBreaks fuel (absIdx + step) ((entry :: rest).drop step)

/-- The inner while loop of the pre-pass of `ParsedText::computeLineBreaks`
(lines 113-119): while word i is wider than the page, split it with
fallback breaks allowed; stop as soon as a split fails.  A successful split
caches a prefix width of at most `pageWidth`, so each iteration strictly
decreases `widths[i]`; the fuel `widths[i] + 1` used at the call site is
therefore never exhausted. -/
def prePassAt (bo : BreakFn) (m : Measurer) (pageWidth : Int) (i : Nat) :
    Nat → List Word → List Style → List Nat → List Word × List Style × List Nat
  | 0, words, styles, widths => (words, styles, widths)
  | fuel + 1, words, styles, widths =>
    if pageWidth < (widths.getD i 0 : Int) then
      let r := hyphenateWordAtIndex bo m i pageWidth words styles widths true
      if r.ok then prePassAt bo m pageWidth i fuel r.words r.wordStyles r.wordWidths
      else (words, styles, widths)
    else (words, styles, widths)

/-- The outer for loop of the pre-pass (ParsedText.cpp lines 113-119),
iterating over the growing width vector.  Each realized split strictly
shortens the byte length of the remaining words, so the byte-count fuel
supplied by `computeLineBreaks` is never exhausted. -/
def prePass (bo : BreakFn) (m : Measurer) (pageWidth : Int) :
    Nat → Nat → List Word → List Style → List Nat → List Word × List Style × List Nat
  | 0, _, words, styles, widths => (words, styles, widths)
  | fuel + 1, i, words, styles, widths =>
    if i < widths.length then
      let r := prePassAt bo m pageWidth i (widths.getD i 0 + 1) words styles widths
      prePass bo m pageWidth fuel (i + 1) r.1 r.2.1 r.2.2
    else (words, styles, widths)

/-- Fuel bound for loops that advance at least one word per iteration while
splits may insert at most one word per byte of the original text. -/
def totalByteFuel (words : List Word) : Nat :=
  (words.map List.length).sum + words.length + 1

/-- `ParsedText::computeLineBreaks`: DP-optimal line breaking over the
pre-passed width vector, returning the exclusive line-end indices together
with the (possibly split) buffer state. -/
def computeLineBreaks (bo : BreakFn) (m : Measurer) (pageWidth spaceWidth : Int)
    (words : List Word) (styles : List Style) (widths : List Nat) :
    List Nat × List Word × List Style × List Nat :=
  if words.isEmpty then ([], words, styles, widths)
  else
    let pp := prePass bo m pageWidth (totalByteFuel words) 0 words styles widths
    let tbl := dpTable pageWidth spaceWidth pp.2.2
    (reconstructBreaks tbl.length 0 tbl, pp.1, pp.2.1, pp.2.2)

/-- The inner word-consuming loop of
`ParsedText::computeHyphenatedLineBreaks` (lines 220-250): accumulate words
into the current line while they fit; on overflow try to split (fallback
breaks only for the first word on the line); otherwise close the line,
forcing at least one word on it.  Only the fit path continues the loop, so
the `widths.length + 1` fuel supplied by the outer loop is never
exhausted. -/
def greedyLine (bo : BreakFn) (m : Measurer) (pageWidth spaceWidth : Int) (lineStart : Nat) :
    Nat → Nat → Int → List Word → List Style → List Nat →
    Nat × List Word × List Style × List Nat
  | 0, currentIndex, _, words, styles, widths => (currentIndex, words, styles, widths)
  | fuel + 1, currentIndex, lineWidth, words, styles, widths =>
    if currentIndex < widths.length then
      let spacing : Int := if currentIndex = lineStart then 0 else spaceWidth
      let candidateWidth : Int := spacing + (widths.getD currentIndex 0 : Int)
      if lineWidth + candidateWidth ≤ pageWidth then
        greedyLine bo m pageWidth spaceWidth lineStart fuel (currentIndex + 1)
          (lineWidth + candidateWidth) words styles widths
      else
        let availableWidth := pageWidth - lineWidth - spacing
        if 0 < availableWidth then
          let r := hyphenateWordAtIndex bo m currentIndex availableWidth words styles widths
            (currentIndex = lineStart)
          if r.ok then (currentIndex + 1, r.words, r.wordStyles, r.wordWidths)
          else if currentIndex = lineStart then (currentIndex + 1, words, styles, widths)
          else (currentIndex, words, styles, widths)
        else if currentIndex = lineStart then (currentIndex + 1, words, styles, widths)
        else (currentIndex, words, styles, widths)
    else (currentIndex, words, styles, widths)

/-- The outer line loop of `ParsedText::computeHyphenatedLineBreaks` (lines
215-253): run the inner loop from each line start and record the exclusive
line-end index.  Every iteration advances by at least one word while a
split inserts at most one word per byte, so the byte-count fuel is never
exhausted. -/
def greedyBreaks (bo : BreakFn) (m : Measurer) (pageWidth spaceWidth : Int) :
    Nat → Nat → List Nat → List Word → List Style → List Nat →
    List Nat × List Word × List Style × List Nat
  | 0, _, acc, words, styles, widths => (acc, words, styles, widths)
  | fuel + 1, currentIndex, acc, words, styles, widths =>
    if currentIndex < widths.length then
      let r := greedyLine bo m pageWidth spaceWidth currentIndex (widths.length + 1)
        currentIndex 0 words styles widths
      greedyBreaks bo m pageWidth spaceWidth fuel r.1 (acc ++ [r.1]) r.2.1 r.2.2.1 r.2.2.2
    else (acc, words, styles, widths)

/-- `ParsedText::computeHyphenatedLineBreaks`: greedy line breaking with
opportunistic mid-line word splitting. -/
def computeHyphenatedLineBreaks (bo : BreakFn) (m : Measurer) (pageWidth spaceWidth : Int)
    (words : List Word) (styles : List Style) (widths : List Nat) :
    List Nat × List Word × List Style × List Nat :=
  greedyBreaks bo m pageWidth spaceWidth (totalByteFuel words) 0 [] words styles widths

/-- The live paragraph buffer and its configuration (`ParsedText`). -/
structure ParsedText where
  words : List Word
  wordStyles : List Style
  style : Align
  hyphenationEnabled : Bool
  extraParagraphSpacing : Bool
deriving DecidableEq, Repr

/-- The em-space glyph inserted as paragraph indent (UTF-8 E2 80 83). -/
def emSpace : Word := [226, 128, 131]

/-- `ParsedText::applyParagraphIndent`: unless extra paragraph spacing is
configured or the buffer is empty, prepend an em space to the first word of
Justified and LeftAlign paragraphs. -/
def applyParagraphIndent (pt : ParsedText) : ParsedText :=
  if pt.extraParagraphSpacing || pt.words.isEmpty then pt
  else if pt.style = .justified || pt.style = .leftAlign then
    { pt with words := match pt.words with
        | [] => []
        | w :: rest => (emSpace ++ w) :: rest }
  else pt

/-- `ParsedText::calculateWordWidths`: measure every word with its style. -/
def calculateWordWidths (m : Measurer) (words : List Word) (styles : List Style) : List Nat :=
  List.zipWith (fun w s => measureWordWidth m w s false) words styles

/-- One emitted line (`TextBlock`): words, per-word x offsets, styles and
the paragraph alignment.  Immutable once produced. -/
structure TextBlock where
  words : List Word
  xPositions : List Nat
  wordStyles : List Style
  style : Align
deriving DecidableEq, Repr

/-- The per-gap spacing of `ParsedText::extractLine` (lines 346-351):
Justified non-final lines with at least two words distribute the spare
space by integer division; everything else uses the base space width.
(The justified branch is only reached with nonnegative spare space for
breaker-produced lines, where `Int.div` agrees with the C++ division.) -/
def lineSpacing (spaceWidth : Int) (align : Align) (isLastLine : Bool)
    (lineWordCount : Nat) (spareSpace : Int) : Int :=
  if align = .justified && !isLastLine && decide (2 ≤ lineWordCount) then
    Int.tdiv spareSpace ((lineWordCount : Int) - 1)
  else spaceWidth

/-- The x-position loop of `ParsedText::extractLine` (lines 362-367):
positions accumulate word widths plus spacing into a 16-bit register. -/
def extractXPositions (spacing : Int) : Nat → List Nat → List Nat
  | _, [] => []
  | xpos, w :: rest =>
    xpos :: extractXPositions spacing (((xpos : Int) + (w : Int) + spacing).emod 65536).toNat rest

/-- The widths of the words of line `breakIndex`. -/
def lineWidths (widths : List Nat) (lastBreakAt lineBreak : Nat) : List Nat :=
  (widths.drop lastBreakAt).take (lineBreak - lastBreakAt)

/-- `ParsedText::extractLine`: compute the line's spacing and x offsets from
the cached widths, then move the line's words and styles out of the front
of the live buffer, stripping residual soft hyphens from the moved words.
The initial x position of RightAlign/CenterAlign lines goes through the
same 16-bit register as the running position. -/
def extractLine (pageWidth spaceWidth : Int) (align : Align) (widths : List Nat)
    (breaks : List Nat) (breakIndex : Nat) (words : List Word) (styles : List Style) :
    TextBlock × List Word × List Style :=
  let lineBreak := breaks.getD breakIndex 0
  let lastBreakAt := if breakIndex = 0 then 0 else breaks.getD (breakIndex - 1) 0
  let lineWordCount := lineBreak - lastBreakAt
  let ws := lineWidths widths lastBreakAt lineBreak
  let lineWordWidthSum : Int := (ws.sum : Int)
  let spareSpace : Int := pageWidth - lineWordWidthSum
  let isLastLine := breakIndex = breaks.length - 1
  let spacing := lineSpacing spaceWidth align isLastLine lineWordCount spareSpace
  let xpos0 : Nat :=
    if align = .rightAlign then
      ((spareSpace - ((lineWordCount - 1 : Nat) : Int) * spaceWidth).emod 65536).toNat
    else if align = .centerAlign then
      (((spareSpace - ((lineWordCount - 1 : Nat) : Int) * spaceWidth).fdiv 2).emod 65536).toNat
    else 0
  let lineXPos := extractXPositions spacing xpos0 ws
  let lineWords := (words.take lineWordCount).map
    fun w => if containsSoftHyphen w then stripSoftHyphens w else w
  (⟨lineWords, lineXPos, styles.take lineWordCount, align⟩,
    words.drop lineWordCount, styles.drop lineWordCount)

/-- The extraction loop of `ParsedText::layoutAndExtractLines` (lines
82-84): extract `count` lines starting at line index `i`, threading the
shrinking buffer. -/
def extractLines (pageWidth spaceWidth : Int) (align : Align) (widths : List Nat)
    (breaks : List Nat) :
    Nat → Nat → List Word → List Style → List TextBlock × List Word × List Style
  | 0, _, words, styles => ([], words, styles)
  | count + 1, i, words, styles =>
    let r := extractLine pageWidth spaceWidth align widths breaks i words styles
    let rest := extractLines pageWidth spaceWidth align widths breaks count (i + 1) r.2.1 r.2.2
    (r.1 :: rest.1, rest.2.1, rest.2.2)

/-- `ParsedText::layoutAndExtractLines`: apply the paragraph indent,
measure, break (greedy when hyphenation is enabled, DP otherwise), then
extract every line except, when `includeLastLine` is false, the final
one.  Returns the emitted blocks and the remaining buffer state. -/
def layoutAndExtractLines (bo : BreakFn) (m : Measurer) (pt : ParsedText)
    (viewportWidth spaceWidth : Nat) (includeLastLine : Bool) :
    List TextBlock × ParsedText :=
  if pt.words.isEmpty then ([], pt)
  else
    let pt1 := applyParagraphIndent pt
    let pageWidth : Int := (viewportWidth : Int)
    let sw : Int := (spaceWidth : Int)
    let widths0 := calculateWordWidths m pt1.words pt1.wordStyles
    let r :=
      if pt1.hyphenationEnabled then
        computeHyphenatedLineBreaks bo m pageWidth sw pt1.words pt1.wordStyles widths0
      else
        computeLineBreaks bo m pageWidth sw pt1.words pt1.wordStyles widths0
    let breaks := r.1
    let lineCount := if includeLastLine then breaks.length else breaks.length - 1
    let ex := extractLines pageWidth sw pt1.style r.2.2.2 breaks lineCount 0 r.2.1 r.2.2.1
    (ex.1, { pt1 with words := ex.2.1, wordStyles := ex.2.2 })

/-- `ParsedText::addWord`: ignore empty words, otherwise append the word
and its style to the live buffer. -/
def addWord (pt : ParsedText) (word : Word) (fontStyle : Style) : ParsedText :=
  if word.isEmpty then pt
  else { pt with words := pt.words ++ [word], wordStyles := pt.wordStyles ++ [fontStyle] }

/-- A simple concrete measurer: byte length of the word. -/
def byteLengthMeasurer : Measurer := fun w _ => w.length

/-- A break function with no candidates (hyphenation effectively absent). -/
def noBreaks : BreakFn := fun _ _ => []

/-- Content width of an emitted line: the x offset of its last word plus
that word's measured width. -/
def blockContentWidth (m : Measurer) (b : TextBlock) : Nat :=
  match (b.xPositions.zip (b.words.zip b.wordStyles)).getLast? with
  | some (x, w, st) => x + measureWordWidth m w st false
  | none => 0

/-- Counterexample to C2 as stated: viewport 10, space width 1, three words
of width 1 followed by a word of width 9, Justified.  The first emitted
line is non-final and holds 3 words, but its content width (word widths
plus gaps) is 9, not the viewport width 10: the integer division
7 / 2 = 3 drops one leftover pixel. -/
theorem justified_exact_fill_counterexample :
    ((layoutAndExtractLines noBreaks byteLengthMeasurer
      ⟨[[1], [2], [3], [97, 97, 97, 97, 97, 97, 97, 97, 97]],
        [.regular, .regular, .regular, .regular], .justified, false, true⟩
      10 1 true).1.map fun b => (b.words.length, blockContentWidth byteLengthMeasurer b)) =
      [(3, 9), (1, 9)] ∧ (9 : Nat) ≠ 10 := by
  constructor
  · decide
  · decide

/-- C2 amended: for Justified non-final lines with at least two words the
inter-word gap is the integer quotient of the spare space by the gap
count, so word widths plus gaps equal the viewport width minus the
division remainder (exact fill only when the gap count divides the spare
space); for all other alignments and for final lines every gap is the base
space width; and the emitted line's x offsets are generated with exactly
that gap. -/
theorem justified_gap_amended :
    (∀ (sw pageWidth : Int) (n : Nat) (sum : Int), 2 ≤ n → 0 ≤ pageWidth - sum →
      lineSpacing sw .justified false n (pageWidth - sum) =
        (pageWidth - sum).tdiv ((n : Int) - 1) ∧
      sum + ((n : Int) - 1) * lineSpacing sw .justified false n (pageWidth - sum) =
        pageWidth - (pageWidth - sum).tmod ((n : Int) - 1) ∧
      0 ≤ (pageWidth - sum).tmod ((n : Int) - 1) ∧
      (pageWidth - sum).tmod ((n : Int) - 1) < (n : Int) - 1) ∧
    (∀ (sw : Int) (align : Align) (isLast : Bool) (n : Nat) (spare : Int),
      align ≠ .justified ∨ isLast = true ∨ n < 2 →
      lineSpacing sw align isLast n spare = sw) ∧
    (∀ (pageWidth sw : Int) (align : Align) (widths : List Nat) (breaks : List Nat)
      (bi : Nat) (words : List Word) (styles : List Style),
      (extractLine pageWidth sw align widths breaks bi words styles).1.xPositions =
        extractXPositions
          (lineSpacing sw align (decide (bi = breaks.length - 1))
            (breaks.getD bi 0 - (if bi = 0 then 0 else breaks.getD (bi - 1) 0))
            (pageWidth -
              ((lineWidths widths (if bi = 0 then 0 else breaks.getD (bi - 1) 0)
                (breaks.getD bi 0)).sum : Int)))
          (if align = .rightAlign then
            ((pageWidth -
                ((lineWidths widths (if bi = 0 then 0 else breaks.getD (bi - 1) 0)
                  (breaks.getD bi 0)).sum : Int) -
              ((breaks.getD bi 0 - (if bi = 0 then 0 else breaks.getD (bi - 1) 0) - 1 : Nat) : Int)
                * sw).emod 65536).toNat
          else if align = .centerAlign then
            (((pageWidth -
                ((lineWidths widths (if bi = 0 then 0 else breaks.getD (bi - 1) 0)
                  (breaks.getD bi 0)).sum : Int) -
              ((breaks.getD bi 0 - (if bi = 0 then 0 else breaks.getD (bi - 1) 0) - 1 : Nat) : Int)
                * sw).fdiv 2).emod 65536).toNat
          else 0)
          (lineWidths widths (if bi = 0 then 0 else breaks.getD (bi - 1) 0)
            (breaks.getD bi 0))) := by
  refine ⟨?_, ?_, ?_⟩
  · intro sw pageWidth n sum hn hspare
    have hpos : (0 : Int) < (n : Int) - 1 := by
      have : (2 : Int) ≤ (n : Int) := by exact_mod_cast hn
      linarith
    have hsp : lineSpacing sw .justified false n (pageWidth - sum) =
        (pageWidth - sum).tdiv ((n : Int) - 1) := by
      simp [lineSpacing, hn]
    refine ⟨hsp, ?_, ?_, ?_⟩
    · rw [hsp]
      have := Int.tdiv_add_tmod (pageWidth - sum) ((n : Int) - 1)
      linarith
    · exact Int.tmod_nonneg _ hspare
    · exact Int.tmod_lt_of_pos _ hpos
  · intro sw align isLast n spare h
    simp only [lineSpacing]
    rw [if_neg]
    intro hcond
    simp only [Bool.and_eq_true, decide_eq_true_eq, Bool.not_eq_eq_eq_not, Bool.not_true] at hcond
    rcases h with h | h | h
    · exact h hcond.1.1
    · rw [h] at hcond
      exact absurd hcond.1.2 (by simp)
    · omega
  · intro pageWidth sw align widths breaks bi words styles
    rfl

/-- Witness for the amended C2 at viewport 10, word-width sum 3, 3 words:
the gap is 7 / 2 = 3 and content fills 10 − 1 = 9 pixels. -/
theorem justified_gap_amended_witness :
    lineSpacing 1 .justified false 3 (10 - 3) = (7 : Int).tdiv 2 ∧
    (3 : Int) + 2 * lineSpacing 1 .justified false 3 (10 - 3) = 10 - (7 : Int).tmod 2 ∧
    lineSpacing 1 .leftAlign false 3 7 = 1 := by
  have h1 := (justified_gap_amended.1 1 10 3 3 (by norm_num) (by norm_num))
  have h2 := justified_gap_amended.2.1 1 .leftAlign false 3 7 (Or.inl (by decide))
  refine ⟨?_, ?_, h2⟩
  · have := h1.1
    norm_num at this ⊢
    exact this
  · have := h1.2.1
    norm_num at this ⊢
    exact this

/-- A break candidate that `hyphenateWordAtIndex` may legally commit: a
nonzero in-word offset whose prefix (plus inserted hyphen when required)
fits the available width. -/
def fittingCandidate (m : Measurer) (word : Word) (st : Style) (avail : Int)
    (info : BreakInfo) : Prop :=
  info.byteOffset ≠ 0 ∧ info.byteOffset < word.length ∧
    (measureWordWidth m (word.take info.byteOffset) st info.requiresInsertedHyphen : Int) ≤ avail

instance (m : Measurer) (word : Word) (st : Style) (avail : Int) (info : BreakInfo) :
    Decidable (fittingCandidate m word st avail info) := by
  unfold fittingCandidate
  infer_instance

theorem hyphenateWordAtIndex_nonpos (bo : BreakFn) (m : Measurer) (ci : Nat)
    (avail : Int) (words : List Word) (styles : List Style) (widths : List Nat)
    (fb : Bool) (h : avail ≤ 0) :
    (hyphenateWordAtIndex bo m ci avail words styles widths fb).ok = false := by
  unfold hyphenateWordAtIndex
  rw [if_pos]
  simp only [Bool.or_eq_true, decide_eq_true_eq]
  exact Or.inl h

theorem pickBreak_acc_le (m : Measurer) (word : Word) (st : Style) (avail : Int)
    (infos : List BreakInfo) (acc : Nat × Int × Bool) :
    acc.2.1 ≤ (pickBreak m word st avail infos acc).2.1 := by
  induction infos generalizing acc with
  | nil => exact le_refl _
  | cons info rest ih =>
    simp only [pickBreak]
    split
    · exact ih acc
    · split
      · exact ih acc
      · next hskip =>
        simp only [Bool.or_eq_true, decide_eq_true_eq, not_or, not_lt, not_le] at hskip
        exact le_trans (le_of_lt hskip.2) (ih _)

theorem pickBreak_maximal (m : Measurer) (word : Word) (st : Style) (avail : Int)
    (infos : List BreakInfo) (acc : Nat × Int × Bool) (info : BreakInfo)
    (hmem : info ∈ infos) (hfit : fittingCandidate m word st avail info) :
    (measureWordWidth m (word.take info.byteOffset) st info.requiresInsertedHyphen : Int) ≤
      (pickBreak m word st avail infos acc).2.1 := by
  induction infos generalizing acc with
  | nil => cases hmem
  | cons info2 rest ih =>
    rcases List.mem_cons.1 hmem with rfl | hmem2
    · simp only [pickBreak]
      split
      · next hbad =>
        simp only [Bool.or_eq_true, decide_eq_true_eq] at hbad
        rcases hfit with ⟨h1, h2, h3⟩
        rcases hbad with hb | hb
        · exact absurd hb h1
        · omega
      · split
        · next hskip =>
          simp only [Bool.or_eq_true, decide_eq_true_eq] at hskip
          rcases hskip with hb | hb
          · exact absurd hfit.2.2 (not_le.2 hb)
          · exact le_trans hb (pickBreak_acc_le m word st avail rest acc)
        · exact le_trans (le_refl _) (pickBreak_acc_le m word st avail rest _)
    · simp only [pickBreak]
      split
      · exact ih acc hmem2
      · split
        · exact ih acc hmem2
        · exact ih _ hmem2

theorem pickBreak_attained (m : Measurer) (word : Word) (st : Style) (avail : Int)
    (infos : List BreakInfo) (acc : Nat × Int × Bool) :
    pickBreak m word st avail infos acc = acc ∨
    ∃ info ∈ infos, fittingCandidate m word st avail info ∧
      pickBreak m word st avail infos acc =
        (info.byteOffset,
          (measureWordWidth m (word.take info.byteOffset) st info.requiresInsertedHyphen : Int),
          info.requiresInsertedHyphen) := by
  induction infos generalizing acc with
  | nil => exact Or.inl rfl
  | cons info rest ih =>
    simp only [pickBreak]
    split
    · rcases ih acc with h | ⟨i2, hi2, hf2, he2⟩
      · exact Or.inl h
      · exact Or.inr ⟨i2, List.mem_cons_of_mem _ hi2, hf2, he2⟩
    · split
      · rcases ih acc with h | ⟨i2, hi2, hf2, he2⟩
        · exact Or.inl h
        · exact Or.inr ⟨i2, List.mem_cons_of_mem _ hi2, hf2, he2⟩
      · next hval hskip =>
        simp only [Bool.or_eq_true, decide_eq_true_eq, not_or] at hval hskip
        have hfit : fittingCandidate m word st avail info :=
          ⟨hval.1, by omega, le_of_not_lt hskip.1⟩
        rcases ih (info.byteOffset,
            (measureWordWidth m (word.take info.byteOffset) st
              info.requiresInsertedHyphen : Int), info.requiresInsertedHyphen) with h | hex
        · exact Or.inr ⟨info, List.mem_cons_self info rest, hfit, h⟩
        · rcases hex with ⟨i2, hi2, hf2, he2⟩
          exact Or.inr ⟨i2, List.mem_cons_of_mem _ hi2, hf2, he2⟩

/-- C6: greedy breaker split policy.  (a) a non-first word on the line is
only ever split through a no-fallback (linguistic/explicit) call, and when
that fails the whole word is deferred to the next line with no mutation;
(b) a successful no-fallback split on a non-first word commits that split
and closes the line after the prefix; (c) a first word that cannot be
split (fallback allowed) is placed alone unsplit; (d) a first word is
split through a fallback-allowed call; (e) the candidate committed is a
fitting one of maximal prefix width (best fit, not first fit). -/
theorem greedy_split_policy (bo : BreakFn) (m : Measurer) (pw sw : Int) :
    (∀ (fuel lineStart ci : Nat) (lw : Int) (words : List Word) (styles : List Style)
      (widths : List Nat),
      ci < widths.length → ci ≠ lineStart →
      pw < lw + (sw + (widths.getD ci 0 : Int)) →
      (hyphenateWordAtIndex bo m ci (pw - lw - sw) words styles widths false).ok = false →
      greedyLine bo m pw sw lineStart (fuel + 1) ci lw words styles widths =
        (ci, words, styles, widths)) ∧
    (∀ (fuel lineStart ci : Nat) (lw : Int) (words : List Word) (styles : List Style)
      (widths : List Nat),
      ci < widths.length → ci ≠ lineStart →
      pw < lw + (sw + (widths.getD ci 0 : Int)) →
      0 < pw - lw - sw →
      (hyphenateWordAtIndex bo m ci (pw - lw - sw) words styles widths false).ok = true →
      greedyLine bo m pw sw lineStart (fuel + 1) ci lw words styles widths =
        (ci + 1,
          (hyphenateWordAtIndex bo m ci (pw - lw - sw) words styles widths false).words,
          (hyphenateWordAtIndex bo m ci (pw - lw - sw) words styles widths false).wordStyles,
          (hyphenateWordAtIndex bo m ci (pw - lw - sw) words styles widths false).wordWidths)) ∧
    (∀ (fuel ci : Nat) (lw : Int) (words : List Word) (styles : List Style)
      (widths : List Nat),
      ci < widths.length →
      pw < lw + (widths.getD ci 0 : Int) →
      (hyphenateWordAtIndex bo m ci (pw - lw) words styles widths true).ok = false →
      greedyLine bo m pw sw ci (fuel + 1) ci lw words styles widths =
        (ci + 1, words, styles, widths)) ∧
    (∀ (fuel ci : Nat) (lw : Int) (words : List Word) (styles : List Style)
      (widths : List Nat),
      ci < widths.length →
      pw < lw + (widths.getD ci 0 : Int) →
      (hyphenateWordAtIndex bo m ci (pw - lw) words styles widths true).ok = true →
      greedyLine bo m pw sw ci (fuel + 1) ci lw words styles widths =
        (ci + 1,
          (hyphenateWordAtIndex bo m ci (pw - lw) words styles widths true).words,
          (hyphenateWordAtIndex bo m ci (pw - lw) words styles widths true).wordStyles,
          (hyphenateWordAtIndex bo m ci (pw - lw) words styles widths true).wordWidths)) ∧
    (∀ (word : Word) (st : Style) (avail : Int) (infos : List BreakInfo),
      (pickBreak m word st avail infos (0, -1, true) = (0, -1, true) ∧
        ∀ info ∈ infos, ¬fittingCandidate m word st avail info) ∨
      (∃ info ∈ infos, fittingCandidate m word st avail info ∧
        pickBreak m word st avail infos (0, -1, true) =
          (info.byteOffset,
            (measureWordWidth m (word.take info.byteOffset) st
              info.requiresInsertedHyphen : Int),
            info.requiresInsertedHyphen) ∧
        ∀ info2 ∈ infos, fittingCandidate m word st avail info2 →
          (measureWordWidth m (word.take info2.byteOffset) st
            info2.requiresInsertedHyphen : Int) ≤
          (measureWordWidth m (word.take info.byteOffset) st
            info.requiresInsertedHyphen : Int))) := by
  refine ⟨?_, ?_, ?_, ?_, ?_⟩
  · intro fuel ls ci lw words styles widths hci hne hover hfail
    simp only [greedyLine, if_pos hci, if_neg hne, decide_eq_false hne]
    rw [if_neg (not_le.2 (by linarith))]
    split
    · simp only [hfail, Bool.false_eq_true, if_false, if_neg hne]
    · rfl
  · intro fuel ls ci lw words styles widths hci hne hover havail hok
    simp only [greedyLine, if_pos hci, if_neg hne, decide_eq_false hne]
    rw [if_neg (not_le.2 (by linarith)), if_pos havail, if_pos hok]
  · intro fuel ci lw words styles widths hci hover hfail
    simp only [greedyLine, if_pos hci, eq_self_iff_true, if_true, decide_True,
      zero_add, sub_zero]
    rw [if_neg (not_le.2 (by linarith))]
    split
    · simp only [hfail, Bool.false_eq_true, if_false]
    · rfl
  · intro fuel ci lw words styles widths hci hover hok
    have havail : 0 < pw - lw := by
      by_contra hle
      push_neg at hle
      have hfalse := hyphenateWordAtIndex_nonpos bo m ci (pw - lw) words styles widths true hle
      rw [hfalse] at hok
      cases hok
    simp only [greedyLine, if_pos hci, eq_self_iff_true, if_true, decide_True,
      zero_add, sub_zero]
    rw [if_neg (not_le.2 (by linarith)), if_pos havail, if_pos hok]
  · intro word st avail infos
    rcases pickBreak_attained m word st avail infos (0, -1, true) with h | ⟨info, hmem, hfit, he⟩
    · left
      refine ⟨h, fun info hmem hfit => ?_⟩
      have hmax := pickBreak_maximal m word st avail infos (0, -1, true) info hmem hfit
      rw [h] at hmax
      simp only at hmax
      have hge : (0 : Int) ≤ (measureWordWidth m (word.take info.byteOffset) st
          info.requiresInsertedHyphen : Int) := Int.natCast_nonneg _
      omega
    · right
      refine ⟨info, hmem, hfit, he, fun info2 hmem2 hfit2 => ?_⟩
      have hmax := pickBreak_maximal m word st avail infos (0, -1, true) info2 hmem2 hfit2
      rw [he] at hmax
      simpa using hmax

/-- Witness for C6 at viewport 10, space 1: the second word (width 8) does
not fit after the first (width 5) and has no break candidates, so it is
deferred and nothing is mutated. -/
theorem greedy_split_policy_witness :
    greedyLine noBreaks byteLengthMeasurer 10 1 0 3 1 5
      [[1, 2, 3, 4, 5], [1, 2, 3, 4, 5, 6, 7, 8]] [.regular, .regular] [5, 8] =
      (1, [[1, 2, 3, 4, 5], [1, 2, 3, 4, 5, 6, 7, 8]], [.regular, .regular], [5, 8]) :=
  (greedy_split_policy noBreaks byteLengthMeasurer 10 1).1 2 0 1 5
    [[1, 2, 3, 4, 5], [1, 2, 3, 4, 5, 6, 7, 8]] [.regular, .regular] [5, 8]
    (by decide) (by decide) (by decide) (by decide)

theorem containsSoftHyphen_eq_false_of_no_lead (v : Word) (h : 194 ∉ v) :
    containsSoftHyphen v = false := by
  induction v with
  | nil => rfl
  | cons a rest ih =>
    cases rest with
    | nil => rfl
    | cons b rest2 =>
      have ha : a ≠ 194 := fun he => h (by simp [he])
      have hb : (194 : Nat) ∉ b :: rest2 := fun hm => h (List.mem_cons_of_mem _ hm)
      show ((a == 194 && b == 173) || containsSoftHyphen (b :: rest2)) = false
      simp [ih hb, ha]

/-- When every 0xC2 byte of a word starts a soft-hyphen marker (as in any
well-formed UTF-8 word, where 0xC2 is always a lead byte), stripping
removes every 0xC2 byte. -/
theorem strip_no_lead (w : Word)
    (h : ∀ i, w.getD i 0 = 194 → w.getD (i + 1) 0 = 173) :
    194 ∉ stripSoftHyphens w := by
  have main : ∀ (n : Nat) (w : Word), w.length = n →
      (∀ i, w.getD i 0 = 194 → w.getD (i + 1) 0 = 173) → 194 ∉ stripSoftHyphens w := by
    intro n
    induction n using Nat.strong_induction_on with
    | _ n ih =>
      intro w hlen h
      rcases w with _ | ⟨a, rest⟩
      · simp [stripSoftHyphens]
      · rcases rest with _ | ⟨b, rest2⟩
        · have ha : a ≠ 194 := by
            intro he
            have := h 0 (by simpa [List.getD] using he)
            simp [List.getD] at this
          simpa [stripSoftHyphens, eq_comm] using ha
        · by_cases hm : a = 194 ∧ b = 173
          · rw [show stripSoftHyphens (a :: b :: rest2) =
                stripSoftHyphens rest2 by rw [stripSoftHyphens, if_pos hm]]
            refine ih rest2.length (by simp at hlen; omega) rest2 rfl ?_
            intro i hi
            have := h (i + 2) (by simpa [List.getD] using hi)
            simpa [List.getD] using this
          · rw [show stripSoftHyphens (a :: b :: rest2) =
                a :: stripSoftHyphens (b :: rest2) by rw [stripSoftHyphens, if_neg hm]]
            have ha : a ≠ 194 := by
              intro he
              have hb := h 0 (by simpa [List.getD] using he)
              exact hm ⟨he, by simpa [List.getD] using hb⟩
            intro hmem
            rcases List.mem_cons.1 hmem with he | hmem2
            · exact ha he.symm
            · refine ih (b :: rest2).length (by simp at hlen ⊢; omega) (b :: rest2) rfl
                ?_ hmem2
              intro i hi
              have := h (i + 1) (by simpa [List.getD] using hi)
              simpa [List.getD] using this
  exact main w.length w rfl h

/-- `Hyphenator::breakOffsets` returns exactly the explicit-marker breaks
whenever any exist (helper shared by several results). -/
theorem breakOffsets_eq_explicit (lang : ActiveLanguage) (word : Word) (fb : Bool)
    (h : buildExplicitBreakInfos
      (trimSurroundingPunctuationAndFootnote (collectCodepoints word)) ≠ []) :
    Hyphenator.breakOffsets lang word fb =
      buildExplicitBreakInfos
        (trimSurroundingPunctuationAndFootnote (collectCodepoints word)) := by
  have hword : word.isEmpty = false := by
    cases word with
    | nil => exact absurd rfl h
    | cons b rest => rfl
  unfold Hyphenator.breakOffsets
  rw [hword]
  simp only [Bool.false_eq_true, if_false]
  rw [if_pos (by simpa using h)]

/-- The decision of `hyphenateWordAtIndex` when the word has exactly one
break candidate: either no split, or a split exactly at that candidate. -/
theorem hyphDecision_singleton (bo : BreakFn) (m : Measurer) (word : Word) (st : Style)
    (avail : Int) (fb : Bool) (off : Nat) (flag : Bool)
    (hbo : bo word fb = [⟨off, flag⟩]) :
    hyphDecision bo m word st avail fb = none ∨
    hyphDecision bo m word st avail fb =
      some (off, (measureWordWidth m (word.take off) st flag : Int), flag) := by
  unfold hyphDecision
  split
  · exact Or.inl rfl
  · rw [hbo]
    simp only [List.isEmpty_cons, Bool.false_eq_true, if_false]
    rcases pickBreak_attained m word st avail [⟨off, flag⟩] (0, -1, true) with he | hex
    · rw [he]
      simp
    · rcases hex with ⟨info, hmem, hfit, he⟩
      simp only [List.mem_singleton] at hmem
      subst hmem
      rw [he]
      simp only
      split
      · exact Or.inl rfl
      · exact Or.inr rfl

/-- C8: a word whose only break candidate is its soft-hyphen marker is
split, when it is split at all, only at that marker: the buffer afterwards
holds the prefix with a literal hyphen appended and the unmodified
remainder, both with the original word's style; the facade produces that
single candidate (requiring an inserted hyphen) for any language and
fallback flag; and every word of an emitted TextBlock is free of
soft-hyphen bytes (for buffers of well-formed words, where every 0xC2 byte
is a marker lead). -/
theorem soft_hyphen_realization :
    (∀ (lang : ActiveLanguage) (word : Word) (fb : Bool) (off : Nat),
      buildExplicitBreakInfos
        (trimSurroundingPunctuationAndFootnote (collectCodepoints word)) =
          [⟨off, true⟩] →
      Hyphenator.breakOffsets lang word fb = [⟨off, true⟩]) ∧
    (∀ (bo : BreakFn) (m : Measurer) (i : Nat) (avail : Int) (words : List Word)
      (styles : List Style) (widths : List Nat) (off : Nat) (fb : Bool),
      (∀ fb2, bo (words.getD i []) fb2 = [⟨off, true⟩]) →
      (hyphenateWordAtIndex bo m i avail words styles widths fb).ok = true →
      (hyphenateWordAtIndex bo m i avail words styles widths fb).words =
        (words.set i ((words.getD i []).take off ++ [hyphenChar])).insertIdx (i + 1)
          ((words.getD i []).drop off) ∧
      (hyphenateWordAtIndex bo m i avail words styles widths fb).wordStyles =
        styles.insertIdx (i + 1) (styles.getD i .regular)) ∧
    (∀ (pw sw : Int) (align : Align) (widths breaks : List Nat) (bi : Nat)
      (words : List Word) (styles : List Style),
      (∀ w ∈ words, ∀ j, w.getD j 0 = 194 → w.getD (j + 1) 0 = 173) →
      ∀ w2 ∈ (extractLine pw sw align widths breaks bi words styles).1.words,
        containsSoftHyphen w2 = false) := by
  refine ⟨?_, ?_, ?_⟩
  · intro lang word fb off hexp
    rw [breakOffsets_eq_explicit lang word fb (by rw [hexp]; simp), hexp]
  · intro bo m i avail words styles widths off fb hbo hok
    unfold hyphenateWordAtIndex at hok ⊢
    split at hok
    · simp at hok
    · next hcond =>
      rw [if_neg hcond]
      rcases hyphDecision_singleton bo m (words.getD i []) (styles.getD i .regular)
        avail fb off true (hbo fb) with hd | hd
      · rw [hd] at hok
        simp at hok
      · rw [hd]
        exact ⟨rfl, rfl⟩
  · intro pw sw align widths breaks bi words styles hclean w2 hw2
    simp only [extractLine, List.mem_map] at hw2
    rcases hw2 with ⟨w, hwmem, rfl⟩
    have hwin : w ∈ words := List.mem_of_mem_take hwmem
    split
    · exact containsSoftHyphen_eq_false_of_no_lead _
        (strip_no_lead w (hclean w hwin))
    · next hnc => simpa using hnc

/-- Witness for C8 at the word "ab SHY cd" (bytes 97 98 194 173 99 100):
the facade returns the single marker break at byte offset 4 with an
inserted hyphen required, and a successful split leaves the prefix with a
literal hyphen and the unmodified remainder in the buffer. -/
theorem soft_hyphen_realization_witness :
    Hyphenator.breakOffsets none [97, 98, 194, 173, 99, 100] true = [⟨4, true⟩] ∧
    (hyphenateWordAtIndex (Hyphenator.breakOffsets none) byteLengthMeasurer 0 3
      [[97, 98, 194, 173, 99, 100]] [.regular] [5] true).words =
      [[97, 98, 194, 173, 45], [99, 100]] ∧
    (hyphenateWordAtIndex (Hyphenator.breakOffsets none) byteLengthMeasurer 0 3
      [[97, 98, 194, 173, 99, 100]] [.regular] [5] true).wordStyles =
      [Style.regular, Style.regular] := by
  refine ⟨soft_hyphen_realization.1 none [97, 98, 194, 173, 99, 100] true 4 (by decide), ?_, ?_⟩
  · have := (soft_hyphen_realization.2.1 (Hyphenator.breakOffsets none) byteLengthMeasurer
      0 3 [[97, 98, 194, 173, 99, 100]] [.regular] [5] 4 true
      (fun fb2 => by cases fb2 <;> decide) (by decide)).1
    rw [this]
    decide
  · have := (soft_hyphen_realization.2.1 (Hyphenator.breakOffsets none) byteLengthMeasurer
      0 3 [[97, 98, 194, 173, 99, 100]] [.regular] [5] 4 true
      (fun fb2 => by cases fb2 <;> decide) (by decide)).2
    rw [this]
    decide

theorem insertIdx_eq_take_drop {α : Type} (l : List α) (n : Nat) (h : n ≤ l.length) (x : α) :
    l.insertIdx n x = l.take n ++ x :: l.drop n := by
  induction l generalizing n with
  | nil =>
    simp only [List.length_nil, Nat.le_zero] at h
    subst h
    simp [List.insertIdx]
  | cons a rest ih =>
    cases n with
    | zero => simp [List.insertIdx]
    | succ n2 =>
      simp only [List.insertIdx_succ_cons, List.take_succ_cons, List.drop_succ_cons,
        List.cons_append, List.cons.injEq, true_and]
      exact ih n2 (by simpa using h)

theorem set_insertIdx_eq {α : Type} (l : List α) (i : Nat) (h : i < l.length) (x y : α) :
    (l.set i x).insertIdx (i + 1) y = l.take i ++ x :: y :: l.drop (i + 1) := by
  induction l generalizing i with
  | nil => cases h
  | cons a rest ih =>
    cases i with
    | zero => simp [List.insertIdx]
    | succ i2 =>
      simp only [List.set_cons_succ, List.insertIdx_succ_cons, List.take_succ_cons,
        List.drop_succ_cons, List.cons_append, List.cons.injEq, true_and]
      exact ih i2 (by simpa using h)

/-- The buffer lists stay parallel: one style and one cached width per word
(invariant from spec section 3). -/
def ParallelState (words : List Word) (styles : List Style) (widths : List Nat) : Prop :=
  words.length = styles.length ∧ words.length = widths.length

/-- Shape of a successful `hyphenateWordAtIndex`: the word at the target
index is replaced in place by its prefix (hyphen appended when required)
and its remainder, the style is duplicated, and the cached widths are
updated to the measured widths of the two pieces.  The split offset is a
proper in-word position and the prefix fits the available width. -/
theorem hyphenateWordAtIndex_ok_spec (bo : BreakFn) (m : Measurer) (i : Nat) (avail : Int)
    (words : List Word) (styles : List Style) (widths : List Nat) (fb : Bool)
    (hok : (hyphenateWordAtIndex bo m i avail words styles widths fb).ok = true) :
    i < words.length ∧ 0 < avail ∧ ∃ off needsHyphen,
      0 < off ∧ off < (words.getD i []).length ∧
      (measureWordWidth m ((words.getD i []).take off) (styles.getD i .regular)
        needsHyphen : Int) ≤ avail ∧
      (hyphenateWordAtIndex bo m i avail words styles widths fb).words =
        (words.set i ((words.getD i []).take off ++
          (if needsHyphen then [hyphenChar] else []))).insertIdx (i + 1)
          ((words.getD i []).drop off) ∧
      (hyphenateWordAtIndex bo m i avail words styles widths fb).wordStyles =
        styles.insertIdx (i + 1) (styles.getD i .regular) ∧
      (hyphenateWordAtIndex bo m i avail words styles widths fb).wordWidths =
        (widths.set i (measureWordWidth m ((words.getD i []).take off)
          (styles.getD i .regular) needsHyphen)).insertIdx (i + 1)
          (measureWordWidth m ((words.getD i []).drop off) (styles.getD i .regular) false) := by
  unfold hyphenateWordAtIndex at hok ⊢
  split at hok
  · simp at hok
  · next hguard =>
    rw [if_neg hguard]
    have hguard2 : ¬avail ≤ 0 ∧ ¬words.length ≤ i := by
      constructor <;> (intro hc; exact hguard (by simp [hc]))
    refine And.intro (by omega) (And.intro (by omega) ?_)
    rcases hd : hyphDecision bo m (words.getD i []) (styles.getD i .regular) avail fb with
      _ | chosen
    · rw [hd] at hok
      simp at hok
    · unfold hyphDecision at hd
      rw [if_neg hguard2.1] at hd
      split at hd
      · simp at hd
      · split at hd
        · simp at hd
        · next hneg =>
          rcases pickBreak_attained m (words.getD i []) (styles.getD i .regular) avail
            (bo (words.getD i []) fb) (0, -1, true) with he | ⟨info, hmem, hfit, he⟩
          · rw [he] at hneg
            simp at hneg
          · rw [he] at hd hneg
            have hc : chosen = (info.byteOffset,
                (measureWordWidth m ((words.getD i []).take info.byteOffset)
                  (styles.getD i .regular) info.requiresInsertedHyphen : Int),
                info.requiresInsertedHyphen) := by
              injection hd with hd2
              exact hd2.symm
            subst hc
            refine ⟨info.byteOffset, info.requiresInsertedHyphen,
              Nat.pos_of_ne_zero hfit.1, hfit.2.1, hfit.2.2, ?_, rfl, ?_⟩
            · simp [applySplit]
            · simp [applySplit]

/-- On success the buffer grows by exactly one word and stays parallel. -/
theorem hyphenateWordAtIndex_ok_lengths (bo : BreakFn) (m : Measurer) (i : Nat) (avail : Int)
    (words : List Word) (styles : List Style) (widths : List Nat) (fb : Bool)
    (hpar : ParallelState words styles widths)
    (hok : (hyphenateWordAtIndex bo m i avail words styles widths fb).ok = true) :
    (hyphenateWordAtIndex bo m i avail words styles widths fb).words.length =
      words.length + 1 ∧
    ParallelState (hyphenateWordAtIndex bo m i avail words styles widths fb).words
      (hyphenateWordAtIndex bo m i avail words styles widths fb).wordStyles
      (hyphenateWordAtIndex bo m i avail words styles widths fb).wordWidths := by
  obtain ⟨hi, -, off, nh, -, -, -, hw, hs, hww⟩ :=
    hyphenateWordAtIndex_ok_spec bo m i avail words styles widths fb hok
  obtain ⟨hps, hpw⟩ := hpar
  have hlw : (hyphenateWordAtIndex bo m i avail words styles widths fb).words.length =
      words.length + 1 := by
    rw [hw, List.length_insertIdx _ _ (by simp; omega)]
    simp
  refine ⟨hlw, hlw.trans ?_, hlw.trans ?_⟩
  · rw [hs, List.length_insertIdx _ _ (by omega)]
    omega
  · rw [hww, List.length_insertIdx _ _ (by simp; omega)]
    simp
    omega

/-- All mutation of a successful split happens at the target index and the
slot after it: the prefixes of the three lists below the target index are
untouched, as are the suffixes beyond the inserted remainder. -/
theorem hyphenateWordAtIndex_ok_stable (bo : BreakFn) (m : Measurer) (i : Nat) (avail : Int)
    (words : List Word) (styles : List Style) (widths : List Nat) (fb : Bool)
    (hpar : ParallelState words styles widths)
    (hok : (hyphenateWordAtIndex bo m i avail words styles widths fb).ok = true) :
    ∀ k ≤ i, (hyphenateWordAtIndex bo m i avail words styles widths fb).words.take k =
        words.take k ∧
      (hyphenateWordAtIndex bo m i avail words styles widths fb).wordStyles.take k =
        styles.take k ∧
      (hyphenateWordAtIndex bo m i avail words styles widths fb).wordWidths.take k =
        widths.take k := by
  obtain ⟨hi, -, off, nh, -, -, -, hw, hs, hww⟩ :=
    hyphenateWordAtIndex_ok_spec bo m i avail words styles widths fb hok
  intro k hk
  obtain ⟨hps, hpw⟩ := hpar
  refine ⟨?_, ?_, ?_⟩
  · rw [hw, set_insertIdx_eq words i hi,
      List.take_append_of_le_length (by simp [List.length_take]; omega),
      List.take_take, min_eq_left hk]
  · rw [hs, insertIdx_eq_take_drop styles (i + 1) (by omega),
      List.take_append_of_le_length (by simp [List.length_take]; omega),
      List.take_take, min_eq_left (by omega)]
  · rw [hww, set_insertIdx_eq widths i (by omega),
      List.take_append_of_le_length (by simp [List.length_take]; omega),
      List.take_take, min_eq_left hk]

theorem getD_append_cons_of_length {α : Type} (l1 : List α) (x : α) (l2 : List α)
    (k : Nat) (d : α) (h : l1.length = k) : (l1 ++ x :: l2).getD k d = x := by
  induction l1 generalizing k with
  | nil =>
    subst h
    rfl
  | cons a rest ih =>
    subst h
    simpa [List.getD] using ih rest.length rfl

theorem getD_prefix_cons {α : Type} (l1 : List α) (x : α) (l2 : List α) (d : α) :
    (l1 ++ x :: l2).getD l1.length d = x := by
  induction l1 with
  | nil => rfl
  | cons a rest ih => simpa [List.getD] using ih

/-- The boolean outcome of `hyphenateWordAtIndex` depends only on the
target word, its style, the available width and the fallback flag. -/
theorem hyphenateWordAtIndex_ok_congr (bo : BreakFn) (m : Measurer) (i : Nat) (avail : Int)
    (fb : Bool) (w1 w2 : List Word) (s1 s2 : List Style) (ww1 ww2 : List Nat)
    (hw : w1.getD i [] = w2.getD i []) (hs : s1.getD i .regular = s2.getD i .regular)
    (hl1 : i < w1.length) (hl2 : i < w2.length) :
    (hyphenateWordAtIndex bo m i avail w1 s1 ww1 fb).ok =
      (hyphenateWordAtIndex bo m i avail w2 s2 ww2 fb).ok := by
  by_cases ha : avail ≤ 0
  · rw [hyphenateWordAtIndex_nonpos bo m i avail w1 s1 ww1 fb ha,
      hyphenateWordAtIndex_nonpos bo m i avail w2 s2 ww2 fb ha]
  · have hg1 : ¬(decide (avail ≤ 0) || decide (w1.length ≤ i)) = true := by
      simp only [Bool.or_eq_true, decide_eq_true_eq]
      push_neg
      omega
    have hg2 : ¬(decide (avail ≤ 0) || decide (w2.length ≤ i)) = true := by
      simp only [Bool.or_eq_true, decide_eq_true_eq]
      push_neg
      omega
    unfold hyphenateWordAtIndex
    rw [if_neg hg1, if_neg hg2, hw, hs]
    cases hyphDecision bo m (w2.getD i []) (s2.getD i .regular) avail fb with
    | none => rfl
    | some chosen => rfl

/-- Remaining work from word index i: bytes of the remaining words plus the
remaining word count.  Every loop step of the breakers decreases it. -/
def stateMeasure (words : List Word) (i : Nat) : Nat :=
  ((words.drop i).map List.length).sum + (words.length - i)

theorem stateMeasure_advance_lt (words : List Word) (i : Nat) (h : i < words.length) :
    stateMeasure words (i + 1) < stateMeasure words i := by
  unfold stateMeasure
  have hdrop : words.drop i = words.getD i [] :: words.drop (i + 1) := by
    rw [List.getD_eq_getElem words [] h]
    exact List.drop_eq_getElem_cons h
  rw [hdrop]
  simp only [List.map_cons, List.sum_cons]
  omega

theorem stateMeasure_split_lt (bo : BreakFn) (m : Measurer) (i : Nat) (avail : Int)
    (words : List Word) (styles : List Style) (widths : List Nat) (fb : Bool)
    (hok : (hyphenateWordAtIndex bo m i avail words styles widths fb).ok = true) :
    stateMeasure (hyphenateWordAtIndex bo m i avail words styles widths fb).words (i + 1) <
      stateMeasure words i := by
  obtain ⟨hi, -, off, nh, hoff0, hofflt, -, hw, -, -⟩ :=
    hyphenateWordAtIndex_ok_spec bo m i avail words styles widths fb hok
  unfold stateMeasure
  rw [hw, set_insertIdx_eq words i hi]
  have hlen : (words.take i).length = i := by
    simp [List.length_take]
    omega
  have hd1 : (words.take i ++ ((words.getD i []).take off ++
      (if nh then [hyphenChar] else [])) :: (words.getD i []).drop off ::
        words.drop (i + 1)).drop (i + 1) =
      (words.getD i []).drop off :: words.drop (i + 1) := by
    rw [show i + 1 = (words.take i).length + 1 by rw [hlen]]
    rw [List.drop_append 1]
    rfl
  have hd0 : words.drop i = words.getD i [] :: words.drop (i + 1) := by
    rw [List.getD_eq_getElem words [] hi]
    exact List.drop_eq_getElem_cons hi
  rw [hd1, hd0]
  simp only [List.map_cons, List.sum_cons, List.length_append, List.length_cons, hlen,
    List.length_drop, List.length_drop]
  have hld : ((words.getD i []).drop off).length = (words.getD i []).length - off := by
    simp
  omega

theorem take_eq_of_take_eq_ge {α : Type} (l1 l2 : List α) (j k : Nat) (hjk : k ≤ j)
    (h : l1.take j = l2.take j) : l1.take k = l2.take k := by
  have e1 : (l1.take j).take k = l1.take k := by rw [List.take_take, min_eq_left hjk]
  have e2 : (l2.take j).take k = l2.take k := by rw [List.take_take, min_eq_left hjk]
  rw [← e1, ← e2, h]

theorem getD_congr_of_take_eq {α : Type} (l1 l2 : List α) (b a : Nat) (d : α)
    (h : l1.take b = l2.take b) (hab : a < b) : l1.getD a d = l2.getD a d := by
  have h1 : (List.take b l1)[a]? = l1[a]? := List.getElem?_take_of_lt hab
  have h2 : (List.take b l2)[a]? = l2[a]? := List.getElem?_take_of_lt hab
  rw [List.getD, List.getD, List.get?_eq_getElem?, List.get?_eq_getElem?, ← h1, ← h2, h]

theorem getD_drop_cons {α : Type} (l : List α) (i : Nat) (d : α) (h : i < l.length) :
    l.drop i = l.getD i d :: l.drop (i + 1) := by
  rw [List.getD_eq_getElem l d h]
  exact List.drop_eq_getElem_cons h

/-- Content width of the word range [a, b): word widths plus one base gap
between each pair of consecutive words. -/
def segWidth (sw : Int) (widths : List Nat) (a b : Nat) : Int :=
  ((lineWidths widths a b).sum : Int) + ((b - a - 1 : Nat) : Int) * sw

/-- Running line width of the open range [a, b) as accumulated by the
greedy loop: zero for an empty range. -/
def lwOf (sw : Int) (widths : List Nat) (a b : Nat) : Int :=
  if b = a then 0 else segWidth sw widths a b

/-- The fit property of an emitted line [a, b): either its content width is
within the page, or it is a single word wider than the page that the
hyphenator cannot split to fit the full page width. -/
def GoodLine (bo : BreakFn) (m : Measurer) (pw sw : Int) (words : List Word)
    (styles : List Style) (widths : List Nat) (a b : Nat) : Prop :=
  segWidth sw widths a b ≤ pw ∨
  (b = a + 1 ∧ pw < (widths.getD a 0 : Int) ∧
    (hyphenateWordAtIndex bo m a pw words styles widths true).ok = false)

theorem lineWidths_congr (ww1 ww2 : List Nat) (a b : Nat) (h : ww1.take b = ww2.take b) :
    lineWidths ww1 a b = lineWidths ww2 a b := by
  unfold lineWidths
  rw [← List.drop_take b a ww1, ← List.drop_take b a ww2, h]

theorem GoodLine_mono (bo : BreakFn) (m : Measurer) (pw sw : Int)
    (w1 w2 : List Word) (s1 s2 : List Style) (ww1 ww2 : List Nat) (a b : Nat)
    (hww : ww1.take b = ww2.take b) (hw : w1.take b = w2.take b) (hs : s1.take b = s2.take b)
    (hab : a < b) (hb1 : b ≤ w1.length) (hb2 : b ≤ w2.length)
    (h : GoodLine bo m pw sw w1 s1 ww1 a b) : GoodLine bo m pw sw w2 s2 ww2 a b := by
  rcases h with h | ⟨hb, hwd, hfail⟩
  · left
    unfold segWidth at h ⊢
    rw [lineWidths_congr ww2 ww1 a b hww.symm]
    exact h
  · right
    refine ⟨hb, ?_, ?_⟩
    · rw [← getD_congr_of_take_eq ww1 ww2 b a 0 hww hab]
      exact hwd
    · rw [← hyphenateWordAtIndex_ok_congr bo m a pw true w1 w2 s1 s2 ww1 ww2
        (getD_congr_of_take_eq w1 w2 b a [] hw hab)
        (getD_congr_of_take_eq s1 s2 b a .regular hs hab)
        (lt_of_lt_of_le hab hb1) (lt_of_lt_of_le hab hb2)]
      exact hfail

theorem lineWidths_snoc (widths : List Nat) (ls ci : Nat) (h : ci < widths.length)
    (hls : ls ≤ ci) :
    lineWidths widths ls (ci + 1) = lineWidths widths ls ci ++ [widths.getD ci 0] := by
  unfold lineWidths
  rw [show ci + 1 - ls = (ci - ls) + 1 by omega, List.take_succ]
  congr 1
  rw [List.getElem?_drop, show ls + (ci - ls) = ci by omega, List.getElem?_eq_getElem h,
    List.getD_eq_getElem widths 0 h]
  rfl

theorem lwOf_step (sw : Int) (widths : List Nat) (ls ci : Nat) (h : ci < widths.length)
    (hls : ls ≤ ci) :
    lwOf sw widths ls (ci + 1) =
      lwOf sw widths ls ci + (if ci = ls then 0 else sw) + (widths.getD ci 0 : Int) := by
  unfold lwOf segWidth
  by_cases hc : ci = ls
  · subst hc
    rw [if_pos rfl, if_neg (by omega), if_pos rfl]
    rw [lineWidths_snoc widths ci ci h (le_refl ci)]
    have h0 : lineWidths widths ci ci = [] := by
      unfold lineWidths
      simp
    rw [h0]
    simp
  · rw [if_neg (by omega : ¬ci + 1 = ls), if_neg hc, if_neg hc]
    rw [lineWidths_snoc widths ls ci h hls]
    have hcast : ((ci + 1 - ls - 1 : Nat) : Int) = ((ci - ls - 1 : Nat) : Int) + 1 := by
      have : ls < ci := by omega
      omega
    rw [hcast]
    simp only [List.map_append, List.sum_append, List.map_cons, List.sum_cons,
      List.map_nil, List.sum_nil]
    push_cast
    ring

/-- A committed mid-line split closes a line whose content width is within
the page: the accumulated width plus the gap plus the prefix width is at
most the page width. -/
theorem split_segment_fits (bo : BreakFn) (m : Measurer) (pw sw : Int) (ls ci : Nat)
    (lw : Int) (words : List Word) (styles : List Style) (widths : List Nat) (fb : Bool)
    (hls : ls ≤ ci) (hci : ci < widths.length)
    (hlw : lw = lwOf sw widths ls ci)
    (hok : (hyphenateWordAtIndex bo m ci (pw - lw - (if ci = ls then 0 else sw))
      words styles widths fb).ok = true) :
    segWidth sw (hyphenateWordAtIndex bo m ci (pw - lw - (if ci = ls then 0 else sw))
      words styles widths fb).wordWidths ls (ci + 1) ≤ pw := by
  obtain ⟨hiw, -, off, nh, -, -, hfitw, -, -, hww⟩ :=
    hyphenateWordAtIndex_ok_spec bo m ci (pw - lw - (if ci = ls then 0 else sw))
      words styles widths fb hok
  set v := measureWordWidth m ((words.getD ci []).take off) (styles.getD ci .regular) nh
    with hv
  set X := (widths.set ci v).insertIdx (ci + 1)
    (measureWordWidth m ((words.getD ci []).drop off) (styles.getD ci .regular) false)
    with hX
  have hXeq : X = widths.take ci ++ v :: (measureWordWidth m ((words.getD ci []).drop off)
      (styles.getD ci .regular) false) :: widths.drop (ci + 1) := by
    rw [hX, set_insertIdx_eq widths ci hci]
  have htakelen : (widths.take ci).length = ci := by
    simp [List.length_take]
    omega
  have hXtake : X.take ci = widths.take ci := by
    rw [hXeq, List.take_append_of_le_length (le_of_eq htakelen.symm)]
    rw [List.take_take, min_self]
  have hXget : X.getD ci 0 = v := by
    rw [hXeq]
    exact getD_append_cons_of_length _ _ _ _ _ htakelen
  have hXlen : ci < X.length := by
    rw [hXeq]
    simp
    omega
  have hlin : lineWidths X ls (ci + 1) = lineWidths widths ls ci ++ [v] := by
    rw [lineWidths_snoc X ls ci hXlen hls, hXget, lineWidths_congr X widths ls ci hXtake]
  rw [hww]
  unfold segWidth
  rw [hlin]
  simp only [List.map_append, List.sum_append, List.map_cons, List.sum_cons,
    List.map_nil, List.sum_nil]
  by_cases hc : ci = ls
  · subst hc
    have h0 : lineWidths widths ci ci = [] := by
      unfold lineWidths
      simp
    rw [h0] at *
    have hlw0 : lw = 0 := by
      rw [hlw]
      unfold lwOf
      simp
    rw [if_pos rfl] at hfitw
    simp only [List.map_nil, List.sum_nil]
    have : ((ci + 1 - ci - 1 : Nat) : Int) = 0 := by
      norm_num
    rw [this]
    omega
  · have hlscilt : ls < ci := by omega
    have hlweq : lw = ((lineWidths widths ls ci).sum : Int) + ((ci - ls - 1 : Nat) : Int) * sw := by
      rw [hlw]
      unfold lwOf segWidth
      rw [if_neg hc]
    rw [if_neg hc] at hfitw
    have hcast : ((ci + 1 - ls - 1 : Nat) : Int) = ((ci - ls - 1 : Nat) : Int) + 1 := by
      omega
    rw [hcast]
    push_cast at hlweq ⊢
    nlinarith [hfitw, hlweq]

theorem lwOf_goodLeft (pw sw : Int) (widths : List Nat) (ls ci : Nat) (lw : Int)
    (hlw : lw = lwOf sw widths ls ci) (hle : lw ≤ pw) (hpw : 0 ≤ pw) :
    segWidth sw widths ls ci ≤ pw := by
  by_cases h : ci = ls
  · subst h
    unfold segWidth
    have h0 : lineWidths widths ci ci = [] := by
      unfold lineWidths
      simp
    rw [h0]
    simp
    exact hpw
  · unfold lwOf at hlw
    rw [if_neg h] at hlw
    rw [← hlw]
    exact hle

/-- Full behavior of one inner-loop run of the greedy breaker: the state
stays parallel, nothing below the entry index changes, the index advances
within bounds, the closed line [lineStart, result index) satisfies the fit
property, and the remaining-work measure does not increase (strictly
decreasing for a fresh line with fuel). -/
theorem greedyLine_spec (bo : BreakFn) (m : Measurer) (pw sw : Int) (hpw : 0 ≤ pw)
    (ls : Nat) :
    ∀ (fuel ci : Nat) (lw : Int) (words : List Word) (styles : List Style)
      (widths : List Nat),
    ParallelState words styles widths →
    ls ≤ ci → ci ≤ widths.length →
    lw = lwOf sw widths ls ci → lw ≤ pw →
    ∀ r, r = greedyLine bo m pw sw ls fuel ci lw words styles widths →
    ParallelState r.2.1 r.2.2.1 r.2.2.2 ∧
    r.2.2.2.take ci = widths.take ci ∧
    r.2.1.take ci = words.take ci ∧
    r.2.2.1.take ci = styles.take ci ∧
    ci ≤ r.1 ∧ r.1 ≤ r.2.2.2.length ∧ widths.length ≤ r.2.2.2.length ∧
    GoodLine bo m pw sw r.2.1 r.2.2.1 r.2.2.2 ls r.1 ∧
    stateMeasure r.2.1 r.1 ≤ stateMeasure words ci ∧
    (0 < fuel → ci < widths.length → ci = ls →
      ls < r.1 ∧ stateMeasure r.2.1 r.1 < stateMeasure words ci) := by
  intro fuel
  induction fuel with
  | zero =>
    intro ci lw words styles widths hpar hls hcb hlw hle r hr
    subst hr
    refine ⟨hpar, rfl, rfl, rfl, le_refl _, hcb, le_refl _, ?_, le_refl _, ?_⟩
    · exact Or.inl (lwOf_goodLeft pw sw widths ls ci lw hlw hle hpw)
    · intro h0
      exact absurd h0 (by omega)
  | succ fuel ih =>
    intro ci lw words styles widths hpar hls hcb hlw hle r hr
    by_cases hcl : ci < widths.length
    · rw [show greedyLine bo m pw sw ls (fuel + 1) ci lw words styles widths =
          (if lw + ((if ci = ls then 0 else sw) + (widths.getD ci 0 : Int)) ≤ pw then
            greedyLine bo m pw sw ls fuel (ci + 1)
              (lw + ((if ci = ls then 0 else sw) + (widths.getD ci 0 : Int)))
              words styles widths
          else
            if 0 < pw - lw - (if ci = ls then 0 else sw) then
              if (hyphenateWordAtIndex bo m ci (pw - lw - (if ci = ls then 0 else sw))
                  words styles widths (decide (ci = ls))).ok = true then
                (ci + 1,
                  (hyphenateWordAtIndex bo m ci (pw - lw - (if ci = ls then 0 else sw))
                    words styles widths (decide (ci = ls))).words,
                  (hyphenateWordAtIndex bo m ci (pw - lw - (if ci = ls then 0 else sw))
                    words styles widths (decide (ci = ls))).wordStyles,
                  (hyphenateWordAtIndex bo m ci (pw - lw - (if ci = ls then 0 else sw))
                    words styles widths (decide (ci = ls))).wordWidths)
              else if ci = ls then (ci + 1, words, styles, widths)
              else (ci, words, styles, widths)
            else if ci = ls then (ci + 1, words, styles, widths)
            else (ci, words, styles, widths)) by
          simp only [greedyLine, if_pos hcl]] at hr
      have hciw : ci < words.length := by
        have := hpar.2
        omega
      by_cases hfit : lw + ((if ci = ls then 0 else sw) + (widths.getD ci 0 : Int)) ≤ pw
      · rw [if_pos hfit] at hr
        have hstep := lwOf_step sw widths ls ci hcl hls
        obtain ⟨P1, P2, P3, P4, P5, P6, P7, P8, P9, P10⟩ :=
          ih (ci + 1) (lw + ((if ci = ls then 0 else sw) + (widths.getD ci 0 : Int)))
            words styles widths hpar (by omega) hcl (by rw [hstep, hlw]; ring) hfit r hr
        refine ⟨P1, take_eq_of_take_eq_ge _ _ (ci + 1) ci (by omega) P2,
          take_eq_of_take_eq_ge _ _ (ci + 1) ci (by omega) P3,
          take_eq_of_take_eq_ge _ _ (ci + 1) ci (by omega) P4,
          by omega, P6, P7, P8, ?_, ?_⟩
        · exact le_trans P9 (le_of_lt (stateMeasure_advance_lt words ci hciw))
        · intro h0 h1 h2
          constructor
          · omega
          · exact lt_of_le_of_lt P9 (stateMeasure_advance_lt words ci hciw)
      · rw [if_neg hfit] at hr
        have hdefer : ci ≠ ls → r = (ci, words, styles, widths) →
            ParallelState r.2.1 r.2.2.1 r.2.2.2 ∧
            r.2.2.2.take ci = widths.take ci ∧
            r.2.1.take ci = words.take ci ∧
            r.2.2.1.take ci = styles.take ci ∧
            ci ≤ r.1 ∧ r.1 ≤ r.2.2.2.length ∧ widths.length ≤ r.2.2.2.length ∧
            GoodLine bo m pw sw r.2.1 r.2.2.1 r.2.2.2 ls r.1 ∧
            stateMeasure r.2.1 r.1 ≤ stateMeasure words ci ∧
            (0 < fuel + 1 → ci < widths.length → ci = ls →
              ls < r.1 ∧ stateMeasure r.2.1 r.1 < stateMeasure words ci) := by
          intro hcils hr2
          subst hr2
          dsimp only
          refine ⟨hpar, rfl, rfl, rfl, le_refl _, by omega, le_refl _,
            Or.inl (lwOf_goodLeft pw sw widths ls ci lw hlw hle hpw), le_refl _, ?_⟩
          intro _ _ h2
          exact absurd h2 hcils
        have hforce : ci = ls →
            (hyphenateWordAtIndex bo m ci pw words styles widths true).ok = false →
            r = (ci + 1, words, styles, widths) →
            ParallelState r.2.1 r.2.2.1 r.2.2.2 ∧
            r.2.2.2.take ci = widths.take ci ∧
            r.2.1.take ci = words.take ci ∧
            r.2.2.1.take ci = styles.take ci ∧
            ci ≤ r.1 ∧ r.1 ≤ r.2.2.2.length ∧ widths.length ≤ r.2.2.2.length ∧
            GoodLine bo m pw sw r.2.1 r.2.2.1 r.2.2.2 ls r.1 ∧
            stateMeasure r.2.1 r.1 ≤ stateMeasure words ci ∧
            (0 < fuel + 1 → ci < widths.length → ci = ls →
              ls < r.1 ∧ stateMeasure r.2.1 r.1 < stateMeasure words ci) := by
          intro hcils hfail hr2
          subst hr2
          dsimp only
          subst hcils
          have hlw0 : lw = 0 := by
            rw [hlw]
            unfold lwOf
            simp
          have hwide : pw < (widths.getD ci 0 : Int) := by
            rw [if_pos rfl, hlw0] at hfit
            push_neg at hfit
            linarith
          refine ⟨hpar, rfl, rfl, rfl, by omega, by omega, le_refl _,
            Or.inr ⟨rfl, hwide, hfail⟩, le_of_lt (stateMeasure_advance_lt words ci hciw),
            ?_⟩
          intro _ _ _
          exact ⟨by omega, stateMeasure_advance_lt words ci hciw⟩
        by_cases hav : 0 < pw - lw - (if ci = ls then 0 else sw)
        · rw [if_pos hav] at hr
          by_cases hok : (hyphenateWordAtIndex bo m ci
              (pw - lw - (if ci = ls then 0 else sw)) words styles widths
              (decide (ci = ls))).ok = true
          · rw [if_pos hok] at hr
            subst hr
            dsimp only
            obtain ⟨hlen1, hpar1⟩ := hyphenateWordAtIndex_ok_lengths bo m ci
              (pw - lw - (if ci = ls then 0 else sw)) words styles widths
              (decide (ci = ls)) hpar hok
            have hstab := hyphenateWordAtIndex_ok_stable bo m ci
              (pw - lw - (if ci = ls then 0 else sw)) words styles widths
              (decide (ci = ls)) hpar hok ci (le_refl ci)
            have hfits := split_segment_fits bo m pw sw ls ci lw words styles widths
              (decide (ci = ls)) hls hcl hlw hok
            have hwwlen : (hyphenateWordAtIndex bo m ci
                (pw - lw - (if ci = ls then 0 else sw)) words styles widths
                (decide (ci = ls))).wordWidths.length = widths.length + 1 := by
              have h1 := hpar1.2
              have h2 := hpar.2
              omega
            refine ⟨hpar1, hstab.2.2, hstab.1, hstab.2.1, by omega, by omega, by omega,
              Or.inl hfits, ?_, ?_⟩
            · exact le_of_lt (stateMeasure_split_lt bo m ci
                (pw - lw - (if ci = ls then 0 else sw)) words styles widths
                (decide (ci = ls)) hok)
            · intro _ _ _
              exact ⟨by omega, stateMeasure_split_lt bo m ci
                (pw - lw - (if ci = ls then 0 else sw)) words styles widths
                (decide (ci = ls)) hok⟩
          · rw [if_neg hok] at hr
            by_cases hcils : ci = ls
            · rw [if_pos hcils] at hr
              refine hforce hcils ?_ hr
              have hlw0 : lw = 0 := by
                rw [hlw, hcils]
                unfold lwOf
                simp
              have heq : pw - lw - (if ci = ls then 0 else sw) = pw := by
                rw [if_pos hcils, hlw0]
                ring
              rw [heq, show (decide (ci = ls)) = true by simp [hcils]] at hok
              rw [Bool.not_eq_true] at hok
              exact hok
            · rw [if_neg hcils] at hr
              exact hdefer hcils hr
        · rw [if_neg hav] at hr
          by_cases hcils : ci = ls
          · rw [if_pos hcils] at hr
            refine hforce hcils ?_ hr
            have hlw0 : lw = 0 := by
              rw [hlw, hcils]
              unfold lwOf
              simp
            rw [if_pos hcils, hlw0] at hav
            exact hyphenateWordAtIndex_nonpos bo m ci pw words styles widths true
              (by omega)
          · rw [if_neg hcils] at hr
            exact hdefer hcils hr
    · rw [show greedyLine bo m pw sw ls (fuel + 1) ci lw words styles widths =
          (ci, words, styles, widths) by simp only [greedyLine, if_neg hcl]] at hr
      subst hr
      refine ⟨hpar, rfl, rfl, rfl, le_refl _, hcb, le_refl _,
        Or.inl (lwOf_goodLeft pw sw widths ls ci lw hlw hle hpw), le_refl _, ?_⟩
      intro _ h1
      exact absurd h1 hcl

/-- The consecutive line ranges determined by a list of exclusive line-end
indices, starting from a given line start. -/
def Chunks : Nat → List Nat → List (Nat × Nat)
  | _, [] => []
  | a, b :: rest => (a, b) :: Chunks b rest

theorem Chunks_snoc (a : Nat) (l : List Nat) (b : Nat) :
    Chunks a (l ++ [b]) = Chunks a l ++ [(l.getLastD a, b)] := by
  induction l generalizing a with
  | nil => simp [Chunks]
  | cons c rest ih =>
    rw [show (c :: rest) ++ [b] = c :: (rest ++ [b]) from rfl,
      show Chunks a (c :: (rest ++ [b])) = (a, c) :: Chunks c (rest ++ [b]) from rfl,
      ih c, show Chunks a (c :: rest) = (a, c) :: Chunks c rest from rfl,
      List.getLastD_cons]
    rfl

/-- Full behavior of the greedy breaker loop: the final state is parallel,
prefixes below the entry index are preserved, every produced line range is
a fit-respecting line of the final state, and with enough fuel the breaks
end exactly at the final word count. -/
theorem greedyBreaks_spec (bo : BreakFn) (m : Measurer) (pw sw : Int) (hpw : 0 ≤ pw) :
    ∀ (fuel ci : Nat) (acc : List Nat) (words : List Word) (styles : List Style)
      (widths : List Nat),
    ParallelState words styles widths →
    ci ≤ widths.length →
    acc.getLastD 0 = ci →
    (∀ ab ∈ Chunks 0 acc, ab.1 < ab.2 ∧ ab.2 ≤ ci ∧
      GoodLine bo m pw sw words styles widths ab.1 ab.2) →
    ∀ r, r = greedyBreaks bo m pw sw fuel ci acc words styles widths →
    ParallelState r.2.1 r.2.2.1 r.2.2.2 ∧
    r.2.2.2.take ci = widths.take ci ∧
    r.2.1.take ci = words.take ci ∧
    r.2.2.1.take ci = styles.take ci ∧
    r.1.getLastD 0 ≤ r.2.2.2.length ∧
    widths.length ≤ r.2.2.2.length ∧
    (∃ ext, r.1 = acc ++ ext) ∧
    (∀ ab ∈ Chunks 0 r.1, ab.1 < ab.2 ∧ ab.2 ≤ r.1.getLastD 0 ∧
      GoodLine bo m pw sw r.2.1 r.2.2.1 r.2.2.2 ab.1 ab.2) ∧
    (stateMeasure words ci < fuel → r.1.getLastD 0 = r.2.2.2.length) := by
  intro fuel
  induction fuel with
  | zero =>
    intro ci acc words styles widths hpar hcb hlast hacc r hr
    rw [show greedyBreaks bo m pw sw 0 ci acc words styles widths =
        (acc, words, styles, widths) from rfl] at hr
    subst hr
    try dsimp only
    refine ⟨hpar, rfl, rfl, rfl, by rw [hlast]; exact hcb, le_refl _, ⟨[], by simp⟩,
      ?_, ?_⟩
    · intro ab hab
      obtain ⟨h1, h2, h3⟩ := hacc ab hab
      exact ⟨h1, by rw [hlast]; exact h2, h3⟩
    · intro habs
      exact absurd habs (by omega)
  | succ fuel ih =>
    intro ci acc words styles widths hpar hcb hlast hacc r hr
    by_cases hci : ci < widths.length
    · rw [show greedyBreaks bo m pw sw (fuel + 1) ci acc words styles widths =
          greedyBreaks bo m pw sw fuel
            (greedyLine bo m pw sw ci (widths.length + 1) ci 0 words styles widths).1
            (acc ++ [(greedyLine bo m pw sw ci (widths.length + 1) ci 0
              words styles widths).1])
            (greedyLine bo m pw sw ci (widths.length + 1) ci 0 words styles widths).2.1
            (greedyLine bo m pw sw ci (widths.length + 1) ci 0 words styles widths).2.2.1
            (greedyLine bo m pw sw ci (widths.length + 1) ci 0 words styles widths).2.2.2
          by simp only [greedyBreaks, if_pos hci]] at hr
      obtain ⟨Q1, Q2, Q3, Q4, Q5, Q6, Q7, Q8, Q9, Q10⟩ :=
        greedyLine_spec bo m pw sw hpw ci (widths.length + 1) ci 0 words styles widths
          hpar (le_refl ci) (le_of_lt hci) (by unfold lwOf; rw [if_pos rfl]) hpw
          (greedyLine bo m pw sw ci (widths.length + 1) ci 0 words styles widths) rfl
      obtain ⟨hprog, hmeas⟩ := Q10 (by omega) hci rfl
      have hpre : ∀ ab ∈ Chunks 0 (acc ++ [(greedyLine bo m pw sw ci
          (widths.length + 1) ci 0 words styles widths).1]),
          ab.1 < ab.2 ∧
          ab.2 ≤ (greedyLine bo m pw sw ci (widths.length + 1) ci 0
            words styles widths).1 ∧
          GoodLine bo m pw sw
            (greedyLine bo m pw sw ci (widths.length + 1) ci 0 words styles widths).2.1
            (greedyLine bo m pw sw ci (widths.length + 1) ci 0 words styles widths).2.2.1
            (greedyLine bo m pw sw ci (widths.length + 1) ci 0 words styles widths).2.2.2
            ab.1 ab.2 := by
        intro ab hab
        rw [Chunks_snoc, hlast] at hab
        rcases List.mem_append.1 hab with hab1 | hab2
        · obtain ⟨h1, h2, h3⟩ := hacc ab hab1
          refine ⟨h1, by omega, ?_⟩
          refine GoodLine_mono bo m pw sw words _ styles _ widths _ ab.1 ab.2
            ?_ ?_ ?_ h1 (by have h5 := hpar.2; omega) ?_ h3
          · exact (take_eq_of_take_eq_ge _ _ ci ab.2 h2 Q2).symm
          · exact (take_eq_of_take_eq_ge _ _ ci ab.2 h2 Q3).symm
          · exact (take_eq_of_take_eq_ge _ _ ci ab.2 h2 Q4).symm
          · have h4 := Q1.2
            have h5 := hpar.2
            omega
        · simp only [List.mem_singleton] at hab2
          subst hab2
          exact ⟨hprog, le_refl _, Q8⟩
      obtain ⟨R1, R2, R3, R4, R5, R6, R7, R8, R9⟩ :=
        ih (greedyLine bo m pw sw ci (widths.length + 1) ci 0 words styles widths).1
          (acc ++ [(greedyLine bo m pw sw ci (widths.length + 1) ci 0
            words styles widths).1])
          (greedyLine bo m pw sw ci (widths.length + 1) ci 0 words styles widths).2.1
          (greedyLine bo m pw sw ci (widths.length + 1) ci 0 words styles widths).2.2.1
          (greedyLine bo m pw sw ci (widths.length + 1) ci 0 words styles widths).2.2.2
          Q1 Q6 (by rw [List.getLastD_concat]) hpre r hr
      refine ⟨R1, ?_, ?_, ?_, R5, by omega, ?_, R8, ?_⟩
      · exact (take_eq_of_take_eq_ge _ _
          (greedyLine bo m pw sw ci (widths.length + 1) ci 0 words styles widths).1 ci
          (le_of_lt hprog) R2).trans Q2
      · exact (take_eq_of_take_eq_ge _ _
          (greedyLine bo m pw sw ci (widths.length + 1) ci 0 words styles widths).1 ci
          (le_of_lt hprog) R3).trans Q3
      · exact (take_eq_of_take_eq_ge _ _
          (greedyLine bo m pw sw ci (widths.length + 1) ci 0 words styles widths).1 ci
          (le_of_lt hprog) R4).trans Q4
      · obtain ⟨ext, hext⟩ := R7
        exact ⟨[(greedyLine bo m pw sw ci (widths.length + 1) ci 0
          words styles widths).1] ++ ext, by rw [hext]; simp⟩
      · intro hm
        exact R9 (by omega)
    · rw [show greedyBreaks bo m pw sw (fuel + 1) ci acc words styles widths =
          (acc, words, styles, widths) by simp only [greedyBreaks, if_neg hci]] at hr
      subst hr
      dsimp only
      refine ⟨hpar, rfl, rfl, rfl, by rw [hlast]; exact hcb, le_refl _, ⟨[], by simp⟩,
        ?_, ?_⟩
      · intro ab hab
        obtain ⟨h1, h2, h3⟩ := hacc ab hab
        exact ⟨h1, by rw [hlast]; exact h2, h3⟩
      · intro habs
        rw [hlast]
        omega

theorem lineCost_eq_min (pw cl d : Int) :
    lineCost pw cl d = min ((pw - cl) * (pw - cl) + d) MAX_COST := by
  unfold lineCost
  rcases le_or_lt ((pw - cl) * (pw - cl) + d) MAX_COST with h | h
  · rw [if_neg (not_lt.2 h), min_eq_left h]
  · rw [if_pos h, min_eq_right h.le]

theorem lineCost_bound (pw cl d : Int) (h : 0 ≤ d) :
    0 ≤ lineCost pw cl d ∧ lineCost pw cl d ≤ MAX_COST := by
  have hsq : 0 ≤ (pw - cl) * (pw - cl) := mul_self_nonneg _
  rw [lineCost_eq_min pw cl d]
  exact ⟨le_min (by linarith) (by norm_num [MAX_COST]), min_le_right _ _⟩

theorem dpCostOf_bound (pw cl2 : Int) (dps : List Int)
    (hd : ∀ d ∈ dps, 0 ≤ d ∧ d ≤ MAX_COST) :
    0 ≤ dpCostOf pw cl2 dps ∧ dpCostOf pw cl2 dps ≤ MAX_COST := by
  cases dps with
  | nil => exact ⟨le_refl 0, by norm_num [dpCostOf, MAX_COST]⟩
  | cons d rest =>
    exact lineCost_bound pw cl2 d (hd d (List.mem_cons_self d rest)).1

theorem dpInner_bound (pw sw : Int) (ws : List Nat) (dps : List Int) (cl : Int) (j : Nat)
    (best : Int × Nat)
    (hd : ∀ d ∈ dps, 0 ≤ d ∧ d ≤ MAX_COST) (hb0 : 0 ≤ best.1) (hb1 : best.1 ≤ MAX_COST) :
    0 ≤ (dpInner pw sw ws dps cl j best).1 ∧
      (dpInner pw sw ws dps cl j best).1 ≤ MAX_COST := by
  induction ws generalizing dps cl j best with
  | nil => exact ⟨hb0, hb1⟩
  | cons w wrest ih =>
    simp only [dpInner]
    split
    · exact ⟨hb0, hb1⟩
    · have hcost := dpCostOf_bound pw (cl + ↑w + sw) dps hd
      apply ih
      · intro d hdm
        exact hd d (List.mem_of_mem_tail hdm)
      · split
        · exact hcost.1
        · exact hb0
      · split
        · exact hcost.2
        · exact hb1

theorem dpTable_bound (pw sw : Int) (ws : List Nat) :
    ∀ e ∈ dpTable pw sw ws, 0 ≤ e.1 ∧ e.1 ≤ MAX_COST := by
  induction ws with
  | nil => simp [dpTable]
  | cons w rest ih =>
    cases rest with
    | nil =>
      intro e he
      simp only [dpTable, List.mem_singleton] at he
      subst he
      exact ⟨le_refl 0, by norm_num [MAX_COST]⟩
    | cons w2 rest2 =>
      intro e he
      have heq : dpTable pw sw (w :: w2 :: rest2) =
          (if (dpInner pw sw (w :: w2 :: rest2)
              ((dpTable pw sw (w2 :: rest2)).map Prod.fst) (-sw) 0 (MAX_COST, 0)).1 = MAX_COST
            then (((dpTable pw sw (w2 :: rest2)).map Prod.fst).headD 0, 0)
            else dpInner pw sw (w :: w2 :: rest2)
              ((dpTable pw sw (w2 :: rest2)).map Prod.fst) (-sw) 0 (MAX_COST, 0)) ::
            dpTable pw sw (w2 :: rest2) := rfl
      rw [heq] at he
      rcases List.mem_cons.1 he with he1 | he2
      · subst he1
        have hmap : ∀ d ∈ (dpTable pw sw (w2 :: rest2)).map Prod.fst,
            0 ≤ d ∧ d ≤ MAX_COST := by
          intro d hdm
          rcases List.mem_map.1 hdm with ⟨e2, he2, rfl⟩
          exact ih e2 he2
        split
        · cases hh : (dpTable pw sw (w2 :: rest2)).map Prod.fst with
          | nil => exact ⟨le_refl 0, by norm_num [MAX_COST]⟩
          | cons d ds =>
            have hdm : d ∈ (dpTable pw sw (w2 :: rest2)).map Prod.fst := by
              rw [hh]; exact List.mem_cons_self d ds
            simpa [hh] using hmap d hdm
        · exact dpInner_bound pw sw (w :: w2 :: rest2) _ (-sw) 0 (MAX_COST, 0) hmap
            (by norm_num [MAX_COST]) (le_refl _)
      · exact ih e he2

/-- C7: the per-line DP cost is the squared remaining space plus the
successor cost computed exactly in the widened integer domain and saturated
to `MAX_COST`; saturated costs are within [0, MAX_COST]; the widened
computation stays far below 2^63 for any realistic page width (so the
64-bit intermediate cannot wrap); and every cost stored in the DP table
lies in [0, MAX_COST], i.e. never wraps around. -/
theorem dp_cost_saturation :
    (∀ pageWidth currlen dpNext : Int,
      lineCost pageWidth currlen dpNext =
        min ((pageWidth - currlen) * (pageWidth - currlen) + dpNext) MAX_COST) ∧
    (∀ pageWidth currlen dpNext : Int, 0 ≤ dpNext →
      0 ≤ lineCost pageWidth currlen dpNext ∧
        lineCost pageWidth currlen dpNext ≤ MAX_COST) ∧
    (∀ remainingSpace dpNext : Int, 0 ≤ remainingSpace → remainingSpace ≤ 65535 →
      0 ≤ dpNext → dpNext ≤ MAX_COST →
      remainingSpace * remainingSpace + dpNext < 9223372036854775808) ∧
    (∀ (pageWidth spaceWidth : Int) (widths : List Nat),
      ∀ e ∈ dpTable pageWidth spaceWidth widths, 0 ≤ e.1 ∧ e.1 ≤ MAX_COST) := by
  refine ⟨lineCost_eq_min, lineCost_bound, ?_, dpTable_bound⟩
  intro rs d h0 h1 h2 h3
  have hsq : rs * rs ≤ 65535 * 65535 := mul_le_mul h1 h1 h0 (by norm_num)
  have : (65535 : Int) * 65535 = 4294836225 := by norm_num
  rw [MAX_COST] at h3
  linarith

/-- Witness for C7 at page width 10, line width 3, successor cost 5. -/
theorem dp_cost_saturation_witness :
    lineCost 10 3 5 = min ((10 - 3) * (10 - 3) + 5) MAX_COST ∧
    (0 ≤ (5 : Int) ∧ 0 ≤ lineCost 10 3 5 ∧ lineCost 10 3 5 ≤ MAX_COST) ∧
    (7 : Int) * 7 + 5 < 9223372036854775808 :=
  ⟨dp_cost_saturation.1 10 3 5,
    ⟨by norm_num, dp_cost_saturation.2.1 10 3 5 (by norm_num)⟩,
    dp_cost_saturation.2.2.1 7 5 (by norm_num) (by norm_num) (by norm_num)
      (by norm_num [MAX_COST])⟩

/-- Membership characterization of the explicit-marker scan: its entries are
exactly the windows (letter, marker, letter) of the codepoint sequence, with
the break placed at the byte offset of the codepoint after the marker and
the inserted-hyphen flag true exactly for soft-hyphen markers. -/
theorem mem_explicitBreakScan (cps : List CodepointInfo) (bi : BreakInfo) :
    bi ∈ explicitBreakScan cps ↔ ∃ i a hcp c,
      cps[i]? = some a ∧ cps[i+1]? = some hcp ∧ cps[i+2]? = some c ∧
      isExplicitHyphen hcp.value = true ∧ isAlphabetic a.value = true ∧
      isAlphabetic c.value = true ∧ bi = ⟨c.byteOffset, isSoftHyphen hcp.value⟩ := by
  induction cps with
  | nil => simp [explicitBreakScan]
  | cons a rest ih =>
    cases rest with
    | nil => simp [explicitBreakScan]
    | cons b rest2 =>
      cases rest2 with
      | nil =>
        simp only [explicitBreakScan, List.not_mem_nil, false_iff]
        rintro ⟨i, x, y, z, h1, h2, h3, -⟩
        rcases i with _ | i
        · simp at h3
        · rcases i with _ | i <;> simp at h3
      | cons c rest3 =>
        simp only [explicitBreakScan, List.mem_append, ih]
        constructor
        · rintro (hmem | ⟨i, x, y, z, h1, h2, h3, h4, h5, h6, h7⟩)
          · split at hmem
            · next hcond =>
              simp only [List.mem_singleton] at hmem
              simp only [Bool.and_eq_true] at hcond
              exact ⟨0, a, b, c, by simp, by simp, by simp, hcond.1.1, hcond.1.2,
                hcond.2, hmem⟩
            · simp at hmem
          · exact ⟨i + 1, x, y, z, by simpa using h1, by simpa using h2,
              by simpa using h3, h4, h5, h6, h7⟩
        · rintro ⟨i, x, y, z, h1, h2, h3, h4, h5, h6, h7⟩
          rcases i with _ | i
          · left
            simp at h1 h2 h3
            subst h1; subst h2; subst h3
            rw [if_pos (by simp [h4, h5, h6])]
            simp [h7]
          · right
            exact ⟨i, x, y, z, by simpa using h1, by simpa using h2,
              by simpa using h3, h4, h5, h6, h7⟩

/-- C5: for every word whose trimmed codepoint sequence contains at least
one explicit hyphen marker between two alphabetic codepoints,
`Hyphenator::breakOffsets` returns exactly those marker break points —
regardless of the `includeFallback` flag and of the active language — with
`requiresInsertedHyphen` true for soft-hyphen markers and false for literal
hyphens (the flag is `isSoftHyphen` of the marker codepoint). -/
theorem breakOffsets_explicit_marker_precedence (word : Word)
    (h : buildExplicitBreakInfos
      (trimSurroundingPunctuationAndFootnote (collectCodepoints word)) ≠ []) :
    (∀ (lang : ActiveLanguage) (includeFallback : Bool),
      Hyphenator.breakOffsets lang word includeFallback =
        buildExplicitBreakInfos
          (trimSurroundingPunctuationAndFootnote (collectCodepoints word))) ∧
    (∀ bi, bi ∈ buildExplicitBreakInfos
        (trimSurroundingPunctuationAndFootnote (collectCodepoints word)) ↔
      ∃ i a hcp c,
        (trimSurroundingPunctuationAndFootnote (collectCodepoints word))[i]? = some a ∧
        (trimSurroundingPunctuationAndFootnote (collectCodepoints word))[i+1]? = some hcp ∧
        (trimSurroundingPunctuationAndFootnote (collectCodepoints word))[i+2]? = some c ∧
        isExplicitHyphen hcp.value = true ∧ isAlphabetic a.value = true ∧
        isAlphabetic c.value = true ∧
        bi = ⟨c.byteOffset, isSoftHyphen hcp.value⟩) := by
  constructor
  · intro lang includeFallback
    have hword : word.isEmpty = false := by
      cases word with
      | nil => exact absurd rfl h
      | cons b rest => rfl
    unfold Hyphenator.breakOffsets
    rw [hword]
    simp only [Bool.false_eq_true, if_false]
    rw [if_pos (by simpa using h)]
  · intro bi
    exact mem_explicitBreakScan _ bi

/-- Witness for C5 at the word "ab-cd": the hypothesis holds and the break
list is the single literal-hyphen marker break (byte offset 3, no inserted
hyphen needed). -/
theorem breakOffsets_explicit_marker_precedence_witness :
    buildExplicitBreakInfos
      (trimSurroundingPunctuationAndFootnote (collectCodepoints [97, 98, 45, 99, 100])) ≠ [] ∧
    Hyphenator.breakOffsets none [97, 98, 45, 99, 100] true =
      buildExplicitBreakInfos
        (trimSurroundingPunctuationAndFootnote (collectCodepoints [97, 98, 45, 99, 100])) :=
  ⟨by decide,
    (breakOffsets_explicit_marker_precedence [97, 98, 45, 99, 100] (by decide)).1 none true⟩

/-- C9: every break index returned by a language hyphenator with minimums
(p, s) on a trimmed word of codepoint length n satisfies p ≤ i and
i + s ≤ n; the fallback synthesis produces exactly the codepoint gaps from
the active (or default) minimum prefix up to n minus the minimum suffix,
and when no explicit-marker break and no language break exists and
`includeFallback` is set, `breakOffsets` returns exactly those synthesized
candidates (as byte offsets, all requiring an inserted hyphen). -/
theorem breakIndexes_minimum_affix :
    (∀ (lh : LanguageHyphenator) (cps : List CodepointInfo) (i : Nat),
      i ∈ lh.breakIndexes cps → lh.minPrefix ≤ i ∧ i + lh.minSuffix ≤ cps.length) ∧
    (∀ (p s n i : Nat), i ∈ fallbackIndexes p s n ↔ p ≤ i ∧ i + s ≤ n) ∧
    (∀ (lang : ActiveLanguage) (word : Word),
      word ≠ [] →
      buildExplicitBreakInfos
        (trimSurroundingPunctuationAndFootnote (collectCodepoints word)) = [] →
      activeBreakIndexes lang
        (trimSurroundingPunctuationAndFootnote (collectCodepoints word)) = [] →
      Hyphenator.breakOffsets lang word true =
        (fallbackIndexes (activeMinPrefix lang) (activeMinSuffix lang)
          (trimSurroundingPunctuationAndFootnote (collectCodepoints word)).length).map
          fun idx => BreakInfo.mk
            (byteOffsetForIndex
              (trimSurroundingPunctuationAndFootnote (collectCodepoints word)) idx) true) := by
  refine ⟨?_, ?_, ?_⟩
  · intro lh cps i hi
    unfold LanguageHyphenator.breakIndexes at hi
    rw [List.mem_filter] at hi
    have := hi.2
    simp only [Bool.and_eq_true, decide_eq_true_eq] at this
    exact this
  · intro p s n i
    unfold fallbackIndexes
    rw [List.mem_range'_1]
    omega
  · intro lang word hword hexp hlang
    have hword2 : word.isEmpty = false := by
      cases word with
      | nil => exact absurd rfl hword
      | cons b rest => rfl
    unfold Hyphenator.breakOffsets
    rw [hword2]
    simp only [Bool.false_eq_true, if_false]
    rw [hexp, hlang]
    simp

/-- Witness for C9 at the word "abcd" with no active language: the default
minimums 2/2 give the single fallback gap at codepoint index 2. -/
theorem breakIndexes_minimum_affix_witness :
    ([97, 98, 99, 100] : Word) ≠ [] ∧
    Hyphenator.breakOffsets none [97, 98, 99, 100] true = [⟨2, true⟩] := by
  constructor
  · decide
  · rw [breakIndexes_minimum_affix.2.2 none [97, 98, 99, 100] (by decide) (by decide) (by decide)]
    decide

/-- A single-word range's content width is just that word's cached width. -/
theorem segWidth_single (sw : Int) (ws : List Nat) (k : Nat) (hk : k < ws.length) :
    segWidth sw ws k (k + 1) = (ws.getD k 0 : Int) := by
  unfold segWidth lineWidths
  rw [getD_drop_cons ws k 0 hk]
  simp

/-- The head entry of the DP table over `w :: rest`, as computed by the
`i`-loop body of `ParsedText::computeLineBreaks` (lines 132-176). -/
def dpEntry (pw sw : Int) (w : Nat) (rest : List Nat) : Int × Nat :=
  if (dpInner pw sw (w :: rest) ((dpTable pw sw rest).map Prod.fst) (-sw) 0
      (MAX_COST, 0)).1 = MAX_COST then
    (((dpTable pw sw rest).map Prod.fst).headD 0, 0)
  else
    dpInner pw sw (w :: rest) ((dpTable pw sw rest).map Prod.fst) (-sw) 0 (MAX_COST, 0)

/-- The DP table unfolds one entry at a time, uniformly in the tail (the
C++ base case for the final word coincides with the generic loop body). -/
theorem dpTable_cons (pw sw : Int) (w : Nat) (rest : List Nat) :
    dpTable pw sw (w :: rest) = dpEntry pw sw w rest :: dpTable pw sw rest := by
  cases rest with
  | nil =>
    unfold dpEntry
    by_cases hov : pw < -sw + (w : Int) + sw
    · have h1 : dpInner pw sw [w] (([] : List (Int × Nat)).map Prod.fst) (-sw) 0
          (MAX_COST, 0) = (MAX_COST, 0) := by
        simp only [dpInner]
        rw [if_pos hov]
      rw [show dpTable pw sw ([] : List Nat) = [] from rfl, h1, if_pos rfl]
      rfl
    · have h1 : dpInner pw sw [w] (([] : List (Int × Nat)).map Prod.fst) (-sw) 0
          (MAX_COST, 0) = (0, 0) := by
        simp only [dpInner]
        rw [if_neg hov]
        have hc : dpCostOf pw (-sw + (w : Int) + sw)
            (([] : List (Int × Nat)).map Prod.fst) < MAX_COST := by
          show (0 : Int) < MAX_COST
          norm_num [MAX_COST]
        rw [if_pos hc]
        rfl
      rw [show dpTable pw sw ([] : List Nat) = [] from rfl, h1]
      rw [if_neg (by norm_num [MAX_COST])]
      rfl
  | cons c rest' => rfl

theorem dpTable_length (pw sw : Int) (ws : List Nat) :
    (dpTable pw sw ws).length = ws.length := by
  induction ws with
  | nil => rfl
  | cons w rest ih =>
    rw [dpTable_cons]
    simp [ih]

theorem dpTable_drop (pw sw : Int) (ws : List Nat) :
    ∀ k, (dpTable pw sw ws).drop k = dpTable pw sw (ws.drop k) := by
  induction ws with
  | nil => intro k; simp [dpTable]
  | cons w rest ih =>
    intro k
    cases k with
    | zero => rfl
    | succ k' => rw [dpTable_cons, List.drop_succ_cons, List.drop_succ_cons, ih]

/-- The candidate loop either leaves the running best untouched or settles
on a candidate whose whole line, from the loop's starting word through the
candidate, fits the accumulated width budget. -/
theorem dpInner_cases (pw sw : Int) (ws : List Nat) :
    ∀ (dps : List Int) (cl : Int) (j : Nat) (best : Int × Nat),
    dpInner pw sw ws dps cl j best = best ∨
    ∃ t, t < ws.length ∧ (dpInner pw sw ws dps cl j best).2 = j + t ∧
      cl + (((ws.take (t + 1)).sum : Nat) : Int) + ((t : Int) + 1) * sw ≤ pw := by
  induction ws with
  | nil => intro dps cl j best; exact Or.inl rfl
  | cons w wrest ih =>
    intro dps cl j best
    simp only [dpInner]
    split
    · exact Or.inl rfl
    · next hgt =>
      rcases ih dps.tail (cl + (w : Int) + sw) (j + 1)
          (if dpCostOf pw (cl + (w : Int) + sw) dps < best.1 then
            (dpCostOf pw (cl + (w : Int) + sw) dps, j) else best) with heq | ⟨t, ht, hr2, hfit⟩
      · rw [heq]
        by_cases hupd : dpCostOf pw (cl + (w : Int) + sw) dps < best.1
        · right
          refine ⟨0, by simp, ?_, ?_⟩
          · rw [if_pos hupd]
            rfl
          · simp only [List.take_succ_cons, List.take_zero, List.sum_cons, List.sum_nil]
            push_cast
            linarith [not_lt.1 hgt]
        · rw [if_neg hupd]
          exact Or.inl rfl
      · right
        refine ⟨t + 1, by simpa using ht, ?_, ?_⟩
        · rw [hr2]
          omega
        · simp only [List.take_succ_cons, List.sum_cons] at hfit ⊢
          push_cast at hfit ⊢
          linarith

/-- Each DP entry either forces a single-word line or records a candidate
whose whole line fits the page width. -/
theorem dpEntry_cases (pw sw : Int) (w : Nat) (rest : List Nat) :
    (dpEntry pw sw w rest).2 = 0 ∨
    ((dpEntry pw sw w rest).2 < (w :: rest).length ∧
      ((((w :: rest).take ((dpEntry pw sw w rest).2 + 1)).sum : Nat) : Int) +
        ((dpEntry pw sw w rest).2 : Int) * sw ≤ pw) := by
  unfold dpEntry
  split
  · exact Or.inl rfl
  · next hne =>
    rcases dpInner_cases pw sw (w :: rest) ((dpTable pw sw rest).map Prod.fst)
        (-sw) 0 (MAX_COST, 0) with heq | ⟨t, ht, hr2, hfit⟩
    · exact absurd (by rw [heq]) hne
    · right
      rw [hr2]
      refine ⟨by simpa using ht, ?_⟩
      simp only [Nat.zero_add] at hr2 ⊢
      push_cast at hfit ⊢
      linarith

theorem getD_append_left {α : Type} (l1 l2 : List α) (k : Nat) (d : α) (h : k < l1.length) :
    (l1 ++ l2).getD k d = l1.getD k d := by
  induction l1 generalizing k with
  | nil => exact absurd h (by simp)
  | cons a rest ih =>
    cases k with
    | zero => rfl
    | succ k2 => simpa [List.getD] using ih k2 (by simpa using h)

theorem getD_set_insertIdx {α : Type} (l : List α) (i : Nat) (x y d : α)
    (h : i < l.length) :
    ((l.set i x).insertIdx (i + 1) y).getD i d = x := by
  rw [insertIdx_eq_take_drop (l.set i x) (i + 1) (by simp; omega) y,
    getD_append_left _ _ i d (by simp [List.length_take]; omega),
    getD_congr_of_take_eq ((l.set i x).take (i + 1)) (l.set i x) (i + 1) i d
      (by rw [List.take_take, min_self]) (by omega)]
  rw [List.getD_eq_getElem _ d (by simp; omega)]
  simp [List.getElem_set]

/-- With the inner-loop test false, the pre-pass inner loop is a no-op. -/
theorem prePassAt_stop (bo : BreakFn) (m : Measurer) (pw : Int) (i fuel : Nat)
    (words : List Word) (styles : List Style) (widths : List Nat)
    (h : ¬ pw < (widths.getD i 0 : Int)) :
    prePassAt bo m pw i fuel words styles widths = (words, styles, widths) := by
  cases fuel with
  | zero => rfl
  | succ f =>
    simp only [prePassAt]
    rw [if_neg h]

/-- One run of the pre-pass inner while loop at index i (ParsedText.cpp
lines 114-118) with its call-site fuel: a successful split immediately
makes the cached width fit, so afterwards the word at i either fits the
page or provably cannot be split at full page width; the prefix below i is
untouched and the loop strictly consumes the outer termination measure. -/
theorem prePassAt_spec (bo : BreakFn) (m : Measurer) (pw sw : Int) (hpw : 0 ≤ pw)
    (i : Nat) (words : List Word) (styles : List Style) (widths : List Nat)
    (hpar : ParallelState words styles widths) (hi : i < widths.length) :
    ∀ q, q = prePassAt bo m pw i (widths.getD i 0 + 1) words styles widths →
    ParallelState q.1 q.2.1 q.2.2 ∧
    q.1.take i = words.take i ∧ q.2.1.take i = styles.take i ∧
    q.2.2.take i = widths.take i ∧
    widths.length ≤ q.2.2.length ∧
    GoodLine bo m pw sw q.1 q.2.1 q.2.2 i (i + 1) ∧
    stateMeasure q.1 (i + 1) < stateMeasure words i := by
  intro q hq
  by_cases hov : pw < (widths.getD i 0 : Int)
  · obtain ⟨w0, hw0e⟩ : ∃ k, widths.getD i 0 = k + 1 := ⟨widths.getD i 0 - 1, by omega⟩
    rw [hw0e] at hq
    rw [show prePassAt bo m pw i (w0 + 1 + 1) words styles widths =
        (if pw < (widths.getD i 0 : Int) then
          (if (hyphenateWordAtIndex bo m i pw words styles widths true).ok = true then
            prePassAt bo m pw i (w0 + 1)
              (hyphenateWordAtIndex bo m i pw words styles widths true).words
              (hyphenateWordAtIndex bo m i pw words styles widths true).wordStyles
              (hyphenateWordAtIndex bo m i pw words styles widths true).wordWidths
          else (words, styles, widths))
        else (words, styles, widths)) from rfl, if_pos hov] at hq
    by_cases hok : (hyphenateWordAtIndex bo m i pw words styles widths true).ok = true
    · rw [if_pos hok] at hq
      obtain ⟨hii, -, off, nh, hoff0, hofflt, hfitw, hwE, hsE, hwwE⟩ :=
        hyphenateWordAtIndex_ok_spec bo m i pw words styles widths true hok
      have hgd : (hyphenateWordAtIndex bo m i pw words styles widths true).wordWidths.getD i 0 =
          measureWordWidth m ((words.getD i []).take off) (styles.getD i .regular) nh := by
        rw [hwwE]
        exact getD_set_insertIdx widths i _ _ 0 hi
      have hnov : ¬ pw <
          ((hyphenateWordAtIndex bo m i pw words styles widths true).wordWidths.getD i 0 : Int) := by
        rw [hgd]
        omega
      rw [prePassAt_stop bo m pw i (w0 + 1) _ _ _ hnov] at hq
      subst hq
      obtain ⟨hlen, hpar2⟩ :=
        hyphenateWordAtIndex_ok_lengths bo m i pw words styles widths true hpar hok
      obtain ⟨ht1, ht2, ht3⟩ :=
        hyphenateWordAtIndex_ok_stable bo m i pw words styles widths true hpar hok i (le_refl i)
      have hwwlen :
          (hyphenateWordAtIndex bo m i pw words styles widths true).wordWidths.length =
            widths.length + 1 := by
        have := hpar2.2
        have := hpar.2
        omega
      refine ⟨hpar2, ht1, ht2, ht3, by dsimp only; omega, ?_, ?_⟩
      · left
        rw [show ((hyphenateWordAtIndex bo m i pw words styles widths true).words,
            (hyphenateWordAtIndex bo m i pw words styles widths true).wordStyles,
            (hyphenateWordAtIndex bo m i pw words styles widths true).wordWidths).2.2 =
          (hyphenateWordAtIndex bo m i pw words styles widths true).wordWidths from rfl]
        rw [segWidth_single sw _ i (by omega), hgd]
        exact hfitw
      · exact stateMeasure_split_lt bo m i pw words styles widths true hok
    · rw [if_neg hok] at hq
      subst hq
      have hokf : (hyphenateWordAtIndex bo m i pw words styles widths true).ok = false := by
        cases hx : (hyphenateWordAtIndex bo m i pw words styles widths true).ok
        · rfl
        · exact absurd hx hok
      refine ⟨hpar, rfl, rfl, rfl, le_refl _, Or.inr ⟨rfl, hov, hokf⟩, ?_⟩
      exact stateMeasure_advance_lt words i (by have h2 := hpar.2; omega)
  · rw [prePassAt_stop bo m pw i _ _ _ _ hov] at hq
    subst hq
    refine ⟨hpar, rfl, rfl, rfl, le_refl _, ?_, ?_⟩
    · left
      rw [segWidth_single sw widths i hi]
      omega
    · exact stateMeasure_advance_lt words i (by have h2 := hpar.2; omega)

/-- The pre-pass outer loop (ParsedText.cpp lines 113-119): with the fuel
its caller supplies — at least one unit per remaining word and byte — every
word of the final width vector either fits the page width or is an
unsplittable oversized word, and the buffer stays parallel and only
grows. -/
theorem prePass_spec (bo : BreakFn) (m : Measurer) (pw sw : Int) (hpw : 0 ≤ pw) :
    ∀ (fuel i : Nat) (words : List Word) (styles : List Style) (widths : List Nat),
    ParallelState words styles widths →
    (∀ k, k < i → GoodLine bo m pw sw words styles widths k (k + 1)) →
    ∀ r, r = prePass bo m pw fuel i words styles widths →
    ParallelState r.1 r.2.1 r.2.2 ∧
    widths.length ≤ r.2.2.length ∧
    (stateMeasure words i < fuel →
      ∀ k, k < r.2.2.length → GoodLine bo m pw sw r.1 r.2.1 r.2.2 k (k + 1)) := by
  intro fuel
  induction fuel with
  | zero =>
    intro i words styles widths hpar hpre r hr
    subst hr
    exact ⟨hpar, le_refl _, fun hm => absurd hm (by omega)⟩
  | succ fuel ih =>
    intro i words styles widths hpar hpre r hr
    by_cases hil : i < widths.length
    · rw [show prePass bo m pw (fuel + 1) i words styles widths =
          prePass bo m pw fuel (i + 1)
            (prePassAt bo m pw i (widths.getD i 0 + 1) words styles widths).1
            (prePassAt bo m pw i (widths.getD i 0 + 1) words styles widths).2.1
            (prePassAt bo m pw i (widths.getD i 0 + 1) words styles widths).2.2
        from by simp only [prePass]; rw [if_pos hil]] at hr
      obtain ⟨P1, P2, P3, P4, P5, P6, P7⟩ :=
        prePassAt_spec bo m pw sw hpw i words styles widths hpar hil
          (prePassAt bo m pw i (widths.getD i 0 + 1) words styles widths) rfl
      have hpre2 : ∀ k, k < i + 1 → GoodLine bo m pw sw
          (prePassAt bo m pw i (widths.getD i 0 + 1) words styles widths).1
          (prePassAt bo m pw i (widths.getD i 0 + 1) words styles widths).2.1
          (prePassAt bo m pw i (widths.getD i 0 + 1) words styles widths).2.2
          k (k + 1) := by
        intro k hk
        by_cases hki : k < i
        · refine GoodLine_mono bo m pw sw words _ styles _ widths _ k (k + 1)
            ?_ ?_ ?_ (by omega) ?_ ?_ (hpre k hki)
          · exact (take_eq_of_take_eq_ge _ _ i (k + 1) (by omega) P4).symm
          · exact (take_eq_of_take_eq_ge _ _ i (k + 1) (by omega) P2).symm
          · exact (take_eq_of_take_eq_ge _ _ i (k + 1) (by omega) P3).symm
          · have h2 := hpar.2
            omega
          · have h3 := P1.2
            omega
        · have hkeq : k = i := by omega
          subst hkeq
          exact P6
      obtain ⟨R1, R2, R3⟩ := ih (i + 1)
        (prePassAt bo m pw i (widths.getD i 0 + 1) words styles widths).1
        (prePassAt bo m pw i (widths.getD i 0 + 1) words styles widths).2.1
        (prePassAt bo m pw i (widths.getD i 0 + 1) words styles widths).2.2
        P1 hpre2 r hr
      refine ⟨R1, le_trans P5 R2, ?_⟩
      intro hm
      exact R3 (by omega)
    · rw [show prePass bo m pw (fuel + 1) i words styles widths = (words, styles, widths)
          from by simp only [prePass]; rw [if_neg hil]] at hr
      subst hr
      refine ⟨hpar, le_refl _, ?_⟩
      intro hm k hk
      dsimp only at hk
      exact hpre k (by omega)

/-- Every line range produced by the reconstruction walk of
`ParsedText::computeLineBreaks` (lines 179-193) over the DP table of a
pre-passed width vector is non-empty, stays in range, and respects the fit
bound. -/
theorem reconstructBreaks_chunks (bo : BreakFn) (m : Measurer) (pw sw : Int) (hpw : 0 ≤ pw)
    (words : List Word) (styles : List Style) (ws : List Nat)
    (hpost : ∀ k, k < ws.length → GoodLine bo m pw sw words styles ws k (k + 1)) :
    ∀ (fuel a : Nat),
    ∀ ab ∈ Chunks a (reconstructBreaks fuel a (dpTable pw sw (ws.drop a))),
      ab.1 < ab.2 ∧ ab.2 ≤ ws.length ∧ GoodLine bo m pw sw words styles ws ab.1 ab.2 := by
  intro fuel
  induction fuel with
  | zero =>
    intro a ab hab
    simp [reconstructBreaks, Chunks] at hab
  | succ fuel ih =>
    intro a ab hab
    by_cases ha : a < ws.length
    · rw [show ws.drop a = ws.getD a 0 :: ws.drop (a + 1) from getD_drop_cons ws a 0 ha,
        dpTable_cons] at hab
      rw [show reconstructBreaks (fuel + 1) a
            (dpEntry pw sw (ws.getD a 0) (ws.drop (a + 1)) ::
              dpTable pw sw (ws.drop (a + 1))) =
          (a + ((dpEntry pw sw (ws.getD a 0) (ws.drop (a + 1))).2 + 1)) ::
            reconstructBreaks fuel
              (a + ((dpEntry pw sw (ws.getD a 0) (ws.drop (a + 1))).2 + 1))
              ((dpEntry pw sw (ws.getD a 0) (ws.drop (a + 1)) ::
                dpTable pw sw (ws.drop (a + 1))).drop
                ((dpEntry pw sw (ws.getD a 0) (ws.drop (a + 1))).2 + 1))
          from by
            simp only [reconstructBreaks,
              Nat.max_eq_left (Nat.le_add_left 1
                (dpEntry pw sw (ws.getD a 0) (ws.drop (a + 1))).2)]] at hab
      rw [List.drop_succ_cons, dpTable_drop, List.drop_drop,
        show a + 1 + (dpEntry pw sw (ws.getD a 0) (ws.drop (a + 1))).2 =
          a + ((dpEntry pw sw (ws.getD a 0) (ws.drop (a + 1))).2 + 1) from by omega] at hab
      have hlen : (ws.getD a 0 :: ws.drop (a + 1)).length = ws.length - a := by
        rw [← getD_drop_cons ws a 0 ha]
        simp
      rcases List.mem_cons.1 hab with hab1 | hab2
      · subst hab1
        rcases dpEntry_cases pw sw (ws.getD a 0) (ws.drop (a + 1)) with he2 | ⟨he2lt, hfit⟩
        · rw [he2]
          exact ⟨by omega, by omega, hpost a ha⟩
        · rw [hlen] at he2lt
          refine ⟨by omega, by omega, Or.inl ?_⟩
          dsimp only
          unfold segWidth lineWidths
          rw [Nat.add_sub_cancel_left, Nat.add_sub_cancel,
            show ws.drop a = ws.getD a 0 :: ws.drop (a + 1) from getD_drop_cons ws a 0 ha]
          push_cast at hfit ⊢
          linarith
      · exact ih (a + ((dpEntry pw sw (ws.getD a 0) (ws.drop (a + 1))).2 + 1)) ab hab2
    · rw [show ws.drop a = [] from List.drop_eq_nil_of_le (by omega)] at hab
      simp [dpTable, reconstructBreaks, Chunks] at hab

/-- **C4**: line fit bound.  For both line breakers, every produced line
range — the single final line included — either has content width (word
widths plus one base inter-word gap per adjacent pair) within the viewport
width, or is a single oversized word that `hyphenateWordAtIndex` cannot
split any further even given the full page width; widths and split
decisions are those of the breaker's final (post-splitting) buffer
state. -/
theorem line_fit_bound (bo : BreakFn) (m : Measurer) (pw sw : Int) (hpw : 0 ≤ pw)
    (words : List Word) (styles : List Style) (widths : List Nat)
    (hpar : ParallelState words styles widths) :
    (∀ ab ∈ Chunks 0 (computeHyphenatedLineBreaks bo m pw sw words styles widths).1,
      ab.1 < ab.2 ∧
      ab.2 ≤ (computeHyphenatedLineBreaks bo m pw sw words styles widths).2.2.2.length ∧
      GoodLine bo m pw sw
        (computeHyphenatedLineBreaks bo m pw sw words styles widths).2.1
        (computeHyphenatedLineBreaks bo m pw sw words styles widths).2.2.1
        (computeHyphenatedLineBreaks bo m pw sw words styles widths).2.2.2 ab.1 ab.2) ∧
    (∀ ab ∈ Chunks 0 (computeLineBreaks bo m pw sw words styles widths).1,
      ab.1 < ab.2 ∧
      ab.2 ≤ (computeLineBreaks bo m pw sw words styles widths).2.2.2.length ∧
      GoodLine bo m pw sw
        (computeLineBreaks bo m pw sw words styles widths).2.1
        (computeLineBreaks bo m pw sw words styles widths).2.2.1
        (computeLineBreaks bo m pw sw words styles widths).2.2.2 ab.1 ab.2) := by
  constructor
  · obtain ⟨G1, G2, G3, G4, G5, G6, G7, G8, G9⟩ :=
      greedyBreaks_spec bo m pw sw hpw (totalByteFuel words) 0 [] words styles widths
        hpar (Nat.zero_le _) rfl (by intro ab hab; simp [Chunks] at hab)
        (computeHyphenatedLineBreaks bo m pw sw words styles widths) rfl
    intro ab hab
    obtain ⟨h1, h2, h3⟩ := G8 ab hab
    exact ⟨h1, le_trans h2 G5, h3⟩
  · by_cases hemp : words.isEmpty = true
    · rw [show computeLineBreaks bo m pw sw words styles widths = ([], words, styles, widths)
          from by unfold computeLineBreaks; rw [if_pos hemp]]
      intro ab hab
      simp [Chunks] at hab
    · rw [show computeLineBreaks bo m pw sw words styles widths =
          (reconstructBreaks
            (dpTable pw sw
              (prePass bo m pw (totalByteFuel words) 0 words styles widths).2.2).length 0
            (dpTable pw sw
              (prePass bo m pw (totalByteFuel words) 0 words styles widths).2.2),
           (prePass bo m pw (totalByteFuel words) 0 words styles widths).1,
           (prePass bo m pw (totalByteFuel words) 0 words styles widths).2.1,
           (prePass bo m pw (totalByteFuel words) 0 words styles widths).2.2)
          from by unfold computeLineBreaks; rw [if_neg hemp]]
      obtain ⟨P1, P2, P3⟩ :=
        prePass_spec bo m pw sw hpw (totalByteFuel words) 0 words styles widths hpar
          (by intro k hk; exact absurd hk (by omega))
          (prePass bo m pw (totalByteFuel words) 0 words styles widths) rfl
      have hfuel : stateMeasure words 0 < totalByteFuel words := by
        unfold stateMeasure totalByteFuel
        simp
      intro ab hab
      dsimp only at hab ⊢
      rw [show dpTable pw sw
            (prePass bo m pw (totalByteFuel words) 0 words styles widths).2.2 =
          dpTable pw sw
            ((prePass bo m pw (totalByteFuel words) 0 words styles widths).2.2.drop 0)
          from by rw [List.drop_zero]] at hab
      exact reconstructBreaks_chunks bo m pw sw hpw
        (prePass bo m pw (totalByteFuel words) 0 words styles widths).1
        (prePass bo m pw (totalByteFuel words) 0 words styles widths).2.1
        (prePass bo m pw (totalByteFuel words) 0 words styles widths).2.2
        (P3 hfuel) _ 0 ab hab

/-- Witness for C4 at viewport 10, space width 1, two words of widths 3
and 4: both breakers' outputs satisfy the fit bound. -/
theorem line_fit_bound_witness :
    (0 : Int) ≤ 10 ∧
    ParallelState [[97, 97, 97], [98, 98, 98, 98]] [.regular, .regular] [3, 4] ∧
    ((∀ ab ∈ Chunks 0 (computeHyphenatedLineBreaks noBreaks byteLengthMeasurer 10 1
        [[97, 97, 97], [98, 98, 98, 98]] [.regular, .regular] [3, 4]).1,
      ab.1 < ab.2 ∧
      ab.2 ≤ (computeHyphenatedLineBreaks noBreaks byteLengthMeasurer 10 1
        [[97, 97, 97], [98, 98, 98, 98]] [.regular, .regular] [3, 4]).2.2.2.length ∧
      GoodLine noBreaks byteLengthMeasurer 10 1
        (computeHyphenatedLineBreaks noBreaks byteLengthMeasurer 10 1
          [[97, 97, 97], [98, 98, 98, 98]] [.regular, .regular] [3, 4]).2.1
        (computeHyphenatedLineBreaks noBreaks byteLengthMeasurer 10 1
          [[97, 97, 97], [98, 98, 98, 98]] [.regular, .regular] [3, 4]).2.2.1
        (computeHyphenatedLineBreaks noBreaks byteLengthMeasurer 10 1
          [[97, 97, 97], [98, 98, 98, 98]] [.regular, .regular] [3, 4]).2.2.2 ab.1 ab.2) ∧
    (∀ ab ∈ Chunks 0 (computeLineBreaks noBreaks byteLengthMeasurer 10 1
        [[97, 97, 97], [98, 98, 98, 98]] [.regular, .regular] [3, 4]).1,
      ab.1 < ab.2 ∧
      ab.2 ≤ (computeLineBreaks noBreaks byteLengthMeasurer 10 1
        [[97, 97, 97], [98, 98, 98, 98]] [.regular, .regular] [3, 4]).2.2.2.length ∧
      GoodLine noBreaks byteLengthMeasurer 10 1
        (computeLineBreaks noBreaks byteLengthMeasurer 10 1
          [[97, 97, 97], [98, 98, 98, 98]] [.regular, .regular] [3, 4]).2.1
        (computeLineBreaks noBreaks byteLengthMeasurer 10 1
          [[97, 97, 97], [98, 98, 98, 98]] [.regular, .regular] [3, 4]).2.2.1
        (computeLineBreaks noBreaks byteLengthMeasurer 10 1
          [[97, 97, 97], [98, 98, 98, 98]] [.regular, .regular] [3, 4]).2.2.2 ab.1 ab.2)) :=
  ⟨by norm_num, ⟨rfl, rfl⟩,
    line_fit_bound noBreaks byteLengthMeasurer 10 1 (by norm_num)
      [[97, 97, 97], [98, 98, 98, 98]] [.regular, .regular] [3, 4] ⟨rfl, rfl⟩⟩

/-- The fragment lists realizable by repeatedly applying the committed
split shape of `hyphenateWordAtIndex` (`applySplit`): a word is either kept
whole, or split at a proper byte offset into its prefix (with a hyphen
appended when the break requires one) and its remainder, each of which may
be split further.  The index counts the realized splits. -/
inductive Frag : Word → List Word → Nat → Prop
  | base (w : Word) : Frag w [w] 0
  | split (w : Word) (off : Nat) (nh : Bool) (fs1 fs2 : List Word) (n1 n2 : Nat) :
      0 < off → off < w.length →
      Frag (w.take off ++ if nh then [hyphenChar] else []) fs1 n1 →
      Frag (w.drop off) fs2 n2 →
      Frag w (fs1 ++ fs2) (n1 + n2 + 1)

/-- One buffer refines another wordwise: each original word is replaced in
place, in order, by one of its fragment lists.  The index totals the
realized splits. -/
inductive SplitsAll : List Word → List Word → Nat → Prop
  | nil : SplitsAll [] [] 0
  | cons (w : Word) (ws fs rest : List Word) (n1 n2 : Nat) :
      Frag w fs n1 → SplitsAll ws rest n2 → SplitsAll (w :: ws) (fs ++ rest) (n1 + n2)

theorem Frag_length (w : Word) (fs : List Word) (n : Nat) (h : Frag w fs n) :
    fs.length = n + 1 := by
  induction h with
  | base w => rfl
  | split w off nh fs1 fs2 n1 n2 h1 h2 h3 h4 ih1 ih2 =>
    simp only [List.length_append, ih1, ih2]
    omega

/-- Splitting n times turns k words into exactly k + n words. -/
theorem SplitsAll_length (ws fs : List Word) (n : Nat) (h : SplitsAll ws fs n) :
    fs.length = ws.length + n := by
  induction h with
  | nil => rfl
  | cons w ws2 fs2 rest n1 n2 h1 h2 ih =>
    simp only [List.length_append, List.length_cons, Frag_length w fs2 n1 h1, ih]
    omega

theorem getD_append_right {α : Type} (l1 l2 : List α) (k : Nat) (d : α)
    (h : l1.length ≤ k) : (l1 ++ l2).getD k d = l2.getD (k - l1.length) d := by
  induction l1 generalizing k with
  | nil => simp
  | cons a rest ih =>
    cases k with
    | zero => exact absurd h (by simp)
    | succ k2 =>
      simpa [List.getD] using ih k2 (by simpa using h)

/-- Replacing one fragment of a fragment list by a fragment list of its own
yields a fragment list of the original word. -/
theorem Frag_replace (w : Word) (fs : List Word) (n : Nat) (h : Frag w fs n) :
    ∀ (i : Nat) (g : List Word) (k : Nat), i < fs.length →
    Frag (fs.getD i []) g k →
    Frag w (fs.take i ++ g ++ fs.drop (i + 1)) (n + k) := by
  induction h with
  | base w =>
    intro i g k hi hg
    have hi0 : i = 0 := by simpa using hi
    subst hi0
    simpa using hg
  | split w off nh fs1 fs2 n1 n2 hoff1 hoff2 h3 h4 ih1 ih2 =>
    intro i g k hi hg
    by_cases hi1 : i < fs1.length
    · rw [getD_append_left fs1 fs2 i [] hi1] at hg
      have h5 := ih1 i g k hi1 hg
      rw [List.take_append_eq_append_take, List.drop_append_eq_append_drop,
        show i - fs1.length = 0 from by omega, show i + 1 - fs1.length = 0 from by omega]
      simp only [List.take_zero, List.drop_zero, List.append_nil]
      rw [show fs1.take i ++ g ++ (fs1.drop (i + 1) ++ fs2) =
        (fs1.take i ++ g ++ fs1.drop (i + 1)) ++ fs2 from by simp]
      rw [show n1 + n2 + 1 + k = n1 + k + n2 + 1 from by omega]
      exact Frag.split w off nh _ fs2 (n1 + k) n2 hoff1 hoff2 h5 h4
    · have hlen : (fs1 ++ fs2).length = fs1.length + fs2.length := by simp
      have hi2 : i - fs1.length < fs2.length := by omega
      rw [getD_append_right fs1 fs2 i [] (by omega)] at hg
      have h5 := ih2 (i - fs1.length) g k hi2 hg
      rw [List.take_append_eq_append_take, List.drop_append_eq_append_drop,
        show fs1.take i = fs1 from List.take_of_length_le (by omega),
        show fs1.drop (i + 1) = [] from List.drop_eq_nil_of_le (by omega),
        show i + 1 - fs1.length = (i - fs1.length) + 1 from by omega]
      simp only [List.nil_append]
      rw [show fs1 ++ fs2.take (i - fs1.length) ++ g ++ fs2.drop (i - fs1.length + 1) =
        fs1 ++ (fs2.take (i - fs1.length) ++ g ++ fs2.drop (i - fs1.length + 1)) from by simp]
      rw [show n1 + n2 + 1 + k = n1 + (n2 + k) + 1 from by omega]
      exact Frag.split w off nh fs1 _ n1 (n2 + k) hoff1 hoff2 h3 h5

/-- Replacing one word of a refined buffer by one of its own fragment
lists keeps the buffer a refinement. -/
theorem SplitsAll_replace (ws fs : List Word) (n : Nat) (h : SplitsAll ws fs n) :
    ∀ (i : Nat) (g : List Word) (k : Nat), i < fs.length →
    Frag (fs.getD i []) g k →
    SplitsAll ws (fs.take i ++ g ++ fs.drop (i + 1)) (n + k) := by
  induction h with
  | nil =>
    intro i g k hi hg
    exact absurd hi (by simp)
  | cons w ws2 fs2 rest n1 n2 h1 h2 ih =>
    intro i g k hi hg
    by_cases hi1 : i < fs2.length
    · rw [getD_append_left fs2 rest i [] hi1] at hg
      have h5 := Frag_replace w fs2 n1 h1 i g k hi1 hg
      rw [List.take_append_eq_append_take, List.drop_append_eq_append_drop,
        show i - fs2.length = 0 from by omega, show i + 1 - fs2.length = 0 from by omega]
      simp only [List.take_zero, List.drop_zero, List.append_nil]
      rw [show fs2.take i ++ g ++ (fs2.drop (i + 1) ++ rest) =
        (fs2.take i ++ g ++ fs2.drop (i + 1)) ++ rest from by simp]
      rw [show n1 + n2 + k = n1 + k + n2 from by omega]
      exact SplitsAll.cons w ws2 _ rest (n1 + k) n2 h5 h2
    · have hlen : (fs2 ++ rest).length = fs2.length + rest.length := by simp
      have hi2 : i - fs2.length < rest.length := by omega
      rw [getD_append_right fs2 rest i [] (by omega)] at hg
      have h5 := ih (i - fs2.length) g k hi2 hg
      rw [List.take_append_eq_append_take, List.drop_append_eq_append_drop,
        show fs2.take i = fs2 from List.take_of_length_le (by omega),
        show fs2.drop (i + 1) = [] from List.drop_eq_nil_of_le (by omega),
        show i + 1 - fs2.length = (i - fs2.length) + 1 from by omega]
      simp only [List.nil_append]
      rw [show fs2 ++ rest.take (i - fs2.length) ++ g ++ rest.drop (i - fs2.length + 1) =
        fs2 ++ (rest.take (i - fs2.length) ++ g ++ rest.drop (i - fs2.length + 1)) from by simp]
      rw [show n1 + n2 + k = n1 + (n2 + k) from by omega]
      exact SplitsAll.cons w ws2 fs2 _ n1 (n2 + k) h1 h5

theorem SplitsAll_refl (ws : List Word) : SplitsAll ws ws 0 := by
  induction ws with
  | nil => exact SplitsAll.nil
  | cons w rest ih => simpa using SplitsAll.cons w rest [w] rest 0 0 (Frag.base w) ih

/-- A successful `hyphenateWordAtIndex` performs exactly one more realized
split on the refined buffer. -/
theorem SplitsAll_hyph (bo : BreakFn) (m : Measurer) (i : Nat) (avail : Int)
    (words : List Word) (styles : List Style) (widths : List Nat) (fb : Bool)
    (ws0 : List Word) (n : Nat)
    (hok : (hyphenateWordAtIndex bo m i avail words styles widths fb).ok = true)
    (hs : SplitsAll ws0 words n) :
    SplitsAll ws0 (hyphenateWordAtIndex bo m i avail words styles widths fb).words (n + 1) := by
  obtain ⟨hi, -, off, nh, hoff0, hofflt, -, hw, -, -⟩ :=
    hyphenateWordAtIndex_ok_spec bo m i avail words styles widths fb hok
  rw [hw, set_insertIdx_eq words i hi]
  have hfr : Frag (words.getD i [])
      [(words.getD i []).take off ++ (if nh then [hyphenChar] else []),
        (words.getD i []).drop off] 1 := by
    simpa using Frag.split (words.getD i []) off nh
      [(words.getD i []).take off ++ (if nh then [hyphenChar] else [])]
      [(words.getD i []).drop off] 0 0 hoff0 hofflt (Frag.base _) (Frag.base _)
  have h5 := SplitsAll_replace ws0 words n hs i
    [(words.getD i []).take off ++ (if nh then [hyphenChar] else []),
      (words.getD i []).drop off] 1 hi hfr
  simpa using h5

theorem greedyLine_refines (bo : BreakFn) (m : Measurer) (pw sw : Int) (ls : Nat)
    (ws0 : List Word) :
    ∀ (fuel ci : Nat) (lw : Int) (words : List Word) (styles : List Style)
      (widths : List Nat),
    (∃ n, SplitsAll ws0 words n) →
    ∃ n, SplitsAll ws0 (greedyLine bo m pw sw ls fuel ci lw words styles widths).2.1 n := by
  intro fuel
  induction fuel with
  | zero =>
    intro ci lw words styles widths h
    exact h
  | succ fuel ih =>
    intro ci lw words styles widths h
    simp only [greedyLine]
    repeat' split
    all_goals try exact h
    all_goals try exact ih _ _ _ _ _ h
    all_goals
      rename_i hok
      obtain ⟨n, hs⟩ := h
      exact ⟨n + 1, SplitsAll_hyph bo m ci _ words styles widths _ ws0 n hok hs⟩

theorem greedyBreaks_refines (bo : BreakFn) (m : Measurer) (pw sw : Int) (ws0 : List Word) :
    ∀ (fuel ci : Nat) (acc : List Nat) (words : List Word) (styles : List Style)
      (widths : List Nat),
    (∃ n, SplitsAll ws0 words n) →
    ∃ n, SplitsAll ws0 (greedyBreaks bo m pw sw fuel ci acc words styles widths).2.1 n := by
  intro fuel
  induction fuel with
  | zero =>
    intro ci acc words styles widths h
    exact h
  | succ fuel ih =>
    intro ci acc words styles widths h
    simp only [greedyBreaks]
    split
    · exact ih _ _ _ _ _
        (greedyLine_refines bo m pw sw ci ws0 (widths.length + 1) ci 0 words styles widths h)
    · exact h

theorem prePassAt_refines (bo : BreakFn) (m : Measurer) (pw : Int) (i : Nat)
    (ws0 : List Word) :
    ∀ (fuel : Nat) (words : List Word) (styles : List Style) (widths : List Nat),
    (∃ n, SplitsAll ws0 words n) →
    ∃ n, SplitsAll ws0 (prePassAt bo m pw i fuel words styles widths).1 n := by
  intro fuel
  induction fuel with
  | zero =>
    intro words styles widths h
    exact h
  | succ fuel ih =>
    intro words styles widths h
    simp only [prePassAt]
    repeat' split
    all_goals try exact h
    all_goals
      rename_i hok
      obtain ⟨n, hs⟩ := h
      exact ih _ _ _ ⟨n + 1, SplitsAll_hyph bo m i pw words styles widths true ws0 n hok hs⟩

theorem prePass_refines (bo : BreakFn) (m : Measurer) (pw : Int) (ws0 : List Word) :
    ∀ (fuel i : Nat) (words : List Word) (styles : List Style) (widths : List Nat),
    (∃ n, SplitsAll ws0 words n) →
    ∃ n, SplitsAll ws0 (prePass bo m pw fuel i words styles widths).1 n := by
  intro fuel
  induction fuel with
  | zero =>
    intro i words styles widths h
    exact h
  | succ fuel ih =>
    intro i words styles widths h
    simp only [prePass]
    split
    · exact ih _ _ _ _ (prePassAt_refines bo m pw i ws0 _ words styles widths h)
    · exact h

/-- The greedy breaker's final buffer is an in-order split-refinement of
its input buffer. -/
theorem computeHyphenatedLineBreaks_refines (bo : BreakFn) (m : Measurer) (pw sw : Int)
    (words : List Word) (styles : List Style) (widths : List Nat) :
    ∃ n, SplitsAll words (computeHyphenatedLineBreaks bo m pw sw words styles widths).2.1 n :=
  greedyBreaks_refines bo m pw sw words (totalByteFuel words) 0 [] words styles widths
    ⟨0, SplitsAll_refl words⟩

/-- The DP breaker's final buffer is an in-order split-refinement of its
input buffer. -/
theorem computeLineBreaks_refines (bo : BreakFn) (m : Measurer) (pw sw : Int)
    (words : List Word) (styles : List Style) (widths : List Nat) :
    ∃ n, SplitsAll words (computeLineBreaks bo m pw sw words styles widths).2.1 n := by
  unfold computeLineBreaks
  split
  · exact ⟨0, SplitsAll_refl words⟩
  · exact prePass_refines bo m pw words (totalByteFuel words) 0 words styles widths
      ⟨0, SplitsAll_refl words⟩

/-- The previous break of line j as computed by `ParsedText::extractLine`
(line 339): 0 for the first line, else the recorded end of line j - 1. -/
def lastBreakOf (breaks : List Nat) (j : Nat) : Nat :=
  if j = 0 then 0 else breaks.getD (j - 1) 0

theorem getD_last_of_ne_nil {α : Type} :
    ∀ (l : List α), l ≠ [] → ∀ d, l.getD (l.length - 1) d = l.getLastD d := by
  intro l
  induction l with
  | nil => intro h; exact absurd rfl h
  | cons a rest ih =>
    intro h d
    cases rest with
    | nil => rfl
    | cons b rest2 =>
      have hgd : (a :: b :: rest2 : List α).getD ((a :: b :: rest2 : List α).length - 1) d =
          (b :: rest2 : List α).getD ((b :: rest2 : List α).length - 1) d := by
        simp [List.getD]
      rw [hgd, ih (by simp) d]
      simp [List.getLastD_cons]

/-- Consecutive entries of a break list are exactly its chunk ranges. -/
theorem chunk_getD (breaks : List Nat) :
    ∀ (a j : Nat), j < breaks.length →
    ((if j = 0 then a else breaks.getD (j - 1) 0), breaks.getD j 0) ∈ Chunks a breaks := by
  induction breaks with
  | nil =>
    intro a j hj
    exact absurd hj (by simp)
  | cons b rest ih =>
    intro a j hj
    rw [show Chunks a (b :: rest) = (a, b) :: Chunks b rest from rfl]
    cases j with
    | zero =>
      simp only [if_pos rfl, List.getD_cons_zero]
      exact List.mem_cons_self _ _
    | succ j2 =>
      have hj2 : j2 < rest.length := by simpa using hj
      have hmem := ih b j2 hj2
      refine List.mem_cons_of_mem _ ?_
      cases j2 with
      | zero => simpa using hmem
      | succ k => simpa [List.getD] using hmem

/-- The extraction loop, run over the whole break list of a full cover
(monotone entries whose last equals the buffer length), emits exactly the
buffer's words in order — soft hyphens stripped — and drains the buffer. -/
theorem extractLines_all (pw sw : Int) (align : Align) (widths : List Nat)
    (breaks : List Nat) (fin : List Word) (hne : breaks = [] → fin = [])
    (hmono : ∀ j, j < breaks.length → lastBreakOf breaks j ≤ breaks.getD j 0)
    (hlast : breaks ≠ [] → breaks.getD (breaks.length - 1) 0 = fin.length) :
    ∀ (count i : Nat) (words : List Word) (styles : List Style),
    i + count = breaks.length →
    words = fin.drop (lastBreakOf breaks i) →
    ((extractLines pw sw align widths breaks count i words styles).1.map
        (fun b => b.words)).flatten =
      words.map (fun w => if containsSoftHyphen w then stripSoftHyphens w else w) ∧
    (extractLines pw sw align widths breaks count i words styles).2.1 = [] := by
  intro count
  induction count with
  | zero =>
    intro i words styles hic hwords
    have hwnil : words = [] := by
      by_cases hbe : breaks = []
      · rw [hwords, hne hbe]
        exact List.drop_nil
      · rw [hwords, show lastBreakOf breaks i = breaks.getD (breaks.length - 1) 0 from by
          unfold lastBreakOf
          rw [if_neg (by intro h0; rw [h0] at hic; exact hbe (List.eq_nil_of_length_eq_zero
            hic.symm)), show i - 1 = breaks.length - 1 from by omega],
          hlast hbe, List.drop_length]
    subst hwnil
    exact ⟨rfl, rfl⟩
  | succ count ih =>
    intro i words styles hic hwords
    have hi : i < breaks.length := by omega
    have hp : lastBreakOf breaks i ≤ breaks.getD i 0 := hmono i hi
    have hr1 : (extractLine pw sw align widths breaks i words styles).1.words =
        (words.take (breaks.getD i 0 - lastBreakOf breaks i)).map
          (fun w => if containsSoftHyphen w then stripSoftHyphens w else w) := rfl
    have hr2 : (extractLine pw sw align widths breaks i words styles).2.1 =
        words.drop (breaks.getD i 0 - lastBreakOf breaks i) := rfl
    have harith : lastBreakOf breaks i + (breaks.getD i 0 - lastBreakOf breaks i) =
        lastBreakOf breaks (i + 1) := by
      rw [show lastBreakOf breaks (i + 1) = breaks.getD i 0 from by
        unfold lastBreakOf
        rw [if_neg (Nat.succ_ne_zero i)]
        simp]
      omega
    have hnext : (extractLine pw sw align widths breaks i words styles).2.1 =
        fin.drop (lastBreakOf breaks (i + 1)) := by
      rw [hr2, hwords, List.drop_drop, harith]
    obtain ⟨ihj, ihr⟩ := ih (i + 1)
      (extractLine pw sw align widths breaks i words styles).2.1
      (extractLine pw sw align widths breaks i words styles).2.2
      (by omega) hnext
    have hunf1 : (extractLines pw sw align widths breaks (count + 1) i words styles).1 =
        (extractLine pw sw align widths breaks i words styles).1 ::
          (extractLines pw sw align widths breaks count (i + 1)
            (extractLine pw sw align widths breaks i words styles).2.1
            (extractLine pw sw align widths breaks i words styles).2.2).1 := rfl
    have hunf2 : (extractLines pw sw align widths breaks (count + 1) i words styles).2.1 =
        (extractLines pw sw align widths breaks count (i + 1)
          (extractLine pw sw align widths breaks i words styles).2.1
          (extractLine pw sw align widths breaks i words styles).2.2).2.1 := rfl
    constructor
    · rw [hunf1]
      simp only [List.map_cons, List.flatten_cons]
      rw [hr1, ihj, hr2, ← List.map_append, List.take_append_drop]
    · rw [hunf2]
      exact ihr

/-- Full-cover extraction starting from line 0 with the whole buffer. -/
theorem extractLines_full (pw sw : Int) (align : Align) (widths : List Nat)
    (breaks : List Nat) (fin : List Word) (fstyles : List Style)
    (hne : breaks = [] → fin = [])
    (hmono : ∀ j, j < breaks.length → lastBreakOf breaks j ≤ breaks.getD j 0)
    (hlast : breaks ≠ [] → breaks.getD (breaks.length - 1) 0 = fin.length) :
    ((extractLines pw sw align widths breaks breaks.length 0 fin fstyles).1.map
        (fun b => b.words)).flatten =
      fin.map (fun w => if containsSoftHyphen w then stripSoftHyphens w else w) ∧
    (extractLines pw sw align widths breaks breaks.length 0 fin fstyles).2.1 = [] :=
  extractLines_all pw sw align widths breaks fin hne hmono hlast breaks.length 0 fin fstyles
    (by omega) (by rw [show lastBreakOf breaks 0 = 0 from rfl, List.drop_zero])

/-- With enough fuel — the table length suffices — the reconstruction walk
of the DP breaker ends exactly at the word count. -/
theorem reconstructBreaks_last (pw sw : Int) (ws : List Nat) :
    ∀ (fuel a : Nat) (d : Nat), ws.length - a ≤ fuel → a < ws.length →
    (reconstructBreaks fuel a (dpTable pw sw (ws.drop a))).getLastD d = ws.length := by
  intro fuel
  induction fuel with
  | zero =>
    intro a d hf ha
    omega
  | succ fuel ih =>
    intro a d hf ha
    rw [show ws.drop a = ws.getD a 0 :: ws.drop (a + 1) from getD_drop_cons ws a 0 ha,
      dpTable_cons]
    rw [show reconstructBreaks (fuel + 1) a
          (dpEntry pw sw (ws.getD a 0) (ws.drop (a + 1)) ::
            dpTable pw sw (ws.drop (a + 1))) =
        (a + ((dpEntry pw sw (ws.getD a 0) (ws.drop (a + 1))).2 + 1)) ::
          reconstructBreaks fuel
            (a + ((dpEntry pw sw (ws.getD a 0) (ws.drop (a + 1))).2 + 1))
            ((dpEntry pw sw (ws.getD a 0) (ws.drop (a + 1)) ::
              dpTable pw sw (ws.drop (a + 1))).drop
              ((dpEntry pw sw (ws.getD a 0) (ws.drop (a + 1))).2 + 1))
        from by
          simp only [reconstructBreaks,
            Nat.max_eq_left (Nat.le_add_left 1
              (dpEntry pw sw (ws.getD a 0) (ws.drop (a + 1))).2)]]
    rw [List.drop_succ_cons, dpTable_drop, List.drop_drop,
      show a + 1 + (dpEntry pw sw (ws.getD a 0) (ws.drop (a + 1))).2 =
        a + ((dpEntry pw sw (ws.getD a 0) (ws.drop (a + 1))).2 + 1) from by omega]
    have hb : a + ((dpEntry pw sw (ws.getD a 0) (ws.drop (a + 1))).2 + 1) ≤ ws.length := by
      rcases dpEntry_cases pw sw (ws.getD a 0) (ws.drop (a + 1)) with he | ⟨hlt, -⟩
      · omega
      · have hlen2 : (ws.getD a 0 :: ws.drop (a + 1)).length = ws.length - a := by
          rw [← getD_drop_cons ws a 0 ha]
          simp
        rw [hlen2] at hlt
        omega
    rw [List.getLastD_cons]
    by_cases hend : a + ((dpEntry pw sw (ws.getD a 0) (ws.drop (a + 1))).2 + 1) < ws.length
    · exact ih _ _ (by omega) hend
    · have heq : a + ((dpEntry pw sw (ws.getD a 0) (ws.drop (a + 1))).2 + 1) = ws.length := by
        omega
      rw [show ws.drop (a + ((dpEntry pw sw (ws.getD a 0) (ws.drop (a + 1))).2 + 1)) = []
          from List.drop_eq_nil_of_le (by omega)]
      rw [show dpTable pw sw ([] : List Nat) = [] from rfl]
      cases fuel with
      | zero => exact heq
      | succ f => exact heq

theorem calculateWordWidths_length (m : Measurer) (words : List Word) (styles : List Style)
    (h : words.length = styles.length) :
    (calculateWordWidths m words styles).length = words.length := by
  unfold calculateWordWidths
  rw [List.length_zipWith]
  omega

/-- The paragraph indent only edits the first word in place: word count,
styles, and the configuration fields are untouched. -/
theorem applyParagraphIndent_shape (pt : ParsedText) :
    (applyParagraphIndent pt).words.length = pt.words.length ∧
    (applyParagraphIndent pt).wordStyles = pt.wordStyles ∧
    (applyParagraphIndent pt).style = pt.style ∧
    (applyParagraphIndent pt).hyphenationEnabled = pt.hyphenationEnabled ∧
    (applyParagraphIndent pt).words.isEmpty = pt.words.isEmpty := by
  unfold applyParagraphIndent
  split
  · exact ⟨rfl, rfl, rfl, rfl, rfl⟩
  · next hcond =>
    split
    · cases hw : pt.words with
      | nil =>
        rw [hw] at hcond
        simp at hcond
      | cons w rest => simp [hw]
    · exact ⟨rfl, rfl, rfl, rfl, rfl⟩

/-- **C3**: word-count conservation.  Laying a paragraph out to completion
(includeLastLine = true) emits, across all TextBlocks, exactly the final
buffer's words in their original relative order: that buffer is an
in-place split-refinement of the indented input buffer realizing n splits,
so the emitted word count is the fed word count plus exactly n; the live
buffer is fully drained; and `addWord` feeds exactly the non-empty words
in order. -/
theorem word_count_conservation (bo : BreakFn) (m : Measurer) (pt : ParsedText)
    (vw sw : Nat) (hlen : pt.words.length = pt.wordStyles.length) :
    (∃ fin n,
      SplitsAll (applyParagraphIndent pt).words fin n ∧
      fin.length = pt.words.length + n ∧
      ((layoutAndExtractLines bo m pt vw sw true).1.map (fun b => b.words)).flatten =
        fin.map (fun w => if containsSoftHyphen w then stripSoftHyphens w else w) ∧
      (layoutAndExtractLines bo m pt vw sw true).2.words = []) ∧
    (∀ (q : ParsedText) (ws : List (Word × Style)),
      (ws.foldl (fun acc p => addWord acc p.1 p.2) q).words =
        q.words ++ (ws.map Prod.fst).filter (fun w => !w.isEmpty)) := by
  constructor
  · by_cases hemp : pt.words.isEmpty = true
    · rw [show layoutAndExtractLines bo m pt vw sw true = ([], pt) from by
        unfold layoutAndExtractLines
        rw [if_pos hemp]]
      have hwnil : pt.words = [] := by
        cases hw : pt.words with
        | nil => rfl
        | cons w rest =>
          rw [hw] at hemp
          simp at hemp
      have hind : (applyParagraphIndent pt).words = pt.words := by
        unfold applyParagraphIndent
        rw [if_pos (by rw [hemp]; simp)]
      refine ⟨[], 0, ?_, by rw [hwnil]; rfl, rfl, hwnil⟩
      rw [hind, hwnil]
      exact SplitsAll.nil
    · have hind := applyParagraphIndent_shape pt
      have hlen1 : (applyParagraphIndent pt).words.length =
          (applyParagraphIndent pt).wordStyles.length := by
        rw [hind.1, hind.2.1]
        exact hlen
      have hpar1 : ParallelState (applyParagraphIndent pt).words
          (applyParagraphIndent pt).wordStyles
          (calculateWordWidths m (applyParagraphIndent pt).words
            (applyParagraphIndent pt).wordStyles) :=
        ⟨hlen1, (calculateWordWidths_length m _ _ hlen1).symm⟩
      have hwne : ¬ (applyParagraphIndent pt).words.isEmpty = true := by
        rw [hind.2.2.2.2]
        exact hemp
      have hwpos : 0 < (applyParagraphIndent pt).words.length := by
        cases hw : (applyParagraphIndent pt).words with
        | nil =>
          rw [hw] at hwne
          exact absurd rfl hwne
        | cons w rest => simp
      have hA : (layoutAndExtractLines bo m pt vw sw true).1 =
          (extractLines (vw : Int) (sw : Int) (applyParagraphIndent pt).style
            (if (applyParagraphIndent pt).hyphenationEnabled = true then
              computeHyphenatedLineBreaks bo m (vw : Int) (sw : Int)
                (applyParagraphIndent pt).words (applyParagraphIndent pt).wordStyles
                (calculateWordWidths m (applyParagraphIndent pt).words
                  (applyParagraphIndent pt).wordStyles)
            else
              computeLineBreaks bo m (vw : Int) (sw : Int)
                (applyParagraphIndent pt).words (applyParagraphIndent pt).wordStyles
                (calculateWordWidths m (applyParagraphIndent pt).words
                  (applyParagraphIndent pt).wordStyles)).2.2.2
            (if (applyParagraphIndent pt).hyphenationEnabled = true then
              computeHyphenatedLineBreaks bo m (vw : Int) (sw : Int)
                (applyParagraphIndent pt).words (applyParagraphIndent pt).wordStyles
                (calculateWordWidths m (applyParagraphIndent pt).words
                  (applyParagraphIndent pt).wordStyles)
            else
              computeLineBreaks bo m (vw : Int) (sw : Int)
                (applyParagraphIndent pt).words (applyParagraphIndent pt).wordStyles
                (calculateWordWidths m (applyParagraphIndent pt).words
                  (applyParagraphIndent pt).wordStyles)).1
            (if (applyParagraphIndent pt).hyphenationEnabled = true then
              computeHyphenatedLineBreaks bo m (vw : Int) (sw : Int)
                (applyParagraphIndent pt).words (applyParagraphIndent pt).wordStyles
                (calculateWordWidths m (applyParagraphIndent pt).words
                  (applyParagraphIndent pt).wordStyles)
            else
              computeLineBreaks bo m (vw : Int) (sw : Int)
                (applyParagraphIndent pt).words (applyParagraphIndent pt).wordStyles
                (calculateWordWidths m (applyParagraphIndent pt).words
                  (applyParagraphIndent pt).wordStyles)).1.length
            0
            (if (applyParagraphIndent pt).hyphenationEnabled = true then
              computeHyphenatedLineBreaks bo m (vw : Int) (sw : Int)
                (applyParagraphIndent pt).words (applyParagraphIndent pt).wordStyles
                (calculateWordWidths m (applyParagraphIndent pt).words
                  (applyParagraphIndent pt).wordStyles)
            else
              computeLineBreaks bo m (vw : Int) (sw : Int)
                (applyParagraphIndent pt).words (applyParagraphIndent pt).wordStyles
                (calculateWordWidths m (applyParagraphIndent pt).words
                  (applyParagraphIndent pt).wordStyles)).2.1
            (if (applyParagraphIndent pt).hyphenationEnabled = true then
              computeHyphenatedLineBreaks bo m (vw : Int) (sw : Int)
                (applyParagraphIndent pt).words (applyParagraphIndent pt).wordStyles
                (calculateWordWidths m (applyParagraphIndent pt).words
                  (applyParagraphIndent pt).wordStyles)
            else
              computeLineBreaks bo m (vw : Int) (sw : Int)
                (applyParagraphIndent pt).words (applyParagraphIndent pt).wordStyles
                (calculateWordWidths m (applyParagraphIndent pt).words
                  (applyParagraphIndent pt).wordStyles)).2.2.1).1 := by
        unfold layoutAndExtractLines
        rw [if_neg hemp]
        rfl
      have hB : (layoutAndExtractLines bo m pt vw sw true).2.words =
          (extractLines (vw : Int) (sw : Int) (applyParagraphIndent pt).style
            (if (applyParagraphIndent pt).hyphenationEnabled = true then
              computeHyphenatedLineBreaks bo m (vw : Int) (sw : Int)
                (applyParagraphIndent pt).words (applyParagraphIndent pt).wordStyles
                (calculateWordWidths m (applyParagraphIndent pt).words
                  (applyParagraphIndent pt).wordStyles)
            else
              computeLineBreaks bo m (vw : Int) (sw : Int)
                (applyParagraphIndent pt).words (applyParagraphIndent pt).wordStyles
                (calculateWordWidths m (applyParagraphIndent pt).words
                  (applyParagraphIndent pt).wordStyles)).2.2.2
            (if (applyParagraphIndent pt).hyphenationEnabled = true then
              computeHyphenatedLineBreaks bo m (vw : Int) (sw : Int)
                (applyParagraphIndent pt).words (applyParagraphIndent pt).wordStyles
                (calculateWordWidths m (applyParagraphIndent pt).words
                  (applyParagraphIndent pt).wordStyles)
            else
              computeLineBreaks bo m (vw : Int) (sw : Int)
                (applyParagraphIndent pt).words (applyParagraphIndent pt).wordStyles
                (calculateWordWidths m (applyParagraphIndent pt).words
                  (applyParagraphIndent pt).wordStyles)).1
            (if (applyParagraphIndent pt).hyphenationEnabled = true then
              computeHyphenatedLineBreaks bo m (vw : Int) (sw : Int)
                (applyParagraphIndent pt).words (applyParagraphIndent pt).wordStyles
                (calculateWordWidths m (applyParagraphIndent pt).words
                  (applyParagraphIndent pt).wordStyles)
            else
              computeLineBreaks bo m (vw : Int) (sw : Int)
                (applyParagraphIndent pt).words (applyParagraphIndent pt).wordStyles
                (calculateWordWidths m (applyParagraphIndent pt).words
                  (applyParagraphIndent pt).wordStyles)).1.length
            0
            (if (applyParagraphIndent pt).hyphenationEnabled = true then
              computeHyphenatedLineBreaks bo m (vw : Int) (sw : Int)
                (applyParagraphIndent pt).words (applyParagraphIndent pt).wordStyles
                (calculateWordWidths m (applyParagraphIndent pt).words
                  (applyParagraphIndent pt).wordStyles)
            else
              computeLineBreaks bo m (vw : Int) (sw : Int)
                (applyParagraphIndent pt).words (applyParagraphIndent pt).wordStyles
                (calculateWordWidths m (applyParagraphIndent pt).words
                  (applyParagraphIndent pt).wordStyles)).2.1
            (if (applyParagraphIndent pt).hyphenationEnabled = true then
              computeHyphenatedLineBreaks bo m (vw : Int) (sw : Int)
                (applyParagraphIndent pt).words (applyParagraphIndent pt).wordStyles
                (calculateWordWidths m (applyParagraphIndent pt).words
                  (applyParagraphIndent pt).wordStyles)
            else
              computeLineBreaks bo m (vw : Int) (sw : Int)
                (applyParagraphIndent pt).words (applyParagraphIndent pt).wordStyles
                (calculateWordWidths m (applyParagraphIndent pt).words
                  (applyParagraphIndent pt).wordStyles)).2.2.1).2.1 := by
        unfold layoutAndExtractLines
        rw [if_neg hemp]
        rfl
      by_cases hhyp : (applyParagraphIndent pt).hyphenationEnabled = true
      · rw [if_pos hhyp] at hA hB
        obtain ⟨G1, G2, G3, G4, G5, G6, G7, G8, G9⟩ :=
          greedyBreaks_spec bo m (vw : Int) (sw : Int) (by exact_mod_cast Nat.zero_le vw)
            (totalByteFuel (applyParagraphIndent pt).words) 0 []
            (applyParagraphIndent pt).words (applyParagraphIndent pt).wordStyles
            (calculateWordWidths m (applyParagraphIndent pt).words
              (applyParagraphIndent pt).wordStyles)
            hpar1 (Nat.zero_le _) rfl (by intro ab hab; simp [Chunks] at hab)
            (computeHyphenatedLineBreaks bo m (vw : Int) (sw : Int)
              (applyParagraphIndent pt).words (applyParagraphIndent pt).wordStyles
              (calculateWordWidths m (applyParagraphIndent pt).words
                (applyParagraphIndent pt).wordStyles)) rfl
        have hfuel : stateMeasure (applyParagraphIndent pt).words 0 <
            totalByteFuel (applyParagraphIndent pt).words := by
          unfold stateMeasure totalByteFuel
          simp
        have hcover := G9 hfuel
        have hlastlen : (computeHyphenatedLineBreaks bo m (vw : Int) (sw : Int)
            (applyParagraphIndent pt).words (applyParagraphIndent pt).wordStyles
            (calculateWordWidths m (applyParagraphIndent pt).words
              (applyParagraphIndent pt).wordStyles)).2.1.length =
            (computeHyphenatedLineBreaks bo m (vw : Int) (sw : Int)
            (applyParagraphIndent pt).words (applyParagraphIndent pt).wordStyles
            (calculateWordWidths m (applyParagraphIndent pt).words
              (applyParagraphIndent pt).wordStyles)).2.2.2.length := G1.2
        obtain ⟨hflat, hdrain⟩ :=
          extractLines_full (vw : Int) (sw : Int) (applyParagraphIndent pt).style
            (computeHyphenatedLineBreaks bo m (vw : Int) (sw : Int)
              (applyParagraphIndent pt).words (applyParagraphIndent pt).wordStyles
              (calculateWordWidths m (applyParagraphIndent pt).words
                (applyParagraphIndent pt).wordStyles)).2.2.2
            (computeHyphenatedLineBreaks bo m (vw : Int) (sw : Int)
              (applyParagraphIndent pt).words (applyParagraphIndent pt).wordStyles
              (calculateWordWidths m (applyParagraphIndent pt).words
                (applyParagraphIndent pt).wordStyles)).1
            (computeHyphenatedLineBreaks bo m (vw : Int) (sw : Int)
              (applyParagraphIndent pt).words (applyParagraphIndent pt).wordStyles
              (calculateWordWidths m (applyParagraphIndent pt).words
                (applyParagraphIndent pt).wordStyles)).2.1
            (computeHyphenatedLineBreaks bo m (vw : Int) (sw : Int)
              (applyParagraphIndent pt).words (applyParagraphIndent pt).wordStyles
              (calculateWordWidths m (applyParagraphIndent pt).words
                (applyParagraphIndent pt).wordStyles)).2.2.1
            (by
              intro hb
              rw [hb] at hcover
              simp only [List.getLastD_nil] at hcover
              exact List.eq_nil_of_length_eq_zero (by omega))
            (by
              intro j hj
              have hmem := chunk_getD _ 0 j hj
              have hb := (G8 _ hmem).1
              unfold lastBreakOf
              exact le_of_lt hb)
            (by
              intro hb
              rw [getD_last_of_ne_nil _ hb 0, hcover]
              omega)
        obtain ⟨n, hs⟩ := computeHyphenatedLineBreaks_refines bo m (vw : Int) (sw : Int)
          (applyParagraphIndent pt).words (applyParagraphIndent pt).wordStyles
          (calculateWordWidths m (applyParagraphIndent pt).words
            (applyParagraphIndent pt).wordStyles)
        refine ⟨_, n, hs, ?_, ?_, ?_⟩
        · rw [SplitsAll_length _ _ n hs, hind.1]
        · rw [hA]
          exact hflat
        · rw [hB]
          exact hdrain
      · rw [if_neg hhyp] at hA hB
        have hCeq : computeLineBreaks bo m (vw : Int) (sw : Int)
            (applyParagraphIndent pt).words (applyParagraphIndent pt).wordStyles
            (calculateWordWidths m (applyParagraphIndent pt).words
              (applyParagraphIndent pt).wordStyles) =
            (reconstructBreaks
              (dpTable (vw : Int) (sw : Int)
                (prePass bo m (vw : Int) (totalByteFuel (applyParagraphIndent pt).words) 0
                  (applyParagraphIndent pt).words (applyParagraphIndent pt).wordStyles
                  (calculateWordWidths m (applyParagraphIndent pt).words
                    (applyParagraphIndent pt).wordStyles)).2.2).length 0
              (dpTable (vw : Int) (sw : Int)
                (prePass bo m (vw : Int) (totalByteFuel (applyParagraphIndent pt).words) 0
                  (applyParagraphIndent pt).words (applyParagraphIndent pt).wordStyles
                  (calculateWordWidths m (applyParagraphIndent pt).words
                    (applyParagraphIndent pt).wordStyles)).2.2),
             (prePass bo m (vw : Int) (totalByteFuel (applyParagraphIndent pt).words) 0
              (applyParagraphIndent pt).words (applyParagraphIndent pt).wordStyles
              (calculateWordWidths m (applyParagraphIndent pt).words
                (applyParagraphIndent pt).wordStyles)).1,
             (prePass bo m (vw : Int) (totalByteFuel (applyParagraphIndent pt).words) 0
              (applyParagraphIndent pt).words (applyParagraphIndent pt).wordStyles
              (calculateWordWidths m (applyParagraphIndent pt).words
                (applyParagraphIndent pt).wordStyles)).2.1,
             (prePass bo m (vw : Int) (totalByteFuel (applyParagraphIndent pt).words) 0
              (applyParagraphIndent pt).words (applyParagraphIndent pt).wordStyles
              (calculateWordWidths m (applyParagraphIndent pt).words
                (applyParagraphIndent pt).wordStyles)).2.2) := by
          unfold computeLineBreaks
          rw [if_neg hwne]
        obtain ⟨P1, P2, P3⟩ :=
          prePass_spec bo m (vw : Int) (sw : Int) (by exact_mod_cast Nat.zero_le vw)
            (totalByteFuel (applyParagraphIndent pt).words) 0
            (applyParagraphIndent pt).words (applyParagraphIndent pt).wordStyles
            (calculateWordWidths m (applyParagraphIndent pt).words
              (applyParagraphIndent pt).wordStyles)
            hpar1 (by intro k hk; exact absurd hk (by omega))
            (prePass bo m (vw : Int) (totalByteFuel (applyParagraphIndent pt).words) 0
              (applyParagraphIndent pt).words (applyParagraphIndent pt).wordStyles
              (calculateWordWidths m (applyParagraphIndent pt).words
                (applyParagraphIndent pt).wordStyles)) rfl
        have hfuel : stateMeasure (applyParagraphIndent pt).words 0 <
            totalByteFuel (applyParagraphIndent pt).words := by
          unfold stateMeasure totalByteFuel
          simp
        have hppos : 0 < (prePass bo m (vw : Int)
            (totalByteFuel (applyParagraphIndent pt).words) 0
            (applyParagraphIndent pt).words (applyParagraphIndent pt).wordStyles
            (calculateWordWidths m (applyParagraphIndent pt).words
              (applyParagraphIndent pt).wordStyles)).2.2.length := by
          have h1 := calculateWordWidths_length m (applyParagraphIndent pt).words
            (applyParagraphIndent pt).wordStyles hlen1
          omega
        have hlastb := reconstructBreaks_last (vw : Int) (sw : Int)
          (prePass bo m (vw : Int) (totalByteFuel (applyParagraphIndent pt).words) 0
            (applyParagraphIndent pt).words (applyParagraphIndent pt).wordStyles
            (calculateWordWidths m (applyParagraphIndent pt).words
              (applyParagraphIndent pt).wordStyles)).2.2
          (dpTable (vw : Int) (sw : Int)
            (prePass bo m (vw : Int) (totalByteFuel (applyParagraphIndent pt).words) 0
              (applyParagraphIndent pt).words (applyParagraphIndent pt).wordStyles
              (calculateWordWidths m (applyParagraphIndent pt).words
                (applyParagraphIndent pt).wordStyles)).2.2).length 0 0
          (by
            rw [dpTable_length]
            omega)
          hppos
        rw [List.drop_zero] at hlastb
        have hchunks := reconstructBreaks_chunks bo m (vw : Int) (sw : Int)
          (by exact_mod_cast Nat.zero_le vw)
          (prePass bo m (vw : Int) (totalByteFuel (applyParagraphIndent pt).words) 0
            (applyParagraphIndent pt).words (applyParagraphIndent pt).wordStyles
            (calculateWordWidths m (applyParagraphIndent pt).words
              (applyParagraphIndent pt).wordStyles)).1
          (prePass bo m (vw : Int) (totalByteFuel (applyParagraphIndent pt).words) 0
            (applyParagraphIndent pt).words (applyParagraphIndent pt).wordStyles
            (calculateWordWidths m (applyParagraphIndent pt).words
              (applyParagraphIndent pt).wordStyles)).2.1
          (prePass bo m (vw : Int) (totalByteFuel (applyParagraphIndent pt).words) 0
            (applyParagraphIndent pt).words (applyParagraphIndent pt).wordStyles
            (calculateWordWidths m (applyParagraphIndent pt).words
              (applyParagraphIndent pt).wordStyles)).2.2
          (P3 hfuel)
          (dpTable (vw : Int) (sw : Int)
            (prePass bo m (vw : Int) (totalByteFuel (applyParagraphIndent pt).words) 0
              (applyParagraphIndent pt).words (applyParagraphIndent pt).wordStyles
              (calculateWordWidths m (applyParagraphIndent pt).words
                (applyParagraphIndent pt).wordStyles)).2.2).length 0
        rw [List.drop_zero] at hchunks
        rw [hCeq] at hA hB
        obtain ⟨hflat, hdrain⟩ :=
          extractLines_full (vw : Int) (sw : Int) (applyParagraphIndent pt).style
            (prePass bo m (vw : Int) (totalByteFuel (applyParagraphIndent pt).words) 0
              (applyParagraphIndent pt).words (applyParagraphIndent pt).wordStyles
              (calculateWordWidths m (applyParagraphIndent pt).words
                (applyParagraphIndent pt).wordStyles)).2.2
            (reconstructBreaks
              (dpTable (vw : Int) (sw : Int)
                (prePass bo m (vw : Int) (totalByteFuel (applyParagraphIndent pt).words) 0
                  (applyParagraphIndent pt).words (applyParagraphIndent pt).wordStyles
                  (calculateWordWidths m (applyParagraphIndent pt).words
                    (applyParagraphIndent pt).wordStyles)).2.2).length 0
              (dpTable (vw : Int) (sw : Int)
                (prePass bo m (vw : Int) (totalByteFuel (applyParagraphIndent pt).words) 0
                  (applyParagraphIndent pt).words (applyParagraphIndent pt).wordStyles
                  (calculateWordWidths m (applyParagraphIndent pt).words
                    (applyParagraphIndent pt).wordStyles)).2.2))
            (prePass bo m (vw : Int) (totalByteFuel (applyParagraphIndent pt).words) 0
              (applyParagraphIndent pt).words (applyParagraphIndent pt).wordStyles
              (calculateWordWidths m (applyParagraphIndent pt).words
                (applyParagraphIndent pt).wordStyles)).1
            (prePass bo m (vw : Int) (totalByteFuel (applyParagraphIndent pt).words) 0
              (applyParagraphIndent pt).words (applyParagraphIndent pt).wordStyles
              (calculateWordWidths m (applyParagraphIndent pt).words
                (applyParagraphIndent pt).wordStyles)).2.1
            (by
              intro hb
              rw [hb] at hlastb
              exact absurd hlastb (by simp [List.getLastD]; omega))
            (by
              intro j hj
              have hmem := chunk_getD _ 0 j hj
              have hb := (hchunks _ hmem).1
              unfold lastBreakOf
              exact le_of_lt hb)
            (by
              intro hb
              rw [getD_last_of_ne_nil _ hb 0, hlastb, P1.2])
        obtain ⟨n, hs⟩ := prePass_refines bo m (vw : Int) (applyParagraphIndent pt).words
          (totalByteFuel (applyParagraphIndent pt).words) 0
          (applyParagraphIndent pt).words (applyParagraphIndent pt).wordStyles
          (calculateWordWidths m (applyParagraphIndent pt).words
            (applyParagraphIndent pt).wordStyles)
          ⟨0, SplitsAll_refl _⟩
        refine ⟨_, n, hs, ?_, ?_, ?_⟩
        · rw [SplitsAll_length _ _ n hs, hind.1]
        · rw [hA]
          exact hflat
        · rw [hB]
          exact hdrain
  · intro q ws
    induction ws generalizing q with
    | nil => simp
    | cons p rest ih =>
      rw [List.foldl_cons, ih]
      by_cases hp : p.1.isEmpty = true
      · rw [show addWord q p.1 p.2 = q from by unfold addWord; rw [if_pos hp]]
        simp [List.filter_cons, hp]
      · have hp2 : p.1.isEmpty = false := by
          cases hx : p.1.isEmpty with
          | false => rfl
          | true => exact absurd hx hp
        rw [show addWord q p.1 p.2 =
            { q with words := q.words ++ [p.1], wordStyles := q.wordStyles ++ [p.2] }
          from by unfold addWord; rw [if_neg hp]]
        simp [List.filter_cons, hp2]

/-- Witness for C3: a two-word left-aligned paragraph at viewport 10,
space width 1, laid out to completion. -/
theorem word_count_conservation_witness :
    ([[97, 98], [99]] : List Word).length =
      ([.regular, .regular] : List Style).length ∧
    ((∃ fin n,
      SplitsAll (applyParagraphIndent
        ⟨[[97, 98], [99]], [.regular, .regular], .leftAlign, false, false⟩).words fin n ∧
      fin.length = ([[97, 98], [99]] : List Word).length + n ∧
      ((layoutAndExtractLines noBreaks byteLengthMeasurer
          ⟨[[97, 98], [99]], [.regular, .regular], .leftAlign, false, false⟩ 10 1 true).1.map
        (fun b => b.words)).flatten =
        fin.map (fun w => if containsSoftHyphen w then stripSoftHyphens w else w) ∧
      (layoutAndExtractLines noBreaks byteLengthMeasurer
        ⟨[[97, 98], [99]], [.regular, .regular], .leftAlign, false, false⟩ 10 1 true).2.words =
        []) ∧
    (∀ (q : ParsedText) (ws : List (Word × Style)),
      (ws.foldl (fun acc p => addWord acc p.1 p.2) q).words =
        q.words ++ (ws.map Prod.fst).filter (fun w => !w.isEmpty))) :=
  ⟨rfl, word_count_conservation noBreaks byteLengthMeasurer
    ⟨[[97, 98], [99]], [.regular, .regular], .leftAlign, false, false⟩ 10 1 rfl⟩

/-- Appending a literal hyphen never creates or destroys a soft-hyphen
pair (the hyphen byte 45 is neither 0xC2 nor 0xAD). -/
theorem containsSoftHyphen_append_hyphen :
    ∀ (p : Word), containsSoftHyphen (p ++ [hyphenChar]) = containsSoftHyphen p := by
  have H : ∀ (n : Nat) (p : Word), p.length ≤ n →
      containsSoftHyphen (p ++ [hyphenChar]) = containsSoftHyphen p := by
    intro n
    induction n with
    | zero =>
      intro p hp
      have hp0 : p = [] := List.eq_nil_of_length_eq_zero (by omega)
      subst hp0
      rfl
    | succ n ih =>
      intro p hp
      cases p with
      | nil => rfl
      | cons a tail =>
        cases tail with
        | nil => simp [containsSoftHyphen, hyphenChar]
        | cons b rest =>
          show containsSoftHyphen (a :: b :: (rest ++ [hyphenChar])) =
            containsSoftHyphen (a :: b :: rest)
          rw [show containsSoftHyphen (a :: b :: (rest ++ [hyphenChar])) =
              ((a == 194 && b == 173) ||
                containsSoftHyphen (b :: (rest ++ [hyphenChar]))) from rfl,
            show containsSoftHyphen (a :: b :: rest) =
              ((a == 194 && b == 173) || containsSoftHyphen (b :: rest)) from rfl,
            show (b :: (rest ++ [hyphenChar])) = (b :: rest) ++ [hyphenChar] from rfl,
            ih (b :: rest) (by simpa using hp)]
  intro p
  exact H p.length p (le_refl _)

/-- Stripping soft hyphens commutes with appending a literal hyphen. -/
theorem stripSoftHyphens_append_hyphen :
    ∀ (p : Word), stripSoftHyphens (p ++ [hyphenChar]) =
      stripSoftHyphens p ++ [hyphenChar] := by
  have H : ∀ (n : Nat) (p : Word), p.length ≤ n →
      stripSoftHyphens (p ++ [hyphenChar]) = stripSoftHyphens p ++ [hyphenChar] := by
    intro n
    induction n with
    | zero =>
      intro p hp
      have hp0 : p = [] := List.eq_nil_of_length_eq_zero (by omega)
      subst hp0
      rfl
    | succ n ih =>
      intro p hp
      cases p with
      | nil => rfl
      | cons a tail =>
        cases tail with
        | nil =>
          show stripSoftHyphens [a, hyphenChar] = stripSoftHyphens [a] ++ [hyphenChar]
          rw [show stripSoftHyphens [a, hyphenChar] =
              (if a = 194 ∧ hyphenChar = 173 then stripSoftHyphens []
               else a :: stripSoftHyphens [hyphenChar]) from rfl,
            if_neg (by unfold hyphenChar; omega)]
          rfl
        | cons b rest =>
          show stripSoftHyphens (a :: b :: (rest ++ [hyphenChar])) =
            stripSoftHyphens (a :: b :: rest) ++ [hyphenChar]
          rw [show stripSoftHyphens (a :: b :: (rest ++ [hyphenChar])) =
              (if a = 194 ∧ b = 173 then stripSoftHyphens (rest ++ [hyphenChar])
               else a :: stripSoftHyphens (b :: (rest ++ [hyphenChar]))) from rfl,
            show stripSoftHyphens (a :: b :: rest) =
              (if a = 194 ∧ b = 173 then stripSoftHyphens rest
               else a :: stripSoftHyphens (b :: rest)) from rfl]
          by_cases hab : a = 194 ∧ b = 173
          · rw [if_pos hab, if_pos hab, ih rest (by simp at hp; omega)]
          · rw [if_neg hab, if_neg hab,
              show (b :: (rest ++ [hyphenChar])) = (b :: rest) ++ [hyphenChar] from rfl,
              ih (b :: rest) (by simpa using hp)]
            rfl
  intro p
  exact H p.length p (le_refl _)

/-- Re-measuring a committed hyphen-carrying prefix as a plain word gives
the width that was cached for it at split time. -/
theorem measureWordWidth_append_hyphen (m : Measurer) (p : Word) (st : Style) :
    measureWordWidth m (p ++ [hyphenChar]) st false = measureWordWidth m p st true := by
  unfold measureWordWidth
  rw [containsSoftHyphen_append_hyphen p]
  cases hc : containsSoftHyphen p with
  | false => simp
  | true =>
    simp only [Bool.not_true, Bool.not_false, Bool.false_and, Bool.and_false,
      Bool.false_eq_true, if_false, if_true]
    rw [stripSoftHyphens_append_hyphen p]

theorem getD_drop_add {α : Type} (l : List α) (n k : Nat) (d : α) :
    (l.drop n).getD k d = l.getD (n + k) d := by
  rw [List.getD, List.getD, List.get?_eq_getElem?, List.get?_eq_getElem?,
    List.getElem?_drop]

theorem getD_insertIdx_lt {α : Type} (l : List α) (n : Nat) (x : α) (k : Nat) (d : α)
    (hk : k < n) (hn : n ≤ l.length) :
    (l.insertIdx n x).getD k d = l.getD k d := by
  rw [insertIdx_eq_take_drop l n hn x,
    getD_append_left _ _ k d (by simp [List.length_take]; omega),
    getD_congr_of_take_eq (l.take n) l n k d (by rw [List.take_take, min_self]) hk]

theorem getD_insertIdx_self {α : Type} (l : List α) (n : Nat) (x : α) (d : α)
    (hn : n ≤ l.length) :
    (l.insertIdx n x).getD n d = x := by
  rw [insertIdx_eq_take_drop l n hn x]
  exact getD_append_cons_of_length _ _ _ n d (by simp [List.length_take]; omega)

theorem getD_insertIdx_ge {α : Type} (l : List α) (n : Nat) (x : α) (k : Nat) (d : α)
    (hk : n ≤ k) (hn : n ≤ l.length) :
    (l.insertIdx n x).getD (k + 1) d = l.getD k d := by
  rw [insertIdx_eq_take_drop l n hn x,
    getD_append_right _ _ (k + 1) d (by simp [List.length_take]; omega),
    show k + 1 - (l.take n).length = (k - n) + 1 from by simp [List.length_take]; omega,
    List.getD_cons_succ, getD_drop_add,
    show n + (k - n) = k from by omega]

/-- The cached width vector stays the literal re-measurement of the stored
words: this is what makes a second `calculateWordWidths` pass over the
surviving buffer reproduce the cached widths. -/
def Coherent (m : Measurer) (words : List Word) (styles : List Style)
    (widths : List Nat) : Prop :=
  ∀ i, i < words.length →
    widths.getD i 0 = measureWordWidth m (words.getD i []) (styles.getD i .regular) false

theorem Coherent_calculate (m : Measurer) (words : List Word) (styles : List Style)
    (h : words.length = styles.length) :
    Coherent m words styles (calculateWordWidths m words styles) := by
  intro i hi
  unfold calculateWordWidths
  rw [List.getD_eq_getElem _ _ (by rw [List.length_zipWith]; omega),
    List.getElem_zipWith, List.getD_eq_getElem words [] hi,
    List.getD_eq_getElem styles _ (by omega)]

/-- A coherent parallel buffer re-measures to its own cached widths. -/
theorem calculate_of_coherent (m : Measurer) (words : List Word) (styles : List Style)
    (widths : List Nat) (hpar : ParallelState words styles widths)
    (hcoh : Coherent m words styles widths) :
    calculateWordWidths m words styles = widths := by
  obtain ⟨h1, h2⟩ := hpar
  induction words generalizing styles widths with
  | nil =>
    have hwn : widths = [] := List.eq_nil_of_length_eq_zero (by simp at h2; omega)
    subst hwn
    rfl
  | cons w ws ih =>
    cases styles with
    | nil => simp at h1
    | cons s ss =>
      cases widths with
      | nil => simp at h2
      | cons x xs =>
        show measureWordWidth m w s false :: calculateWordWidths m ws ss = x :: xs
        have h0 := hcoh 0 (by simp)
        simp only [List.getD_cons_zero] at h0
        rw [← h0]
        congr 1
        exact ih ss xs
          (by
            intro i hi
            have := hcoh (i + 1) (by simpa using hi)
            simpa [List.getD_cons_succ] using this)
          (by simpa using h1) (by simpa using h2)

/-- A successful split keeps the width cache coherent: the two new entries
are the measured widths of the two stored pieces (the hyphen-carrying
prefix re-measures identically), and every other entry is untouched. -/
theorem Coherent_hyph (bo : BreakFn) (m : Measurer) (i : Nat) (avail : Int)
    (words : List Word) (styles : List Style) (widths : List Nat) (fb : Bool)
    (hpar : ParallelState words styles widths)
    (hok : (hyphenateWordAtIndex bo m i avail words styles widths fb).ok = true)
    (hcoh : Coherent m words styles widths) :
    Coherent m (hyphenateWordAtIndex bo m i avail words styles widths fb).words
      (hyphenateWordAtIndex bo m i avail words styles widths fb).wordStyles
      (hyphenateWordAtIndex bo m i avail words styles widths fb).wordWidths := by
  obtain ⟨hi, -, off, nh, hoff0, hofflt, -, hw, hs, hww⟩ :=
    hyphenateWordAtIndex_ok_spec bo m i avail words styles widths fb hok
  obtain ⟨hp1, hp2⟩ := hpar
  obtain ⟨hlw, hpar2⟩ :=
    hyphenateWordAtIndex_ok_lengths bo m i avail words styles widths fb ⟨hp1, hp2⟩ hok
  intro j hj
  rw [hlw] at hj
  rcases lt_trichotomy j i with hji | hji | hji
  · obtain ⟨t1, t2, t3⟩ :=
      hyphenateWordAtIndex_ok_stable bo m i avail words styles widths fb ⟨hp1, hp2⟩ hok
        i (le_refl i)
    rw [getD_congr_of_take_eq _ words i j [] t1 hji,
      getD_congr_of_take_eq _ styles i j .regular t2 hji,
      getD_congr_of_take_eq _ widths i j 0 t3 hji]
    exact hcoh j (by omega)
  · subst hji
    rw [hww, getD_set_insertIdx widths j _ _ 0 (by omega),
      hs, getD_insertIdx_lt styles (j + 1) _ j .regular (by omega) (by omega),
      hw, set_insertIdx_eq words j hi,
      getD_append_cons_of_length (words.take j) _ _ j [] (by simp [List.length_take]; omega)]
    cases nh with
    | false => simp
    | true =>
      simp only [if_true]
      exact (measureWordWidth_append_hyphen m ((words.getD j []).take off)
        (styles.getD j .regular)).symm
  · by_cases hj1 : j = i + 1
    · rw [hww, hj1, hs, hw, set_insertIdx_eq words i hi]
      rw [getD_insertIdx_self (widths.set i _) (i + 1) _ 0 (by simp; omega),
        getD_insertIdx_self styles (i + 1) _ .regular (by omega)]
      rw [show words.take i ++ ((words.getD i []).take off ++
          (if nh then [hyphenChar] else [])) :: (words.getD i []).drop off ::
            words.drop (i + 1) =
          (words.take i ++ [(words.getD i []).take off ++
            (if nh then [hyphenChar] else [])]) ++ (words.getD i []).drop off ::
            words.drop (i + 1) from by simp]
      rw [getD_append_cons_of_length _ _ _ (i + 1) []
        (by simp [List.length_take]; omega)]
    · obtain ⟨j2, hj2⟩ : ∃ j2, j = j2 + 1 := ⟨j - 1, by omega⟩
      subst hj2
      rw [hww, hs, hw, set_insertIdx_eq words i hi,
        getD_insertIdx_ge styles (i + 1) _ j2 .regular (by omega) (by omega)]
      rw [set_insertIdx_eq widths i (by omega)]
      rw [getD_append_right (words.take i) _ (j2 + 1) [] (by simp [List.length_take]; omega),
        getD_append_right (widths.take i) _ (j2 + 1) 0 (by simp [List.length_take]; omega)]
      rw [show j2 + 1 - (words.take i).length = (j2 - 1 - i) + 2 from
          by simp [List.length_take]; omega,
        show j2 + 1 - (widths.take i).length = (j2 - 1 - i) + 2 from
          by simp [List.length_take]; omega]
      rw [List.getD_cons_succ, List.getD_cons_succ, List.getD_cons_succ,
        List.getD_cons_succ, getD_drop_add, getD_drop_add,
        show i + 1 + (j2 - 1 - i) = j2 from by omega]
      exact hcoh j2 (by omega)

theorem greedyLine_coherent (bo : BreakFn) (m : Measurer) (pw sw : Int) (ls : Nat) :
    ∀ (fuel ci : Nat) (lw : Int) (words : List Word) (styles : List Style)
      (widths : List Nat),
    ParallelState words styles widths → Coherent m words styles widths →
    ParallelState (greedyLine bo m pw sw ls fuel ci lw words styles widths).2.1
      (greedyLine bo m pw sw ls fuel ci lw words styles widths).2.2.1
      (greedyLine bo m pw sw ls fuel ci lw words styles widths).2.2.2 ∧
    Coherent m (greedyLine bo m pw sw ls fuel ci lw words styles widths).2.1
      (greedyLine bo m pw sw ls fuel ci lw words styles widths).2.2.1
      (greedyLine bo m pw sw ls fuel ci lw words styles widths).2.2.2 := by
  intro fuel
  induction fuel with
  | zero =>
    intro ci lw words styles widths hp hc
    exact ⟨hp, hc⟩
  | succ fuel ih =>
    intro ci lw words styles widths hp hc
    simp only [greedyLine]
    repeat' split
    all_goals try exact ⟨hp, hc⟩
    all_goals try exact ih _ _ words styles widths hp hc
    all_goals
      rename_i hok
      exact ⟨(hyphenateWordAtIndex_ok_lengths bo m ci _ words styles widths _ hp hok).2,
        Coherent_hyph bo m ci _ words styles widths _ hp hok hc⟩

theorem greedyBreaks_coherent (bo : BreakFn) (m : Measurer) (pw sw : Int) :
    ∀ (fuel ci : Nat) (acc : List Nat) (words : List Word) (styles : List Style)
      (widths : List Nat),
    ParallelState words styles widths → Coherent m words styles widths →
    ParallelState (greedyBreaks bo m pw sw fuel ci acc words styles widths).2.1
      (greedyBreaks bo m pw sw fuel ci acc words styles widths).2.2.1
      (greedyBreaks bo m pw sw fuel ci acc words styles widths).2.2.2 ∧
    Coherent m (greedyBreaks bo m pw sw fuel ci acc words styles widths).2.1
      (greedyBreaks bo m pw sw fuel ci acc words styles widths).2.2.1
      (greedyBreaks bo m pw sw fuel ci acc words styles widths).2.2.2 := by
  intro fuel
  induction fuel with
  | zero =>
    intro ci acc words styles widths hp hc
    exact ⟨hp, hc⟩
  | succ fuel ih =>
    intro ci acc words styles widths hp hc
    simp only [greedyBreaks]
    split
    · have h2 := greedyLine_coherent bo m pw sw ci (widths.length + 1) ci 0
        words styles widths hp hc
      exact ih _ _ _ _ _ h2.1 h2.2
    · exact ⟨hp, hc⟩

theorem prePassAt_coherent (bo : BreakFn) (m : Measurer) (pw : Int) (i : Nat) :
    ∀ (fuel : Nat) (words : List Word) (styles : List Style) (widths : List Nat),
    ParallelState words styles widths → Coherent m words styles widths →
    ParallelState (prePassAt bo m pw i fuel words styles widths).1
      (prePassAt bo m pw i fuel words styles widths).2.1
      (prePassAt bo m pw i fuel words styles widths).2.2 ∧
    Coherent m (prePassAt bo m pw i fuel words styles widths).1
      (prePassAt bo m pw i fuel words styles widths).2.1
      (prePassAt bo m pw i fuel words styles widths).2.2 := by
  intro fuel
  induction fuel with
  | zero =>
    intro words styles widths hp hc
    exact ⟨hp, hc⟩
  | succ fuel ih =>
    intro words styles widths hp hc
    simp only [prePassAt]
    repeat' split
    all_goals try exact ⟨hp, hc⟩
    all_goals
      rename_i hok
      exact ih _ _ _
        (hyphenateWordAtIndex_ok_lengths bo m i pw words styles widths true hp hok).2
        (Coherent_hyph bo m i pw words styles widths true hp hok hc)

theorem prePass_coherent (bo : BreakFn) (m : Measurer) (pw : Int) :
    ∀ (fuel i : Nat) (words : List Word) (styles : List Style) (widths : List Nat),
    ParallelState words styles widths → Coherent m words styles widths →
    ParallelState (prePass bo m pw fuel i words styles widths).1
      (prePass bo m pw fuel i words styles widths).2.1
      (prePass bo m pw fuel i words styles widths).2.2 ∧
    Coherent m (prePass bo m pw fuel i words styles widths).1
      (prePass bo m pw fuel i words styles widths).2.1
      (prePass bo m pw fuel i words styles widths).2.2 := by
  intro fuel
  induction fuel with
  | zero =>
    intro i words styles widths hp hc
    exact ⟨hp, hc⟩
  | succ fuel ih =>
    intro i words styles widths hp hc
    simp only [prePass]
    split
    · have h2 := prePassAt_coherent bo m pw i (widths.getD i 0 + 1) words styles widths hp hc
      exact ih _ _ _ _ h2.1 h2.2
    · exact ⟨hp, hc⟩

theorem segWidth_prefix_le (sw : Int) (hsw : 0 ≤ sw) (ws : List Nat) (b : Nat)
    (hb : b ≤ ws.length) :
    segWidth sw ws 0 b ≤ segWidth sw ws 0 ws.length := by
  unfold segWidth lineWidths
  simp only [List.drop_zero, Nat.sub_zero]
  have h1 : ws.sum = (ws.take b).sum + (ws.drop b).sum := by
    rw [← List.sum_append, List.take_append_drop]
  have h2 : ((ws.take b).sum : Int) ≤ ((ws.take ws.length).sum : Int) := by
    rw [List.take_length]
    exact_mod_cast by omega
  have h3 : ((b - 1 : Nat) : Int) * sw ≤ ((ws.length - 1 : Nat) : Int) * sw := by
    apply mul_le_mul_of_nonneg_right _ hsw
    exact_mod_cast Nat.sub_le_sub_right hb 1
  linarith

/-- Once a whole (sub)paragraph fits the page, the greedy inner loop takes
only fit steps and consumes it entirely, mutating nothing. -/
theorem greedyLine_fit_run (bo : BreakFn) (m : Measurer) (pw sw : Int) (hsw : 0 ≤ sw)
    (words : List Word) (styles : List Style) (ws : List Nat)
    (hfit : segWidth sw ws 0 ws.length ≤ pw) :
    ∀ (fuel ci : Nat), ci ≤ ws.length → ws.length ≤ fuel + ci →
    greedyLine bo m pw sw 0 fuel ci (lwOf sw ws 0 ci) words styles ws =
      (ws.length, words, styles, ws) := by
  intro fuel
  induction fuel with
  | zero =>
    intro ci h1 h2
    have hceq : ci = ws.length := by omega
    subst hceq
    rfl
  | succ fuel ih =>
    intro ci h1 h2
    by_cases hci : ci < ws.length
    · simp only [greedyLine]
      rw [if_pos hci]
      have hlw1 : lwOf sw ws 0 (ci + 1) = segWidth sw ws 0 (ci + 1) := by
        unfold lwOf
        rw [if_neg (by omega)]
      have hlw2 := lwOf_step sw ws 0 ci hci (Nat.zero_le ci)
      have hlw3 := segWidth_prefix_le sw hsw ws (ci + 1) (by omega)
      have hstep : lwOf sw ws 0 ci +
          ((if ci = 0 then 0 else sw) + (ws.getD ci 0 : Int)) ≤ pw := by
        have : lwOf sw ws 0 ci + ((if ci = 0 then 0 else sw) + (ws.getD ci 0 : Int)) =
            lwOf sw ws 0 (ci + 1) := by
          rw [hlw2]
          ring
        rw [this, hlw1]
        linarith
      rw [if_pos hstep,
        show lwOf sw ws 0 ci + ((if ci = 0 then 0 else sw) + (ws.getD ci 0 : Int)) =
          lwOf sw ws 0 (ci + 1) from by rw [hlw2]; ring]
      exact ih (ci + 1) (by omega) (by omega)
    · have hceq : ci = ws.length := by omega
      subst hceq
      simp only [greedyLine]
      rw [if_neg hci]

/-- A single word wider than the page that the hyphenator cannot split is
forced alone onto its line, unchanged. -/
theorem greedyLine_oversized (bo : BreakFn) (m : Measurer) (pw sw : Int)
    (words : List Word) (styles : List Style) (ws : List Nat)
    (hws : ws.length = 1) (hov : pw < (ws.getD 0 0 : Int))
    (hfail : (hyphenateWordAtIndex bo m 0 pw words styles ws true).ok = false) :
    ∀ fuel, greedyLine bo m pw sw 0 (fuel + 1) 0 0 words styles ws =
      (1, words, styles, ws) := by
  intro fuel
  simp only [greedyLine]
  rw [if_pos (by omega : (0 : Nat) < ws.length)]
  simp only [ite_true, decide_True]
  rw [if_neg (by omega : ¬((0 : Int) + (0 + (ws.getD 0 0 : Int)) ≤ pw)),
    show pw - 0 - 0 = pw from by ring]
  by_cases hpos : (0 : Int) < pw
  · rw [if_pos hpos, hfail]
    rw [if_neg (by simp)]
  · rw [if_neg hpos]

/-- Running the greedy breaker on a buffer that is exactly one good line —
either it all fits, or it is a single unsplittable oversized word —
produces the single break at the end and leaves everything unchanged. -/
theorem computeHyphenatedLineBreaks_suffix (bo : BreakFn) (m : Measurer) (pw sw : Int)
    (hsw : 0 ≤ sw) (S : List Word) (Sst : List Style) (ws : List Nat)
    (hpos : 0 < ws.length)
    (hgood : segWidth sw ws 0 ws.length ≤ pw ∨
      (ws.length = 1 ∧ pw < (ws.getD 0 0 : Int) ∧
        (hyphenateWordAtIndex bo m 0 pw S Sst ws true).ok = false)) :
    computeHyphenatedLineBreaks bo m pw sw S Sst ws = ([ws.length], S, Sst, ws) := by
  unfold computeHyphenatedLineBreaks
  obtain ⟨f, hf⟩ : ∃ f, totalByteFuel S = f + 1 := ⟨(S.map List.length).sum + S.length, rfl⟩
  rw [hf]
  simp only [greedyBreaks]
  rw [if_pos hpos]
  have hline : greedyLine bo m pw sw 0 (ws.length + 1) 0 0 S Sst ws =
      (ws.length, S, Sst, ws) := by
    rcases hgood with hfit | ⟨h1, h2, h3⟩
    · have := greedyLine_fit_run bo m pw sw hsw S Sst ws hfit (ws.length + 1) 0
        (Nat.zero_le _) (by omega)
      rw [show lwOf sw ws 0 0 = 0 from by unfold lwOf; rw [if_pos rfl]] at this
      exact this
    · have := greedyLine_oversized bo m pw sw S Sst ws h1 h2 h3 ws.length
      rw [this, h1]
  rw [hline]
  cases f with
  | zero => rfl
  | succ f2 =>
    simp only [greedyBreaks]
    rw [if_neg (lt_irrefl _)]
    rfl

/-- A failing split attempt leaves the pre-pass inner loop as a no-op. -/
theorem prePassAt_noop_fail (bo : BreakFn) (m : Measurer) (pw : Int) (i fuel : Nat)
    (words : List Word) (styles : List Style) (widths : List Nat)
    (hfail : (hyphenateWordAtIndex bo m i pw words styles widths true).ok = false) :
    prePassAt bo m pw i fuel words styles widths = (words, styles, widths) := by
  cases fuel with
  | zero => rfl
  | succ f =>
    simp only [prePassAt, hfail, Bool.false_eq_true, if_false, ite_self]

/-- On a buffer whose every word fits or is unsplittable, the whole
pre-pass is a no-op, regardless of fuel. -/
theorem prePass_noop (bo : BreakFn) (m : Measurer) (pw : Int)
    (words : List Word) (styles : List Style) (widths : List Nat)
    (hpost : ∀ k, k < widths.length → ¬ pw < (widths.getD k 0 : Int) ∨
      (hyphenateWordAtIndex bo m k pw words styles widths true).ok = false) :
    ∀ (fuel i : Nat), prePass bo m pw fuel i words styles widths =
      (words, styles, widths) := by
  intro fuel
  induction fuel with
  | zero => intro i; rfl
  | succ f ih =>
    intro i
    simp only [prePass]
    split
    · next hi =>
      rcases hpost i hi with h | h
      · rw [prePassAt_stop bo m pw i _ words styles widths h]
        exact ih (i + 1)
      · rw [prePassAt_noop_fail bo m pw i _ words styles widths h]
        exact ih (i + 1)
    · rfl

theorem reconstructBreaks_nil (fuel a : Nat) : reconstructBreaks fuel a [] = [] := by
  cases fuel with
  | zero => rfl
  | succ f => rfl

/-- Every walk chunk spans exactly the step recorded in the DP entry at its
start. -/
theorem reconstructBreaks_chunk_steps (pw sw : Int) (ws : List Nat) :
    ∀ (fuel a : Nat),
    ∀ ab ∈ Chunks a (reconstructBreaks fuel a (dpTable pw sw (ws.drop a))),
      ab.1 < ws.length ∧
      ab.2 = ab.1 + ((dpEntry pw sw (ws.getD ab.1 0) (ws.drop (ab.1 + 1))).2 + 1) := by
  intro fuel
  induction fuel with
  | zero =>
    intro a ab hab
    simp [reconstructBreaks, Chunks] at hab
  | succ fuel ih =>
    intro a ab hab
    by_cases ha : a < ws.length
    · rw [show ws.drop a = ws.getD a 0 :: ws.drop (a + 1) from getD_drop_cons ws a 0 ha,
        dpTable_cons] at hab
      rw [show reconstructBreaks (fuel + 1) a
            (dpEntry pw sw (ws.getD a 0) (ws.drop (a + 1)) ::
              dpTable pw sw (ws.drop (a + 1))) =
          (a + ((dpEntry pw sw (ws.getD a 0) (ws.drop (a + 1))).2 + 1)) ::
            reconstructBreaks fuel
              (a + ((dpEntry pw sw (ws.getD a 0) (ws.drop (a + 1))).2 + 1))
              ((dpEntry pw sw (ws.getD a 0) (ws.drop (a + 1)) ::
                dpTable pw sw (ws.drop (a + 1))).drop
                ((dpEntry pw sw (ws.getD a 0) (ws.drop (a + 1))).2 + 1))
          from by
            simp only [reconstructBreaks,
              Nat.max_eq_left (Nat.le_add_left 1
                (dpEntry pw sw (ws.getD a 0) (ws.drop (a + 1))).2)]] at hab
      rw [List.drop_succ_cons, dpTable_drop, List.drop_drop,
        show a + 1 + (dpEntry pw sw (ws.getD a 0) (ws.drop (a + 1))).2 =
          a + ((dpEntry pw sw (ws.getD a 0) (ws.drop (a + 1))).2 + 1) from by omega] at hab
      rcases List.mem_cons.1 hab with hab1 | hab2
      · subst hab1
        exact ⟨ha, rfl⟩
      · exact ih _ ab hab2
    · rw [show ws.drop a = [] from List.drop_eq_nil_of_le (by omega)] at hab
      simp [dpTable, reconstructBreaks, Chunks] at hab

/-- Running the DP breaker on a buffer that its own table already treats as
a single line — the pre-pass is a no-op and the head entry's step spans the
whole buffer — produces the single break at the end, everything unchanged. -/
theorem computeLineBreaks_suffix (bo : BreakFn) (m : Measurer) (pw sw : Int)
    (S : List Word) (Sst : List Style) (ws : List Nat)
    (hne : S.isEmpty = false) (hpos : 0 < ws.length)
    (hpost : ∀ k, k < ws.length → ¬ pw < (ws.getD k 0 : Int) ∨
      (hyphenateWordAtIndex bo m k pw S Sst ws true).ok = false)
    (hstep : (dpEntry pw sw (ws.getD 0 0) (ws.drop 1)).2 + 1 = ws.length) :
    computeLineBreaks bo m pw sw S Sst ws = ([ws.length], S, Sst, ws) := by
  unfold computeLineBreaks
  rw [if_neg (by rw [hne]; simp)]
  rw [prePass_noop bo m pw S Sst ws hpost (totalByteFuel S) 0]
  have hws : ws = ws.getD 0 0 :: ws.drop 1 := by
    have := getD_drop_cons ws 0 0 hpos
    rwa [List.drop_zero] at this
  have hlen1 : (dpTable pw sw (ws.drop 1)).length = ws.length - 1 := by
    rw [dpTable_length, List.length_drop]
  have htl : (dpTable pw sw ws).length = ws.length := dpTable_length pw sw ws
  obtain ⟨f, hf⟩ : ∃ f, (dpTable pw sw ws).length = f + 1 := ⟨ws.length - 1, by omega⟩
  show (reconstructBreaks (dpTable pw sw ws).length 0 (dpTable pw sw ws), S, Sst, ws) =
    ([ws.length], S, Sst, ws)
  rw [hf]
  rw [show dpTable pw sw ws =
      dpEntry pw sw (ws.getD 0 0) (ws.drop 1) :: dpTable pw sw (ws.drop 1) from by
    conv_lhs => rw [hws]
    exact dpTable_cons pw sw (ws.getD 0 0) (ws.drop 1)]
  rw [show reconstructBreaks (f + 1) 0
        (dpEntry pw sw (ws.getD 0 0) (ws.drop 1) :: dpTable pw sw (ws.drop 1)) =
      (0 + ((dpEntry pw sw (ws.getD 0 0) (ws.drop 1)).2 + 1)) ::
        reconstructBreaks f (0 + ((dpEntry pw sw (ws.getD 0 0) (ws.drop 1)).2 + 1))
          ((dpEntry pw sw (ws.getD 0 0) (ws.drop 1) ::
            dpTable pw sw (ws.drop 1)).drop
            ((dpEntry pw sw (ws.getD 0 0) (ws.drop 1)).2 + 1))
      from by
        simp only [reconstructBreaks,
          Nat.max_eq_left (Nat.le_add_left 1
            (dpEntry pw sw (ws.getD 0 0) (ws.drop 1)).2)]]
  rw [show (dpEntry pw sw (ws.getD 0 0) (ws.drop 1) ::
      dpTable pw sw (ws.drop 1)).drop
      ((dpEntry pw sw (ws.getD 0 0) (ws.drop 1)).2 + 1) = []
    from List.drop_eq_nil_of_le (by
      rw [List.length_cons, hlen1]
      omega)]
  rw [reconstructBreaks_nil, hstep]
  simp

/-- After extracting `count` lines the live buffer is the tail of the full
buffer from the last consumed break on. -/
theorem extractLines_partial (pw sw : Int) (align : Align) (widths : List Nat)
    (breaks : List Nat) (fin : List Word) (fstyles : List Style)
    (hmono : ∀ j, j < breaks.length → lastBreakOf breaks j ≤ breaks.getD j 0) :
    ∀ (count i : Nat) (words : List Word) (styles : List Style),
    i + count ≤ breaks.length →
    words = fin.drop (lastBreakOf breaks i) →
    styles = fstyles.drop (lastBreakOf breaks i) →
    (extractLines pw sw align widths breaks count i words styles).2.1 =
      fin.drop (lastBreakOf breaks (i + count)) ∧
    (extractLines pw sw align widths breaks count i words styles).2.2 =
      fstyles.drop (lastBreakOf breaks (i + count)) := by
  intro count
  induction count with
  | zero =>
    intro i words styles hic hw hs
    exact ⟨hw, hs⟩
  | succ count ih =>
    intro i words styles hic hw hs
    have hi : i < breaks.length := by omega
    have hp := hmono i hi
    have harith : lastBreakOf breaks i + (breaks.getD i 0 - lastBreakOf breaks i) =
        lastBreakOf breaks (i + 1) := by
      rw [show lastBreakOf breaks (i + 1) = breaks.getD i 0 from by
        unfold lastBreakOf
        rw [if_neg (Nat.succ_ne_zero i)]
        simp]
      omega
    have hr2 : (extractLine pw sw align widths breaks i words styles).2.1 =
        words.drop (breaks.getD i 0 - lastBreakOf breaks i) := rfl
    have hr3 : (extractLine pw sw align widths breaks i words styles).2.2 =
        styles.drop (breaks.getD i 0 - lastBreakOf breaks i) := rfl
    have hnext : (extractLine pw sw align widths breaks i words styles).2.1 =
        fin.drop (lastBreakOf breaks (i + 1)) := by
      rw [hr2, hw, List.drop_drop, harith]
    have hnext2 : (extractLine pw sw align widths breaks i words styles).2.2 =
        fstyles.drop (lastBreakOf breaks (i + 1)) := by
      rw [hr3, hs, List.drop_drop, harith]
    have hunf2 : (extractLines pw sw align widths breaks (count + 1) i words styles).2.1 =
        (extractLines pw sw align widths breaks count (i + 1)
          (extractLine pw sw align widths breaks i words styles).2.1
          (extractLine pw sw align widths breaks i words styles).2.2).2.1 := rfl
    have hunf3 : (extractLines pw sw align widths breaks (count + 1) i words styles).2.2 =
        (extractLines pw sw align widths breaks count (i + 1)
          (extractLine pw sw align widths breaks i words styles).2.1
          (extractLine pw sw align widths breaks i words styles).2.2).2.2 := rfl
    rw [hunf2, hunf3, show i + (count + 1) = (i + 1) + count from by omega]
    exact ih (i + 1) _ _ (by omega) hnext hnext2

/-- The extraction loop splits: running c + e lines equals running c lines
and then e more from the resulting buffer. -/
theorem extractLines_add (pw sw : Int) (align : Align) (widths : List Nat)
    (breaks : List Nat) :
    ∀ (c e i : Nat) (w : List Word) (s : List Style),
    (extractLines pw sw align widths breaks (c + e) i w s).1 =
      (extractLines pw sw align widths breaks c i w s).1 ++
      (extractLines pw sw align widths breaks e (i + c)
        (extractLines pw sw align widths breaks c i w s).2.1
        (extractLines pw sw align widths breaks c i w s).2.2).1 ∧
    (extractLines pw sw align widths breaks (c + e) i w s).2.1 =
      (extractLines pw sw align widths breaks e (i + c)
        (extractLines pw sw align widths breaks c i w s).2.1
        (extractLines pw sw align widths breaks c i w s).2.2).2.1 ∧
    (extractLines pw sw align widths breaks (c + e) i w s).2.2 =
      (extractLines pw sw align widths breaks e (i + c)
        (extractLines pw sw align widths breaks c i w s).2.1
        (extractLines pw sw align widths breaks c i w s).2.2).2.2 := by
  intro c
  induction c with
  | zero =>
    intro e i w s
    rw [Nat.zero_add, Nat.add_zero]
    exact ⟨(List.nil_append _).symm, rfl, rfl⟩
  | succ c ih =>
    intro e i w s
    rw [show c + 1 + e = (c + e) + 1 from by omega]
    have e1 : (extractLines pw sw align widths breaks ((c + e) + 1) i w s).1 =
        (extractLine pw sw align widths breaks i w s).1 ::
        (extractLines pw sw align widths breaks (c + e) (i + 1)
          (extractLine pw sw align widths breaks i w s).2.1
          (extractLine pw sw align widths breaks i w s).2.2).1 := rfl
    have e2 : (extractLines pw sw align widths breaks ((c + e) + 1) i w s).2.1 =
        (extractLines pw sw align widths breaks (c + e) (i + 1)
          (extractLine pw sw align widths breaks i w s).2.1
          (extractLine pw sw align widths breaks i w s).2.2).2.1 := rfl
    have e3 : (extractLines pw sw align widths breaks ((c + e) + 1) i w s).2.2 =
        (extractLines pw sw align widths breaks (c + e) (i + 1)
          (extractLine pw sw align widths breaks i w s).2.1
          (extractLine pw sw align widths breaks i w s).2.2).2.2 := rfl
    have f1 : (extractLines pw sw align widths breaks (c + 1) i w s).1 =
        (extractLine pw sw align widths breaks i w s).1 ::
        (extractLines pw sw align widths breaks c (i + 1)
          (extractLine pw sw align widths breaks i w s).2.1
          (extractLine pw sw align widths breaks i w s).2.2).1 := rfl
    have f2 : (extractLines pw sw align widths breaks (c + 1) i w s).2.1 =
        (extractLines pw sw align widths breaks c (i + 1)
          (extractLine pw sw align widths breaks i w s).2.1
          (extractLine pw sw align widths breaks i w s).2.2).2.1 := rfl
    have f3 : (extractLines pw sw align widths breaks (c + 1) i w s).2.2 =
        (extractLines pw sw align widths breaks c (i + 1)
          (extractLine pw sw align widths breaks i w s).2.1
          (extractLine pw sw align widths breaks i w s).2.2).2.2 := rfl
    obtain ⟨g1, g2, g3⟩ := ih e (i + 1)
      (extractLine pw sw align widths breaks i w s).2.1
      (extractLine pw sw align widths breaks i w s).2.2
    refine ⟨?_, ?_, ?_⟩
    · rw [e1, g1, f1, f2, f3, show i + (c + 1) = i + 1 + c from by omega]
      rfl
    · rw [e2, g2, f2, f3, show i + (c + 1) = i + 1 + c from by omega]
    · rw [e3, g3, f2, f3, show i + (c + 1) = i + 1 + c from by omega]

theorem extractLines_length (pw sw : Int) (align : Align) (widths : List Nat)
    (breaks : List Nat) :
    ∀ (count i : Nat) (w : List Word) (s : List Style),
    (extractLines pw sw align widths breaks count i w s).1.length = count := by
  intro count
  induction count with
  | zero =>
    intro i w s
    rfl
  | succ c ih =>
    intro i w s
    have e1 : (extractLines pw sw align widths breaks (c + 1) i w s).1 =
        (extractLine pw sw align widths breaks i w s).1 ::
        (extractLines pw sw align widths breaks c (i + 1)
          (extractLine pw sw align widths breaks i w s).2.1
          (extractLine pw sw align widths breaks i w s).2.2).1 := rfl
    rw [e1, List.length_cons, ih]

/-- Two line extractions agree whenever they see the same word count, the
same width segment, and the same last-line status. -/
theorem extractLine_congr (pw sw : Int) (align : Align)
    (widths1 widths2 breaks1 breaks2 : List Nat) (bi1 bi2 : Nat)
    (words : List Word) (styles : List Style)
    (hcount : breaks1.getD bi1 0 - lastBreakOf breaks1 bi1 =
      breaks2.getD bi2 0 - lastBreakOf breaks2 bi2)
    (hws : lineWidths widths1 (lastBreakOf breaks1 bi1) (breaks1.getD bi1 0) =
      lineWidths widths2 (lastBreakOf breaks2 bi2) (breaks2.getD bi2 0))
    (hlastb : decide (bi1 = breaks1.length - 1) = decide (bi2 = breaks2.length - 1)) :
    extractLine pw sw align widths1 breaks1 bi1 words styles =
      extractLine pw sw align widths2 breaks2 bi2 words styles := by
  simp only [extractLine]
  rw [show (if bi1 = 0 then 0 else breaks1.getD (bi1 - 1) 0) =
      lastBreakOf breaks1 bi1 from rfl,
    show (if bi2 = 0 then 0 else breaks2.getD (bi2 - 1) 0) =
      lastBreakOf breaks2 bi2 from rfl,
    hcount, hws, hlastb]

/-- The boolean outcome of `hyphenateWordAtIndex` depends only on the
target word, its style, the available width and the fallback flag — not on
where in the buffer that word sits. -/
theorem hyphenateWordAtIndex_ok_congr2 (bo : BreakFn) (m : Measurer) (i1 i2 : Nat)
    (avail : Int) (fb : Bool) (w1 w2 : List Word) (s1 s2 : List Style)
    (ww1 ww2 : List Nat)
    (hw : w1.getD i1 [] = w2.getD i2 [])
    (hs : s1.getD i1 .regular = s2.getD i2 .regular)
    (hl1 : i1 < w1.length) (hl2 : i2 < w2.length) :
    (hyphenateWordAtIndex bo m i1 avail w1 s1 ww1 fb).ok =
      (hyphenateWordAtIndex bo m i2 avail w2 s2 ww2 fb).ok := by
  by_cases ha : avail ≤ 0
  · rw [hyphenateWordAtIndex_nonpos bo m i1 avail w1 s1 ww1 fb ha,
      hyphenateWordAtIndex_nonpos bo m i2 avail w2 s2 ww2 fb ha]
  · have hg1 : ¬(decide (avail ≤ 0) || decide (w1.length ≤ i1)) = true := by
      simp only [Bool.or_eq_true, decide_eq_true_eq]
      push_neg
      omega
    have hg2 : ¬(decide (avail ≤ 0) || decide (w2.length ≤ i2)) = true := by
      simp only [Bool.or_eq_true, decide_eq_true_eq]
      push_neg
      omega
    unfold hyphenateWordAtIndex
    rw [if_neg hg1, if_neg hg2, hw, hs]
    cases hyphDecision bo m (w2.getD i2 []) (s2.getD i2 .regular) avail fb with
    | none => rfl
    | some chosen => rfl

theorem Coherent_drop (m : Measurer) (w : List Word) (s : List Style) (ww : List Nat)
    (hcoh : Coherent m w s ww) (A : Nat) :
    Coherent m (w.drop A) (s.drop A) (ww.drop A) := by
  intro i hi
  rw [getD_drop_add, getD_drop_add, getD_drop_add]
  exact hcoh (A + i) (by rw [List.length_drop] at hi; omega)

theorem segWidth_drop (sw : Int) (ws : List Nat) (a b : Nat) :
    segWidth sw (ws.drop a) 0 (b - a) = segWidth sw ws a b := by
  unfold segWidth lineWidths
  simp only [List.drop_zero, Nat.sub_zero]

/-- Re-running the greedy breaker on the final line's suffix of its own
output reproduces that line: the fresh widths are the cached ones, and the
whole suffix comes out as one untouched line. -/
theorem greedy_second_call (bo : BreakFn) (m : Measurer) (pw sw : Int)
    (hpw : 0 ≤ pw) (hsw : 0 ≤ sw)
    (words S : List Word) (styles Sst : List Style) (widths ws2 : List Nat)
    (brk : List Nat) (fin : List Word) (fsty : List Style) (fww : List Nat)
    (hpar : ParallelState words styles widths)
    (hcoh : Coherent m words styles widths)
    (hpos : 0 < widths.length)
    (hout : computeHyphenatedLineBreaks bo m pw sw words styles widths =
      (brk, fin, fsty, fww))
    (A : Nat) (hA : A = lastBreakOf brk (brk.length - 1))
    (hS : S = fin.drop A) (hSst : Sst = fsty.drop A)
    (hws2 : ws2 = calculateWordWidths m S Sst) :
    ws2 = fww.drop A ∧
    computeHyphenatedLineBreaks bo m pw sw S Sst ws2 = ([fww.length - A], S, Sst, ws2) ∧
    brk ≠ [] ∧
    (∀ j, j < brk.length → lastBreakOf brk j ≤ brk.getD j 0) ∧
    brk.getD (brk.length - 1) 0 = fww.length ∧
    A < fww.length ∧
    fin.length = fww.length ∧ fsty.length = fww.length := by
  obtain ⟨G1, G2, G3, G4, G5, G6, G7, G8, G9⟩ :=
    greedyBreaks_spec bo m pw sw hpw (totalByteFuel words) 0 [] words styles widths
      hpar (Nat.zero_le _) rfl (by intro ab hab; simp [Chunks] at hab)
      (brk, fin, fsty, fww) hout.symm
  dsimp only at G1 G2 G3 G4 G5 G6 G7 G8 G9
  have hfuel : stateMeasure words 0 < totalByteFuel words := by
    unfold stateMeasure totalByteFuel
    simp
  have hcover := G9 hfuel
  have hfin : fin.length = fww.length := G1.2
  have hfsty : fsty.length = fww.length := by
    have h1 := G1.1
    have h2 := G1.2
    omega
  have hLpos : 0 < fww.length := by
    have := hpar.2
    omega
  have hbne : brk ≠ [] := by
    intro h
    rw [h] at hcover
    simp only [List.getLastD_nil] at hcover
    omega
  have hgetlast : brk.getD (brk.length - 1) 0 = fww.length := by
    rw [getD_last_of_ne_nil _ hbne 0]
    exact hcover
  have hmono : ∀ j, j < brk.length → lastBreakOf brk j ≤ brk.getD j 0 := by
    intro j hj
    have hmem := chunk_getD brk 0 j hj
    have hb := (G8 _ hmem).1
    unfold lastBreakOf
    exact le_of_lt hb
  have hmem := chunk_getD brk 0 (brk.length - 1)
    (by cases brk with | nil => exact absurd rfl hbne | cons x l => simp)
  obtain ⟨hab1, hab2, habG⟩ := G8 _ hmem
  have hAlt : A < fww.length := by
    rw [hA]
    unfold lastBreakOf
    have := hgetlast
    omega
  have hco := greedyBreaks_coherent bo m pw sw (totalByteFuel words) 0 [] words styles widths
    hpar hcoh
  rw [show greedyBreaks bo m pw sw (totalByteFuel words) 0 [] words styles widths =
      (brk, fin, fsty, fww) from hout] at hco
  dsimp only at hco
  have hws2d : ws2 = fww.drop A := by
    rw [hws2, hS, hSst]
    exact calculate_of_coherent m (fin.drop A) (fsty.drop A) (fww.drop A)
      ⟨by rw [List.length_drop, List.length_drop]; omega,
       by rw [List.length_drop, List.length_drop]; omega⟩
      (Coherent_drop m fin fsty fww hco.2 A)
  have hGoodA : GoodLine bo m pw sw fin fsty fww A fww.length := by
    have h2 : brk.getD (brk.length - 1) 0 = fww.length := hgetlast
    rw [hA]
    rw [show lastBreakOf brk (brk.length - 1) =
        (if brk.length - 1 = 0 then 0 else brk.getD (brk.length - 1 - 1) 0) from rfl]
    rw [← h2]
    exact habG
  have hlen2 : (fww.drop A).length = fww.length - A := List.length_drop A fww
  have hsuffix : computeHyphenatedLineBreaks bo m pw sw S Sst (fww.drop A) =
      ([(fww.drop A).length], S, Sst, fww.drop A) := by
    apply computeHyphenatedLineBreaks_suffix bo m pw sw hsw S Sst (fww.drop A)
      (by omega)
    rcases hGoodA with hfit | ⟨hb1, hb2, hb3⟩
    · left
      rw [hlen2, segWidth_drop]
      exact hfit
    · right
      refine ⟨by omega, ?_, ?_⟩
      · rw [show (fww.drop A).getD 0 0 = fww.getD (A + 0) 0 from getD_drop_add fww A 0 0,
          Nat.add_zero]
        exact hb2
      · rw [← hb3]
        apply hyphenateWordAtIndex_ok_congr2
        · rw [hS, getD_drop_add, Nat.add_zero]
        · rw [hSst, getD_drop_add, Nat.add_zero]
        · rw [hS, List.length_drop]
          omega
        · omega
  refine ⟨hws2d, ?_, hbne, hmono, hgetlast, hAlt, by omega, by omega⟩
  rw [hws2d, hsuffix, hlen2]

/-- Re-running the DP breaker on the final line's suffix of its own output
reproduces that line: the pre-pass is a no-op, the suffix table is the tail
of the full table, and the walk's one remaining step spans the suffix. -/
theorem dp_second_call (bo : BreakFn) (m : Measurer) (pw sw : Int) (hpw : 0 ≤ pw)
    (words S : List Word) (styles Sst : List Style) (widths ws2 : List Nat)
    (brk : List Nat) (fin : List Word) (fsty : List Style) (fww : List Nat)
    (hpar : ParallelState words styles widths)
    (hcoh : Coherent m words styles widths)
    (hpos : 0 < widths.length)
    (hwne : words.isEmpty = false)
    (hout : computeLineBreaks bo m pw sw words styles widths = (brk, fin, fsty, fww))
    (A : Nat) (hA : A = lastBreakOf brk (brk.length - 1))
    (hS : S = fin.drop A) (hSst : Sst = fsty.drop A)
    (hws2 : ws2 = calculateWordWidths m S Sst) :
    ws2 = fww.drop A ∧
    computeLineBreaks bo m pw sw S Sst ws2 = ([fww.length - A], S, Sst, ws2) ∧
    brk ≠ [] ∧
    (∀ j, j < brk.length → lastBreakOf brk j ≤ brk.getD j 0) ∧
    brk.getD (brk.length - 1) 0 = fww.length ∧
    A < fww.length ∧
    fin.length = fww.length ∧ fsty.length = fww.length := by
  have hCeq : computeLineBreaks bo m pw sw words styles widths =
      (reconstructBreaks
        (dpTable pw sw
          (prePass bo m pw (totalByteFuel words) 0 words styles widths).2.2).length 0
        (dpTable pw sw
          (prePass bo m pw (totalByteFuel words) 0 words styles widths).2.2),
       (prePass bo m pw (totalByteFuel words) 0 words styles widths).1,
       (prePass bo m pw (totalByteFuel words) 0 words styles widths).2.1,
       (prePass bo m pw (totalByteFuel words) 0 words styles widths).2.2) := by
    unfold computeLineBreaks
    rw [if_neg (by rw [hwne]; simp)]
  rw [hCeq] at hout
  simp only [Prod.mk.injEq] at hout
  obtain ⟨hbrk, hfin, hfsty, hfww⟩ := hout
  obtain ⟨P1, P2, P3⟩ :=
    prePass_spec bo m pw sw hpw (totalByteFuel words) 0 words styles widths hpar
      (by intro k hk; exact absurd hk (by omega))
      (prePass bo m pw (totalByteFuel words) 0 words styles widths) rfl
  rw [hfin] at P1 P3
  rw [hfsty] at P1 P3
  rw [hfww] at P1 P2 P3
  rw [hfww] at hbrk
  have hfuel : stateMeasure words 0 < totalByteFuel words := by
    unfold stateMeasure totalByteFuel
    simp
  have hpost := P3 hfuel
  have hco := prePass_coherent bo m pw (totalByteFuel words) 0 words styles widths hpar hcoh
  rw [hfin, hfsty, hfww] at hco
  have hLpos : 0 < fww.length := by
    have h2 := hpar.2
    omega
  have hlastb := reconstructBreaks_last pw sw fww (dpTable pw sw fww).length 0 0
    (by rw [dpTable_length]; omega) hLpos
  rw [List.drop_zero] at hlastb
  have hcover : brk.getLastD 0 = fww.length := by
    rw [← hbrk]
    exact hlastb
  have hbne : brk ≠ [] := by
    intro h
    rw [h] at hcover
    simp only [List.getLastD_nil] at hcover
    omega
  have hgetlast : brk.getD (brk.length - 1) 0 = fww.length := by
    rw [getD_last_of_ne_nil _ hbne 0]
    exact hcover
  have hsteps := reconstructBreaks_chunk_steps pw sw fww (dpTable pw sw fww).length 0
  rw [List.drop_zero, hbrk] at hsteps
  have hmono : ∀ j, j < brk.length → lastBreakOf brk j ≤ brk.getD j 0 := by
    intro j hj
    have h2 := (hsteps _ (chunk_getD brk 0 j hj)).2
    dsimp only at h2
    unfold lastBreakOf
    omega
  have hmem := chunk_getD brk 0 (brk.length - 1)
    (by cases brk with | nil => exact absurd rfl hbne | cons x l => simp)
  obtain ⟨hlt0, hstep0⟩ := hsteps _ hmem
  dsimp only at hlt0 hstep0
  have hAif : (if brk.length - 1 = 0 then 0 else brk.getD (brk.length - 1 - 1) 0) = A := by
    rw [hA]
    rfl
  rw [hAif] at hstep0
  rw [hgetlast] at hstep0
  have hAlt : A < fww.length := by omega
  have hfinlen : fin.length = fww.length := P1.2
  have hfstylen : fsty.length = fww.length := by
    have h1 := P1.1
    have h2 := P1.2
    omega
  have hws2d : ws2 = fww.drop A := by
    rw [hws2, hS, hSst]
    exact calculate_of_coherent m (fin.drop A) (fsty.drop A) (fww.drop A)
      ⟨by rw [List.length_drop, List.length_drop]; omega,
       by rw [List.length_drop, List.length_drop]; omega⟩
      (Coherent_drop m fin fsty fww hco.2 A)
  have hpost2 : ∀ k, k < (fww.drop A).length →
      ¬ pw < ((fww.drop A).getD k 0 : Int) ∨
      (hyphenateWordAtIndex bo m k pw S Sst (fww.drop A) true).ok = false := by
    intro k hk
    have hk2 : A + k < fww.length := by
      rw [List.length_drop] at hk
      omega
    rcases hpost (A + k) hk2 with hl | ⟨-, hov, hfail⟩
    · left
      rw [segWidth_single sw fww (A + k) hk2] at hl
      rw [getD_drop_add]
      omega
    · right
      rw [← hfail]
      apply hyphenateWordAtIndex_ok_congr2
      · rw [hS, getD_drop_add]
      · rw [hSst, getD_drop_add]
      · rw [hS, List.length_drop]
        omega
      · omega
  have hstepS : (dpEntry pw sw ((fww.drop A).getD 0 0) ((fww.drop A).drop 1)).2 + 1 =
      (fww.drop A).length := by
    rw [show (fww.drop A).getD 0 0 = fww.getD A 0 from by rw [getD_drop_add, Nat.add_zero],
      List.drop_drop, List.length_drop]
    omega
  have hSempty : S.isEmpty = false := by
    rw [hS]
    cases hx : fin.drop A with
    | nil =>
      have := congrArg List.length hx
      rw [List.length_drop] at this
      simp at this
      omega
    | cons x l => rfl
  have hsuffix := computeLineBreaks_suffix bo m pw sw S Sst (fww.drop A) hSempty
    (by rw [List.length_drop]; omega) hpost2 hstepS
  refine ⟨hws2d, ?_, hbne, hmono, hgetlast, hAlt, hfinlen, hfstylen⟩
  rw [hws2d, hsuffix, List.length_drop]


/-- Under extra paragraph spacing, or Right/Center alignment, the
paragraph indent is the identity: the em space is only prepended to
Justified and LeftAlign paragraphs without extra spacing. -/
theorem applyParagraphIndent_id (pt : ParsedText)
    (hH : pt.extraParagraphSpacing = true ∨ pt.style = .rightAlign ∨ pt.style = .centerAlign) :
    applyParagraphIndent pt = pt := by
  rcases hH with h | h | h
  · simp [applyParagraphIndent, h]
  · simp [applyParagraphIndent, h]
  · simp [applyParagraphIndent, h]

/-- Closed form of `layoutAndExtractLines` on a nonempty buffer whose
indent is a no-op, phrased through the breaker's output tuple. -/
theorem layoutAndExtractLines_eq (bo : BreakFn) (m : Measurer) (pt : ParsedText)
    (vw sw : Nat) (inc : Bool) (hemp : ¬ pt.words.isEmpty = true)
    (hid : applyParagraphIndent pt = pt)
    (brk : List Nat) (fin : List Word) (fsty : List Style) (fww : List Nat)
    (hbr : (if pt.hyphenationEnabled = true then
        computeHyphenatedLineBreaks bo m (vw : Int) (sw : Int) pt.words pt.wordStyles
          (calculateWordWidths m pt.words pt.wordStyles)
      else
        computeLineBreaks bo m (vw : Int) (sw : Int) pt.words pt.wordStyles
          (calculateWordWidths m pt.words pt.wordStyles)) = (brk, fin, fsty, fww))
    (cnt : Nat)
    (hcnt : (if inc = true then brk.length else brk.length - 1) = cnt) :
    layoutAndExtractLines bo m pt vw sw inc =
      ((extractLines (vw : Int) (sw : Int) pt.style fww brk cnt 0 fin fsty).1,
       { pt with
          words := (extractLines (vw : Int) (sw : Int) pt.style fww brk cnt 0 fin fsty).2.1,
          wordStyles :=
            (extractLines (vw : Int) (sw : Int) pt.style fww brk cnt 0 fin fsty).2.2 }) := by
  have h0 : layoutAndExtractLines bo m pt vw sw inc =
      (let r :=
        if pt.hyphenationEnabled = true then
          computeHyphenatedLineBreaks bo m (vw : Int) (sw : Int) pt.words pt.wordStyles
            (calculateWordWidths m pt.words pt.wordStyles)
        else
          computeLineBreaks bo m (vw : Int) (sw : Int) pt.words pt.wordStyles
            (calculateWordWidths m pt.words pt.wordStyles)
      let cnt0 := if inc = true then r.1.length else r.1.length - 1
      let ex := extractLines (vw : Int) (sw : Int) pt.style r.2.2.2 r.1 cnt0 0 r.2.1 r.2.2.1
      (ex.1, { pt with words := ex.2.1, wordStyles := ex.2.2 })) := by
    unfold layoutAndExtractLines
    rw [if_neg hemp, hid]
  rw [hbr] at h0
  dsimp only at h0
  rw [hcnt] at h0
  exact h0

/-- Glue for the amended round trip: given the breaker output of the full
call and the second-call rerun facts, the first call's blocks followed by
the second call's single block are exactly the full call's blocks. -/
theorem roundtrip_glue (bo : BreakFn) (m : Measurer) (pt : ParsedText) (vw sw : Nat)
    (hemp : ¬ pt.words.isEmpty = true)
    (hH : pt.extraParagraphSpacing = true ∨ pt.style = .rightAlign ∨ pt.style = .centerAlign)
    (brk : List Nat) (fin : List Word) (fsty : List Style) (fww : List Nat)
    (A : Nat) (hA : A = lastBreakOf brk (brk.length - 1))
    (hbr : (if pt.hyphenationEnabled = true then
        computeHyphenatedLineBreaks bo m (vw : Int) (sw : Int) pt.words pt.wordStyles
          (calculateWordWidths m pt.words pt.wordStyles)
      else
        computeLineBreaks bo m (vw : Int) (sw : Int) pt.words pt.wordStyles
          (calculateWordWidths m pt.words pt.wordStyles)) = (brk, fin, fsty, fww))
    (hws2d : calculateWordWidths m (fin.drop A) (fsty.drop A) = fww.drop A)
    (hsec : (if pt.hyphenationEnabled = true then
        computeHyphenatedLineBreaks bo m (vw : Int) (sw : Int) (fin.drop A) (fsty.drop A)
          (calculateWordWidths m (fin.drop A) (fsty.drop A))
      else
        computeLineBreaks bo m (vw : Int) (sw : Int) (fin.drop A) (fsty.drop A)
          (calculateWordWidths m (fin.drop A) (fsty.drop A))) =
      ([fww.length - A], fin.drop A, fsty.drop A,
        calculateWordWidths m (fin.drop A) (fsty.drop A)))
    (hbne : brk ≠ [])
    (hmono : ∀ j, j < brk.length → lastBreakOf brk j ≤ brk.getD j 0)
    (hgetlast : brk.getD (brk.length - 1) 0 = fww.length)
    (hAlt : A < fww.length)
    (hfinlen : fin.length = fww.length) :
    (layoutAndExtractLines bo m pt vw sw false).1 ++
      (layoutAndExtractLines bo m (layoutAndExtractLines bo m pt vw sw false).2 vw sw true).1 =
      (layoutAndExtractLines bo m pt vw sw true).1 ∧
    (layoutAndExtractLines bo m (layoutAndExtractLines bo m pt vw sw false).2 vw sw
      true).1.length = 1 := by
  have hid : applyParagraphIndent pt = pt := applyParagraphIndent_id pt hH
  have hblen : 0 < brk.length := List.length_pos.mpr hbne
  have hF := layoutAndExtractLines_eq bo m pt vw sw false hemp hid brk fin fsty fww hbr
    (brk.length - 1) rfl
  have hT := layoutAndExtractLines_eq bo m pt vw sw true hemp hid brk fin fsty fww hbr
    brk.length rfl
  have hpart := extractLines_partial (vw : Int) (sw : Int) pt.style fww brk fin fsty hmono
    (brk.length - 1) 0 fin fsty (by omega)
    (by rw [show lastBreakOf brk 0 = 0 from rfl, List.drop_zero])
    (by rw [show lastBreakOf brk 0 = 0 from rfl, List.drop_zero])
  rw [Nat.zero_add, ← hA] at hpart
  have hfinne : ¬ (fin.drop A).isEmpty = true := by
    intro hx
    cases hd : fin.drop A with
    | nil =>
      have hlx := congrArg List.length hd
      rw [List.length_drop, List.length_nil] at hlx
      omega
    | cons a l =>
      rw [hd] at hx
      simp at hx
  have hid2 : applyParagraphIndent
      { pt with words := fin.drop A, wordStyles := fsty.drop A } =
      { pt with words := fin.drop A, wordStyles := fsty.drop A } :=
    applyParagraphIndent_id _ hH
  have hC := layoutAndExtractLines_eq bo m
    { pt with words := fin.drop A, wordStyles := fsty.drop A } vw sw true hfinne hid2
    [fww.length - A] (fin.drop A) (fsty.drop A)
    (calculateWordWidths m (fin.drop A) (fsty.drop A)) hsec 1 rfl
  rw [hws2d] at hC
  obtain ⟨hadd1, hadd2, hadd3⟩ := extractLines_add (vw : Int) (sw : Int) pt.style fww brk
    (brk.length - 1) 1 0 fin fsty
  rw [show brk.length - 1 + 1 = brk.length from by omega, Nat.zero_add,
    hpart.1, hpart.2] at hadd1
  rw [hF]
  dsimp only
  rw [hpart.1, hpart.2, hT, hC]
  dsimp only
  rw [hadd1]
  have hone1 : (extractLines (vw : Int) (sw : Int) pt.style (fww.drop A) [fww.length - A] 1 0
      (fin.drop A) (fsty.drop A)).1 =
      [(extractLine (vw : Int) (sw : Int) pt.style (fww.drop A) [fww.length - A] 0
        (fin.drop A) (fsty.drop A)).1] := rfl
  have hone2 : (extractLines (vw : Int) (sw : Int) pt.style fww brk 1 (brk.length - 1)
      (fin.drop A) (fsty.drop A)).1 =
      [(extractLine (vw : Int) (sw : Int) pt.style fww brk (brk.length - 1)
        (fin.drop A) (fsty.drop A)).1] := rfl
  have hcong : extractLine (vw : Int) (sw : Int) pt.style (fww.drop A) [fww.length - A] 0
      (fin.drop A) (fsty.drop A) =
      extractLine (vw : Int) (sw : Int) pt.style fww brk (brk.length - 1)
      (fin.drop A) (fsty.drop A) := by
    apply extractLine_congr
    · rw [hgetlast, show ([fww.length - A] : List Nat).getD 0 0 = fww.length - A from rfl,
        show lastBreakOf [fww.length - A] 0 = 0 from rfl, ← hA]
      omega
    · unfold lineWidths
      rw [hgetlast, show lastBreakOf [fww.length - A] 0 = 0 from rfl,
        show ([fww.length - A] : List Nat).getD 0 0 = fww.length - A from rfl,
        List.drop_zero, Nat.sub_zero, ← hA]
    · simp
  rw [hone1, hone2, hcong]
  exact ⟨rfl, rfl⟩


/-- **C1** (corrected): round-trip pagination.  When the paragraph indent
is a no-op — extra paragraph spacing enabled, or RightAlign/CenterAlign —
a first call with includeLastLine = false followed by a second call on the
remaining buffer with includeLastLine = true emits exactly the blocks of
the single full-buffer call, the second call contributing exactly the one
withheld final line (same words, x offsets, styles and alignment).  Over
all paragraphs the claim is false: for Justified/LeftAlign paragraphs
without extra spacing the second call re-applies the em-space indent to
the withheld line (see the counterexample). -/
theorem layout_roundtrip_amended (bo : BreakFn) (m : Measurer) (pt : ParsedText)
    (vw sw : Nat) (hlen : pt.words.length = pt.wordStyles.length)
    (hH : pt.extraParagraphSpacing = true ∨ pt.style = .rightAlign ∨ pt.style = .centerAlign) :
    (layoutAndExtractLines bo m pt vw sw false).1 ++
      (layoutAndExtractLines bo m (layoutAndExtractLines bo m pt vw sw false).2 vw sw true).1 =
      (layoutAndExtractLines bo m pt vw sw true).1 ∧
    (pt.words.isEmpty = false →
      (layoutAndExtractLines bo m (layoutAndExtractLines bo m pt vw sw false).2 vw sw
        true).1.length = 1) := by
  by_cases hemp : pt.words.isEmpty = true
  · have h1 : layoutAndExtractLines bo m pt vw sw true = ([], pt) := by
      unfold layoutAndExtractLines
      rw [if_pos hemp]
    have h2 : layoutAndExtractLines bo m pt vw sw false = ([], pt) := by
      unfold layoutAndExtractLines
      rw [if_pos hemp]
    rw [h2]
    dsimp only
    rw [h1]
    refine ⟨rfl, fun hf => ?_⟩
    rw [hemp] at hf
    exact Bool.noConfusion hf
  · have hwne : pt.words.isEmpty = false := by
      cases h : pt.words.isEmpty with
      | false => rfl
      | true => exact absurd h hemp
    have hwpos : 0 < pt.words.length := by
      cases hw : pt.words with
      | nil =>
        rw [hw] at hwne
        simp at hwne
      | cons w rest => simp [hw]
    have hpar : ParallelState pt.words pt.wordStyles
        (calculateWordWidths m pt.words pt.wordStyles) :=
      ⟨hlen, (calculateWordWidths_length m _ _ hlen).symm⟩
    have hcoh : Coherent m pt.words pt.wordStyles
        (calculateWordWidths m pt.words pt.wordStyles) :=
      Coherent_calculate m pt.words pt.wordStyles hlen
    have hwidpos : 0 < (calculateWordWidths m pt.words pt.wordStyles).length := by
      rw [calculateWordWidths_length m _ _ hlen]
      exact hwpos
    by_cases hhyp : pt.hyphenationEnabled = true
    · obtain ⟨brk, fin, fsty, fww, hout⟩ :
          ∃ brk fin fsty fww,
            computeHyphenatedLineBreaks bo m (vw : Int) (sw : Int) pt.words pt.wordStyles
              (calculateWordWidths m pt.words pt.wordStyles) = (brk, fin, fsty, fww) :=
        ⟨_, _, _, _, rfl⟩
      obtain ⟨hws2d, hsecond, hbne, hmono, hgetlast, hAlt, hfinlen, hfstylen⟩ :=
        greedy_second_call bo m (vw : Int) (sw : Int)
          (by exact_mod_cast Nat.zero_le vw) (by exact_mod_cast Nat.zero_le sw)
          pt.words (fin.drop (lastBreakOf brk (brk.length - 1)))
          pt.wordStyles (fsty.drop (lastBreakOf brk (brk.length - 1)))
          (calculateWordWidths m pt.words pt.wordStyles)
          (calculateWordWidths m (fin.drop (lastBreakOf brk (brk.length - 1)))
            (fsty.drop (lastBreakOf brk (brk.length - 1))))
          brk fin fsty fww hpar hcoh hwidpos hout
          (lastBreakOf brk (brk.length - 1)) rfl rfl rfl rfl
      have hbr : (if pt.hyphenationEnabled = true then
          computeHyphenatedLineBreaks bo m (vw : Int) (sw : Int) pt.words pt.wordStyles
            (calculateWordWidths m pt.words pt.wordStyles)
        else
          computeLineBreaks bo m (vw : Int) (sw : Int) pt.words pt.wordStyles
            (calculateWordWidths m pt.words pt.wordStyles)) = (brk, fin, fsty, fww) := by
        rw [if_pos hhyp]
        exact hout
      have hsec : (if pt.hyphenationEnabled = true then
          computeHyphenatedLineBreaks bo m (vw : Int) (sw : Int)
            (fin.drop (lastBreakOf brk (brk.length - 1)))
            (fsty.drop (lastBreakOf brk (brk.length - 1)))
            (calculateWordWidths m (fin.drop (lastBreakOf brk (brk.length - 1)))
              (fsty.drop (lastBreakOf brk (brk.length - 1))))
        else
          computeLineBreaks bo m (vw : Int) (sw : Int)
            (fin.drop (lastBreakOf brk (brk.length - 1)))
            (fsty.drop (lastBreakOf brk (brk.length - 1)))
            (calculateWordWidths m (fin.drop (lastBreakOf brk (brk.length - 1)))
              (fsty.drop (lastBreakOf brk (brk.length - 1))))) =
          ([fww.length - lastBreakOf brk (brk.length - 1)],
            fin.drop (lastBreakOf brk (brk.length - 1)),
            fsty.drop (lastBreakOf brk (brk.length - 1)),
            calculateWordWidths m (fin.drop (lastBreakOf brk (brk.length - 1)))
              (fsty.drop (lastBreakOf brk (brk.length - 1)))) := by
        rw [if_pos hhyp]
        exact hsecond
      obtain ⟨g1, g2⟩ := roundtrip_glue bo m pt vw sw hemp hH brk fin fsty fww
        (lastBreakOf brk (brk.length - 1)) rfl hbr hws2d hsec hbne hmono hgetlast hAlt hfinlen
      exact ⟨g1, fun _ => g2⟩
    · obtain ⟨brk, fin, fsty, fww, hout⟩ :
          ∃ brk fin fsty fww,
            computeLineBreaks bo m (vw : Int) (sw : Int) pt.words pt.wordStyles
              (calculateWordWidths m pt.words pt.wordStyles) = (brk, fin, fsty, fww) :=
        ⟨_, _, _, _, rfl⟩
      obtain ⟨hws2d, hsecond, hbne, hmono, hgetlast, hAlt, hfinlen, hfstylen⟩ :=
        dp_second_call bo m (vw : Int) (sw : Int)
          (by exact_mod_cast Nat.zero_le vw)
          pt.words (fin.drop (lastBreakOf brk (brk.length - 1)))
          pt.wordStyles (fsty.drop (lastBreakOf brk (brk.length - 1)))
          (calculateWordWidths m pt.words pt.wordStyles)
          (calculateWordWidths m (fin.drop (lastBreakOf brk (brk.length - 1)))
            (fsty.drop (lastBreakOf brk (brk.length - 1))))
          brk fin fsty fww hpar hcoh hwidpos hwne hout
          (lastBreakOf brk (brk.length - 1)) rfl rfl rfl rfl
      have hbr : (if pt.hyphenationEnabled = true then
          computeHyphenatedLineBreaks bo m (vw : Int) (sw : Int) pt.words pt.wordStyles
            (calculateWordWidths m pt.words pt.wordStyles)
        else
          computeLineBreaks bo m (vw : Int) (sw : Int) pt.words pt.wordStyles
            (calculateWordWidths m pt.words pt.wordStyles)) = (brk, fin, fsty, fww) := by
        rw [if_neg hhyp]
        exact hout
      have hsec : (if pt.hyphenationEnabled = true then
          computeHyphenatedLineBreaks bo m (vw : Int) (sw : Int)
            (fin.drop (lastBreakOf brk (brk.length - 1)))
            (fsty.drop (lastBreakOf brk (brk.length - 1)))
            (calculateWordWidths m (fin.drop (lastBreakOf brk (brk.length - 1)))
              (fsty.drop (lastBreakOf brk (brk.length - 1))))
        else
          computeLineBreaks bo m (vw : Int) (sw : Int)
            (fin.drop (lastBreakOf brk (brk.length - 1)))
            (fsty.drop (lastBreakOf brk (brk.length - 1)))
            (calculateWordWidths m (fin.drop (lastBreakOf brk (brk.length - 1)))
              (fsty.drop (lastBreakOf brk (brk.length - 1))))) =
          ([fww.length - lastBreakOf brk (brk.length - 1)],
            fin.drop (lastBreakOf brk (brk.length - 1)),
            fsty.drop (lastBreakOf brk (brk.length - 1)),
            calculateWordWidths m (fin.drop (lastBreakOf brk (brk.length - 1)))
              (fsty.drop (lastBreakOf brk (brk.length - 1)))) := by
        rw [if_neg hhyp]
        exact hsecond
      obtain ⟨g1, g2⟩ := roundtrip_glue bo m pt vw sw hemp hH brk fin fsty fww
        (lastBreakOf brk (brk.length - 1)) rfl hbr hws2d hsec hbne hmono hgetlast hAlt hfinlen
      exact ⟨g1, fun _ => g2⟩

/-- Counterexample to C1 as stated: a two-word LeftAlign paragraph without
extra paragraph spacing at viewport 10, space width 1.  The first call
(includeLastLine = false) consumes the em-space-indented first word; the
second call re-applies the paragraph indent to the remaining buffer, so
its emitted line holds the em-space-prefixed second word while the full
call's final line holds the bare word: the round trip fails. -/
theorem layout_roundtrip_counterexample :
    ¬ ((layoutAndExtractLines noBreaks byteLengthMeasurer
          ⟨[[97, 97, 97, 97, 97], [98, 98, 98, 98, 98]], [.regular, .regular],
            .leftAlign, false, false⟩ 10 1 false).1 ++
        (layoutAndExtractLines noBreaks byteLengthMeasurer
          (layoutAndExtractLines noBreaks byteLengthMeasurer
            ⟨[[97, 97, 97, 97, 97], [98, 98, 98, 98, 98]], [.regular, .regular],
              .leftAlign, false, false⟩ 10 1 false).2 10 1 true).1 =
        (layoutAndExtractLines noBreaks byteLengthMeasurer
          ⟨[[97, 97, 97, 97, 97], [98, 98, 98, 98, 98]], [.regular, .regular],
            .leftAlign, false, false⟩ 10 1 true).1) := by
  decide

/-- Witness for the amended C1: a two-word RightAlign paragraph (the
indent is a no-op) at viewport 10, space width 1, split across two
calls. -/
theorem layout_roundtrip_amended_witness :
    (⟨[[97, 97, 97, 97, 97], [98, 98, 98, 98, 98]], [.regular, .regular], .rightAlign,
      false, false⟩ : ParsedText).words.length =
      (⟨[[97, 97, 97, 97, 97], [98, 98, 98, 98, 98]], [.regular, .regular], .rightAlign,
        false, false⟩ : ParsedText).wordStyles.length ∧
    ((⟨[[97, 97, 97, 97, 97], [98, 98, 98, 98, 98]], [.regular, .regular], .rightAlign,
        false, false⟩ : ParsedText).extraParagraphSpacing = true ∨
      (⟨[[97, 97, 97, 97, 97], [98, 98, 98, 98, 98]], [.regular, .regular], .rightAlign,
        false, false⟩ : ParsedText).style = .rightAlign ∨
      (⟨[[97, 97, 97, 97, 97], [98, 98, 98, 98, 98]], [.regular, .regular], .rightAlign,
        false, false⟩ : ParsedText).style = .centerAlign) ∧
    ((layoutAndExtractLines noBreaks byteLengthMeasurer
        ⟨[[97, 97, 97, 97, 97], [98, 98, 98, 98, 98]], [.regular, .regular], .rightAlign,
          false, false⟩ 10 1 false).1 ++
      (layoutAndExtractLines noBreaks byteLengthMeasurer
        (layoutAndExtractLines noBreaks byteLengthMeasurer
          ⟨[[97, 97, 97, 97, 97], [98, 98, 98, 98, 98]], [.regular, .regular], .rightAlign,
            false, false⟩ 10 1 false).2 10 1 true).1 =
      (layoutAndExtractLines noBreaks byteLengthMeasurer
        ⟨[[97, 97, 97, 97, 97], [98, 98, 98, 98, 98]], [.regular, .regular], .rightAlign,
          false, false⟩ 10 1 true).1 ∧
      ((⟨[[97, 97, 97, 97, 97], [98, 98, 98, 98, 98]], [.regular, .regular], .rightAlign,
          false, false⟩ : ParsedText).words.isEmpty = false →
        (layoutAndExtractLines noBreaks byteLengthMeasurer
          (layoutAndExtractLines noBreaks byteLengthMeasurer
            ⟨[[97, 97, 97, 97, 97], [98, 98, 98, 98, 98]], [.regular, .regular], .rightAlign,
              false, false⟩ 10 1 false).2 10 1 true).1.length = 1)) :=
  ⟨rfl, Or.inr (Or.inl rfl),
    layout_roundtrip_amended noBreaks byteLengthMeasurer
      ⟨[[97, 97, 97, 97, 97], [98, 98, 98, 98, 98]], [.regular, .regular], .rightAlign,
        false, false⟩ 10 1 rfl (Or.inr (Or.inl rfl))⟩

end CP
